import Mathlib

/-!
# Shallow embedding of the SUDOKU_SOLVER core

This file embeds, in Lean, the data model and operations of the sudoku
state-space solver (grid oracle in `src/grid_utils.cc`, edge relaxation in
`include/lib/graph_utils.h`, binary heap in `include/lib/binary_heap.h`,
red-black tree and map in `include/lib/red_black_tree.h` / `map.h`, graph in
`include/lib/graph.h`, search algorithms in `src/solver.cc`), and proves or
refutes the frozen specification claims about them.

Modelling conventions:
* machine integers (`uint16_t`, `std::size_t`, `uint32_t`) are modelled as
  `Nat` (all values arising in the verified scenarios are far below any
  wrap-around bound); vertex costs, which mix `uint16_t` with `double_t`
  heuristics, are modelled as `Int` (every heuristic value produced by the
  program is a small integer, exactly representable in `double`);
* C++ raw pointers into the red-black tree are modelled by an arena of
  node records addressed by stable indices, `nullptr` being `Option.none`;
* loops and recursions whose termination is not structural take an explicit
  fuel argument that dominates the loop bound reached by the C++ code;
* the clock-seeded random number generator `Solver::GenRandomCost` is
  modelled by an explicit stream `Nat → Nat` of drawn values, consumed one
  value per call, so that dependence of the search on the generator can be
  stated and tested.
-/

namespace SudokuSpec

/-! ## Grid model (`src/grid_utils.cc`)

A grid is a row-major list of rows; the C++ `uint16_t grid[9][9]` corresponds
to a 9×9 well-formed list.  Out-of-range reads return 0, which never happens
at the guarded call sites exercised by the theorems below. -/

/-- `GRID_SIZE` from `include/constants.h`. -/
def GRID_SIZE : Nat := 9

/-- `SUBGRID_SIZE` from `include/constants.h`. -/
def SUBGRID_SIZE : Nat := 3

/-- A sudoku grid: rows of cell values, 0 meaning empty. -/
abbrev Grid : Type := List (List Nat)

/-- One delta `State = Pair<Pair<row,col>, num>` from `include/constants.h`. -/
abbrev Change : Type := (Nat × Nat) × Nat

/-- Read `grid[row][col]`. -/
def cellAt (g : Grid) (row col : Nat) : Nat :=
  (g.getD row []).getD col 0

/-- Write `grid[row][col] = num`. -/
def setCell (g : Grid) (row col num : Nat) : Grid :=
  g.set row ((g.getD row []).set col num)

/-- The grid is 9 rows of 9 cells, as the C++ fixed-size array guarantees. -/
def WFGrid (g : Grid) : Prop :=
  g.length = GRID_SIZE ∧ ∀ row ∈ g, row.length = GRID_SIZE

/-- `grid::IsInRow`: scan `col = 0..8` for `num` in the given row. -/
def IsInRow (g : Grid) (row num : Nat) : Bool :=
  (List.range GRID_SIZE).any fun col => cellAt g row col == num

/-- `grid::IsInCol`: scan `row = 0..8` for `num` in the given column. -/
def IsInCol (g : Grid) (col num : Nat) : Bool :=
  (List.range GRID_SIZE).any fun row => cellAt g row col == num

/-- `grid::IsInBox`: scan the 3×3 box containing `(row, col)` for `num`. -/
def IsInBox (g : Grid) (row col num : Nat) : Bool :=
  (List.range SUBGRID_SIZE).any fun x =>
    (List.range SUBGRID_SIZE).any fun y =>
      cellAt g (row - row % SUBGRID_SIZE + x) (col - col % SUBGRID_SIZE + y) == num

/-- `grid::IsValid`: `num` clashes with no row, column or box occupant. -/
def IsValid (g : Grid) (row col num : Nat) : Bool :=
  !IsInRow g row num && !IsInCol g col num && !IsInBox g row col num

/-- Row-major list of all 81 cell coordinates, in the scan order of the C++
nested loops. -/
def allCoords : List (Nat × Nat) :=
  (List.range GRID_SIZE).flatMap fun r => (List.range GRID_SIZE).map fun c => (r, c)

/-- `grid::FindEmptyCell`: first cell equal to 0 in row-major order, if any. -/
def findEmptyCell (g : Grid) : Option (Nat × Nat) :=
  allCoords.find? fun p => cellAt g p.1 p.2 == 0

/-- `grid::ApplyChanges`: replay the delta list onto the grid in order. -/
def applyChanges (g : Grid) (changes : List Change) : Grid :=
  changes.foldl (fun acc ch => setCell acc ch.1.1 ch.1.2 ch.2) g

/-- `grid::IsSolved`: no cell is 0.  (The constraint consistency of the cells
is not re-checked here, exactly as in the source.) -/
def isSolved (g : Grid) : Bool :=
  allCoords.all fun p => !(cellAt g p.1 p.2 == 0)

/-! ## Edge relaxation (`include/lib/graph_utils.h`)

`graph::Relax` mutates the target vertex; the embedding returns the updated
vertex together with the boolean result.  Costs are `Int` (see header). -/

/-- The cost-relevant fields of `graph::Vertex`: current cost, heuristic cost
and the predecessor edge (by edge ID). -/
structure RVertex where
  currentCost : Int
  heuristicCost : Int
  edge2Predecessor : Option Nat
  deriving Repr, DecidableEq

/-- The fields of `graph::Edge` read by `Relax`: ID and cost. -/
structure REdge where
  id : Nat
  cost : Int
  deriving Repr, DecidableEq

/-- `graph::Relax(u, v, uv)`: if `v.cost > (u.cost - u.heur) + uv.cost`, set
`v.cost := (u.cost - u.heur) + uv.cost + v.heur`, record `uv` as `v`'s
predecessor edge and return true; otherwise leave `v` unchanged and
return false. -/
def Relax (u v : RVertex) (uv : REdge) : RVertex × Bool :=
  if v.currentCost > (u.currentCost - u.heuristicCost) + uv.cost then
    ({ v with
        currentCost := (u.currentCost - u.heuristicCost) + uv.cost + v.heuristicCost,
        edge2Predecessor := some uv.id }, true)
  else
    (v, false)

/-- C2, counterexample: with `u.cost = 0`, `u.heur = 0`, `uv.cost = 9`,
`v.cost = 10`, `v.heur = 5`, `Relax` returns true yet `v.GetCurrentCost()`
afterwards is 14 > 10, so a true return does not imply a strict decrease of
`v`'s current cost. -/
theorem relax_true_without_cost_decrease :
    (Relax ⟨0, 0, none⟩ ⟨10, 5, none⟩ ⟨0, 9⟩).2 = true ∧
      ¬ (Relax ⟨0, 0, none⟩ ⟨10, 5, none⟩ ⟨0, 9⟩).1.currentCost <
          (⟨10, 5, none⟩ : RVertex).currentCost := by
  constructor
  · rfl
  · decide

/-- C2, amended: `Relax(u,v,uv)` returns true iff
`(u.cost - u.heur) + uv.cost` is strictly below `v`'s current cost; on a true
return it sets `v.cost` to that quantity plus `v.heur` (which may exceed the
previous cost) and records `uv` as `v`'s predecessor edge; on a false return
`v` is unchanged. -/
theorem relax_amended (u v : RVertex) (uv : REdge) :
    ((Relax u v uv).2 = true ↔
        (u.currentCost - u.heuristicCost) + uv.cost < v.currentCost) ∧
      ((Relax u v uv).2 = true →
        (Relax u v uv).1.currentCost =
            (u.currentCost - u.heuristicCost) + uv.cost + v.heuristicCost ∧
          (Relax u v uv).1.edge2Predecessor = some uv.id) ∧
      ((Relax u v uv).2 = false → (Relax u v uv).1 = v) := by
  by_cases h : v.currentCost > (u.currentCost - u.heuristicCost) + uv.cost
  · have e : Relax u v uv =
        ({ v with
            currentCost :=
              (u.currentCost - u.heuristicCost) + uv.cost + v.heuristicCost,
            edge2Predecessor := some uv.id }, true) := by
      simp [Relax, h]
    rw [e]
    exact ⟨⟨fun _ => h, fun _ => rfl⟩, fun _ => ⟨rfl, rfl⟩,
      fun hf => Bool.noConfusion hf⟩
  · have e : Relax u v uv = (v, false) := by simp [Relax, h]
    rw [e]
    exact ⟨⟨fun hf => Bool.noConfusion hf, fun hlt => absurd hlt h⟩,
      fun hf => Bool.noConfusion hf, fun _ => rfl⟩

/-- C2 amended, witness: the amended statement applied at the concrete
counterexample input, discharging both implications. -/
theorem relax_amended_witness :
    ((Relax ⟨0, 0, none⟩ ⟨10, 5, none⟩ ⟨0, 9⟩).2 = true ↔
        ((0 : Int) - 0) + 9 < 10) ∧
      (Relax ⟨0, 0, none⟩ ⟨10, 5, none⟩ ⟨0, 9⟩).1.currentCost = ((0 : Int) - 0) + 9 + 5 ∧
      (Relax ⟨0, 0, none⟩ ⟨10, 5, none⟩ ⟨0, 9⟩).1.edge2Predecessor = some 0 := by
  have h := relax_amended ⟨0, 0, none⟩ ⟨10, 5, none⟩ ⟨0, 9⟩
  exact ⟨h.1, (h.2.1 (by decide)).1, (h.2.1 (by decide)).2⟩

/-! ## Red-black tree (`include/lib/red_black_tree.h`, `include/lib/node_rbtree.h`)

The pointer-based tree is embedded as an arena: node records addressed by
stable indices, with explicit parent/left/right links (`Option Nat`).
`delete node` empties the node's slot.  Loops over parent links take fuel
that dominates the tree height reached by the C++ code; running out of fuel
models the divergence the C++ code would exhibit on a non-tree-shaped store,
which no reachable state has. -/

/-- Node colors, `enum Color { BLACK, RED }`. -/
inductive RBColor where
  | BLACK : RBColor
  | RED : RBColor
  deriving Repr, DecidableEq

export RBColor (BLACK RED)

/-- `rbtree::Node`: value, color and parent/left/right links. -/
structure TNode (α : Type) where
  value : α
  color : RBColor
  parent : Option Nat
  left : Option Nat
  right : Option Nat
  deriving Repr, DecidableEq

/-- `rbtree::RedBlackTree`: arena of node slots, root pointer, node count. -/
structure RBTree (α : Type) where
  nodes : List (Option (TNode α))
  root : Option Nat
  numNodes : Nat
  deriving Repr, DecidableEq

/-- The empty tree built by the `RedBlackTree` constructor. -/
def RBTree.empty (α : Type) : RBTree α := ⟨[], none, 0⟩

/-- Dereference a node index. -/
def getNode (t : RBTree α) (i : Nat) : Option (TNode α) :=
  t.nodes.getD i none

/-- Dereference a possibly-null node pointer. -/
def getNodeOpt (t : RBTree α) (oi : Option Nat) : Option (TNode α) :=
  oi.bind (getNode t)

/-- Rewrite the record stored at a live slot. -/
def updNode (t : RBTree α) (i : Nat) (f : TNode α → TNode α) : RBTree α :=
  match getNode t i with
  | some nd => { t with nodes := t.nodes.set i (some (f nd)) }
  | none => t

/-- `node->GetLeftNode()` through a possibly-null pointer. -/
def leftOf (t : RBTree α) (oi : Option Nat) : Option Nat :=
  match getNodeOpt t oi with
  | some nd => nd.left
  | none => none

/-- `node->GetRightNode()` through a possibly-null pointer. -/
def rightOf (t : RBTree α) (oi : Option Nat) : Option Nat :=
  match getNodeOpt t oi with
  | some nd => nd.right
  | none => none

/-- `node->GetParent()` through a possibly-null pointer. -/
def parentOf (t : RBTree α) (oi : Option Nat) : Option Nat :=
  match getNodeOpt t oi with
  | some nd => nd.parent
  | none => none

/-- `node->GetColor()`; a null node counts as BLACK (every actual read in the
source is null-guarded). -/
def colorOf (t : RBTree α) (oi : Option Nat) : RBColor :=
  match getNodeOpt t oi with
  | some nd => nd.color
  | none => BLACK

/-- `node->SetColor(c)` through a possibly-null pointer. -/
def setColorOpt (t : RBTree α) (oi : Option Nat) (c : RBColor) : RBTree α :=
  match oi with
  | some i => updNode t i (fun nd => { nd with color := c })
  | none => t

/-- `RedBlackTree::RotateLeft(node)`: standard left rotation, updating child
and parent links on both sides and reseating the root when the rotated node
was the root; returns the updated tree and the pivot. -/
def rotateLeft (t0 : RBTree α) (oi : Option Nat) : RBTree α × Option Nat :=
  match oi with
  | none => (t0, none)
  | some n =>
    match rightOf t0 (some n) with
    | none => (t0, some n)
    | some p =>
      let pl := leftOf t0 (some p)
      let np := parentOf t0 (some n)
      let t1 := updNode t0 n (fun nd => { nd with right := pl })
      let t2 := match pl with
        | some pli => updNode t1 pli (fun nd => { nd with parent := some n })
        | none => t1
      let t3 := updNode t2 p (fun nd => { nd with parent := np })
      let t4 := match np with
        | none => { t3 with root := some p }
        | some npi =>
          if leftOf t3 (some npi) = some n then
            updNode t3 npi (fun nd => { nd with left := some p })
          else
            updNode t3 npi (fun nd => { nd with right := some p })
      let t5 := updNode t4 p (fun nd => { nd with left := some n })
      let t6 := updNode t5 n (fun nd => { nd with parent := some p })
      (t6, some p)

/-- `RedBlackTree::RotateRight(node)`: mirror image of `rotateLeft`. -/
def rotateRight (t0 : RBTree α) (oi : Option Nat) : RBTree α × Option Nat :=
  match oi with
  | none => (t0, none)
  | some n =>
    match leftOf t0 (some n) with
    | none => (t0, some n)
    | some p =>
      let pr := rightOf t0 (some p)
      let np := parentOf t0 (some n)
      let t1 := updNode t0 n (fun nd => { nd with left := pr })
      let t2 := match pr with
        | some pri => updNode t1 pri (fun nd => { nd with parent := some n })
        | none => t1
      let t3 := updNode t2 p (fun nd => { nd with parent := np })
      let t4 := match np with
        | none => { t3 with root := some p }
        | some npi =>
          if leftOf t3 (some npi) = some n then
            updNode t3 npi (fun nd => { nd with left := some p })
          else
            updNode t3 npi (fun nd => { nd with right := some p })
      let t5 := updNode t4 p (fun nd => { nd with right := some n })
      let t6 := updNode t5 n (fun nd => { nd with parent := some p })
      (t6, some p)

/-- One `while` pass of `RedBlackTree::FixInsert`, recursing on fuel.  The
loop variable is the possibly-null current node. -/
def fixInsertGo (fuel : Nat) (t : RBTree α) (n? : Option Nat) : RBTree α :=
  match fuel with
  | 0 => t
  | fuel + 1 =>
    if n? ≠ t.root ∧ parentOf t n? ≠ none ∧ colorOf t (parentOf t n?) = RED then
      let p := parentOf t n?
      let g := parentOf t p
      if p = rightOf t g then
        let uncle := leftOf t g
        if uncle ≠ none ∧ colorOf t uncle = RED then
          let t1 := setColorOpt t uncle BLACK
          let t2 := setColorOpt t1 (parentOf t1 n?) BLACK
          let t3 := setColorOpt t2 (parentOf t2 (parentOf t2 n?)) RED
          fixInsertGo fuel t3 (parentOf t3 (parentOf t3 n?))
        else
          let step := if n? = leftOf t p then
              let n' := p
              ((rotateRight t n').1, n')
            else (t, n?)
          let t' := step.1
          let n' := step.2
          let t'' := setColorOpt t' (parentOf t' n') BLACK
          let t3 := setColorOpt t'' (parentOf t'' (parentOf t'' n')) RED
          let t4 := (rotateLeft t3 (parentOf t3 (parentOf t3 n'))).1
          fixInsertGo fuel t4 n'
      else
        let uncle := rightOf t g
        if uncle ≠ none ∧ colorOf t uncle = RED then
          let t1 := setColorOpt t uncle BLACK
          let t2 := setColorOpt t1 (parentOf t1 n?) BLACK
          let t3 := setColorOpt t2 (parentOf t2 (parentOf t2 n?)) RED
          fixInsertGo fuel t3 (parentOf t3 (parentOf t3 n?))
        else
          let step := if n? = rightOf t p then
              let n' := p
              ((rotateLeft t n').1, n')
            else (t, n?)
          let t' := step.1
          let n' := step.2
          let t'' := setColorOpt t' (parentOf t' n') BLACK
          let t3 := setColorOpt t'' (parentOf t'' (parentOf t'' n')) RED
          let t4 := (rotateRight t3 (parentOf t3 (parentOf t3 n'))).1
          fixInsertGo fuel t4 n'
    else
      t

/-- `RedBlackTree::FixInsert(node)`: run the fix-up loop, then color the root
BLACK. -/
def fixInsert (t : RBTree α) (n : Nat) : RBTree α :=
  let t' := fixInsertGo (t.nodes.length + 1) t (some n)
  setColorOpt t' t'.root BLACK

/-- The recursive `RedBlackTree::Insert(parent, node&, key)`.  The by-reference
`node` argument is a child slot of `parent`, identified by its side
(`true` = left).  When the slot is null a RED node is allocated there, the
count is bumped and `FixInsert` runs; when the slot holds an equal value its
node is returned untouched; otherwise the recursion descends. -/
def insertGo (less eq : α → α → Bool) :
    Nat → RBTree α → Nat → Bool → α → RBTree α × Option Nat
  | 0, t, _, _, _ => (t, none)
  | fuel + 1, t, parent, side, key =>
    let child := if side then leftOf t (some parent) else rightOf t (some parent)
    match child with
    | none =>
      let t1 := { t with numNodes := t.numNodes + 1 }
      let idx := t1.nodes.length
      let t2 := { t1 with
        nodes := t1.nodes ++ [some ⟨key, RED, some parent, none, none⟩] }
      let t3 := if side then updNode t2 parent (fun nd => { nd with left := some idx })
        else updNode t2 parent (fun nd => { nd with right := some idx })
      (fixInsert t3 idx, some idx)
    | some ci =>
      match getNode t ci with
      | none => (t, none)
      | some nd =>
        if eq nd.value key then (t, some ci)
        else if less key nd.value then insertGo less eq fuel t ci true key
        else insertGo less eq fuel t ci false key

/-- The public `RedBlackTree::Insert(key)`: handle an empty tree or a root
match directly, otherwise descend into the matching child slot of the root. -/
def insertRB (less eq : α → α → Bool) (t : RBTree α) (key : α) :
    RBTree α × Option Nat :=
  match t.root with
  | none =>
    let idx := t.nodes.length
    let t1 := { t with
      nodes := t.nodes ++ [some ⟨key, RED, none, none, none⟩],
      root := some idx,
      numNodes := t.numNodes + 1 }
    (setColorOpt t1 (some idx) BLACK, some idx)
  | some r =>
    match getNode t r with
    | none => (t, none)
    | some nd =>
      if eq nd.value key then (t, some r)
      else if less key nd.value then insertGo less eq t.nodes.length t r true key
      else insertGo less eq t.nodes.length t r false key

/-- The recursive `RedBlackTree::Search(node, key)`.  Result `some (some i)`
is a found node, `some none` is the null result, `none` marks the divergence
the C++ code would exhibit (dangling pointer or unbounded path), which no
reachable tree produces. -/
def searchGo (less eq : α → α → Bool) :
    Nat → RBTree α → Option Nat → α → Option (Option Nat)
  | 0, _, _, _ => none
  | _ + 1, _, none, _ => some none
  | fuel + 1, t, some i, key =>
    match getNode t i with
    | none => none
    | some nd =>
      if eq key nd.value then some (some i)
      else if less key nd.value then searchGo less eq fuel t nd.left key
      else searchGo less eq fuel t nd.right key

/-- The public `RedBlackTree::Search(key)`, from the root. -/
def searchRB (less eq : α → α → Bool) (t : RBTree α) (key : α) :
    Option (Option Nat) :=
  searchGo less eq (t.nodes.length + 1) t t.root key

/-- `RedBlackTree::Transplant(node1, node2)`: replace `node1` by `node2` in
`node1`'s parent (or at the root) and reset `node2`'s parent link. -/
def transplant (t : RBTree α) (n1 : Nat) (n2 : Option Nat) : RBTree α :=
  let p := parentOf t (some n1)
  let t1 := match p with
    | none => { t with root := n2 }
    | some pi =>
      if leftOf t (some pi) = some n1 then
        updNode t pi (fun nd => { nd with left := n2 })
      else
        updNode t pi (fun nd => { nd with right := n2 })
  match n2 with
  | none => t1
  | some n2i => updNode t1 n2i (fun nd => { nd with parent := p })

/-- Descend to the leftmost node of a subtree (first branch of
`RedBlackTree::FindSuccessor`). -/
def leftmostFrom (fuel : Nat) (t : RBTree α) (i : Nat) : Nat :=
  match fuel with
  | 0 => i
  | fuel + 1 =>
    match leftOf t (some i) with
    | none => i
    | some l => leftmostFrom fuel t l

/-- Ascend while the node is its parent's right child (second branch of
`RedBlackTree::FindSuccessor`). -/
def ascendWhileRight (fuel : Nat) (t : RBTree α) (i : Nat) : Option Nat :=
  match fuel with
  | 0 => none
  | fuel + 1 =>
    match parentOf t (some i) with
    | none => none
    | some p =>
      if some i = rightOf t (some p) then ascendWhileRight fuel t p
      else some p

/-- `RedBlackTree::FindSuccessor(node)`: leftmost node of the right subtree,
or else the first ancestor of which the node lies to the left. -/
def findSuccessor (t : RBTree α) (i : Nat) : Option Nat :=
  match rightOf t (some i) with
  | some r => some (leftmostFrom (t.nodes.length + 1) t r)
  | none => ascendWhileRight (t.nodes.length + 1) t i

/-- One `while` pass of `RedBlackTree::FixDelete`, recursing on fuel; the
loop variable is the possibly-null current node. -/
def fixDeleteGo (fuel : Nat) (t : RBTree α) (n? : Option Nat) :
    RBTree α × Option Nat :=
  match fuel with
  | 0 => (t, n?)
  | fuel + 1 =>
    if n? ≠ t.root ∧ n? ≠ none ∧ colorOf t n? = BLACK then
      let p := parentOf t n?
      if n? = leftOf t p then
        let aux := rightOf t p
        if aux ≠ none then
          if colorOf t aux = RED then
            let t1 := setColorOpt t aux BLACK
            let t2 := setColorOpt t1 (parentOf t1 n?) RED
            let t3 := (rotateLeft t2 (parentOf t2 n?)).1
            fixDeleteGo fuel t3 n?
          else if leftOf t aux ≠ none ∧ colorOf t (leftOf t aux) = BLACK ∧
              rightOf t aux ≠ none ∧ colorOf t (rightOf t aux) = BLACK then
            let t1 := setColorOpt t aux RED
            fixDeleteGo fuel t1 (parentOf t1 n?)
          else if rightOf t aux ≠ none ∧ colorOf t (rightOf t aux) = BLACK ∧
              leftOf t aux ≠ none then
            let t1 := setColorOpt t (leftOf t aux) BLACK
            let t2 := setColorOpt t1 aux RED
            let t3 := (rotateRight t2 aux).1
            fixDeleteGo fuel t3 n?
          else
            let t1 := setColorOpt t aux (colorOf t (parentOf t n?))
            let t2 := setColorOpt t1 (parentOf t1 n?) BLACK
            let t3 := if rightOf t2 aux ≠ none then
                setColorOpt t2 (rightOf t2 aux) BLACK
              else t2
            let t4 := (rotateLeft t3 (parentOf t3 n?)).1
            fixDeleteGo fuel t4 t4.root
        else
          (t, n?)
      else
        let aux := leftOf t p
        if aux ≠ none then
          if colorOf t aux = RED then
            let t1 := setColorOpt t aux BLACK
            let t2 := setColorOpt t1 (parentOf t1 n?) RED
            let t3 := (rotateRight t2 (parentOf t2 n?)).1
            fixDeleteGo fuel t3 n?
          else if leftOf t aux ≠ none ∧ colorOf t (leftOf t aux) = BLACK ∧
              rightOf t aux ≠ none ∧ colorOf t (rightOf t aux) = BLACK then
            let t1 := setColorOpt t aux RED
            fixDeleteGo fuel t1 (parentOf t1 n?)
          else if leftOf t aux ≠ none ∧ colorOf t (leftOf t aux) = BLACK ∧
              rightOf t aux ≠ none then
            let t1 := setColorOpt t (rightOf t aux) BLACK
            let t2 := setColorOpt t1 aux RED
            let t3 := (rotateLeft t2 aux).1
            fixDeleteGo fuel t3 n?
          else
            let t1 := setColorOpt t aux (colorOf t (parentOf t n?))
            let t2 := setColorOpt t1 (parentOf t1 n?) BLACK
            let t3 := if leftOf t2 aux ≠ none then
                setColorOpt t2 (leftOf t2 aux) BLACK
              else t2
            let t4 := (rotateRight t3 (parentOf t3 n?)).1
            fixDeleteGo fuel t4 t4.root
        else
          (t, n?)
    else
      (t, n?)

/-- `RedBlackTree::FixDelete(node)`: run the loop, then color the final node
BLACK when it is non-null.  Note that a null starting node makes the whole
fix-up a no-op. -/
def fixDelete (t : RBTree α) (n? : Option Nat) : RBTree α :=
  let r := fixDeleteGo (4 * t.nodes.length + 4) t n?
  match r.2 with
  | some i => updNode r.1 i (fun nd => { nd with color := BLACK })
  | none => r.1

/-- Tail of `RedBlackTree::DeleteNode`: decrement the count, run `FixDelete`
when the removed color was BLACK, then free the deleted node's slot. -/
def finishDelete (t : RBTree α) (i : Nat) (nodeColor : RBColor)
    (aux : Option Nat) : RBTree α :=
  let t1 := { t with numNodes := t.numNodes - 1 }
  let t2 := if nodeColor = BLACK then fixDelete t1 aux else t1
  { t2 with nodes := t2.nodes.set i none }

/-- `RedBlackTree::DeleteNode(node)`: the three-case deletion (no left child,
no right child, two children via the in-order successor), followed by the
conditional fix-up.  Field reads are re-executed against the current store at
each step, matching the pointer aliasing of the source (in particular
`node->GetRightNode()` is re-read after the transplant may have changed it). -/
def deleteNode (t : RBTree α) (oi : Option Nat) : RBTree α :=
  match oi with
  | none => t
  | some i =>
    let nodeColor0 := colorOf t (some i)
    if leftOf t (some i) = none then
      let aux := rightOf t (some i)
      let t1 := transplant t i (rightOf t (some i))
      finishDelete t1 i nodeColor0 aux
    else if rightOf t (some i) = none then
      let aux := leftOf t (some i)
      let t1 := transplant t i (leftOf t (some i))
      finishDelete t1 i nodeColor0 aux
    else
      match findSuccessor t i with
      | none => t
      | some sc =>
        let nodeColor := colorOf t (some sc)
        let aux := rightOf t (some sc)
        let t1 :=
          if aux ≠ none ∧ parentOf t (some sc) = some i then
            match aux with
            | some ai => updNode t ai (fun nd => { nd with parent := some sc })
            | none => t
          else
            let ta := transplant t sc (rightOf t (some sc))
            let tb := updNode ta sc (fun nd => { nd with right := rightOf ta (some i) })
            if rightOf tb (some sc) ≠ none ∧
                parentOf tb (rightOf tb (some sc)) ≠ none then
              match rightOf tb (some sc) with
              | some ri => updNode tb ri (fun nd => { nd with parent := some sc })
              | none => tb
            else tb
        let t2 := transplant t1 i (some sc)
        let t3 := updNode t2 sc (fun nd => { nd with left := leftOf t2 (some i) })
        let t4 := match leftOf t3 (some sc) with
          | some li => updNode t3 li (fun nd => { nd with parent := some sc })
          | none => t3
        let t5 := updNode t4 sc (fun nd => { nd with color := colorOf t4 (some i) })
        finishDelete t5 i nodeColor aux

/-- `RedBlackTree::Remove(key)`: `DeleteNode(Search(key))`. -/
def removeRB (less eq : α → α → Bool) (t : RBTree α) (key : α) : RBTree α :=
  match searchRB less eq t key with
  | some oi => deleteNode t oi
  | none => t

/-- `RedBlackTree::Size()`. -/
def sizeRB (t : RBTree α) : Nat := t.numNodes

/-! ### Red-black invariants

`blackCountsGo` lists the number of BLACK nodes on every path from the given
node down to a null leaf (a null leaf itself counting 1, as in
`GetBlackNodeCount`); `redRedOkGo` checks that no RED node has a RED child;
`rbProps` is the claim's invariant set. -/

/-- Black-node count of every root-to-null path of a subtree. -/
def blackCountsGo (fuel : Nat) (t : RBTree α) (oi : Option Nat) : List Nat :=
  match fuel with
  | 0 => [0]
  | fuel + 1 =>
    match oi with
    | none => [1]
    | some i =>
      let inc := if colorOf t (some i) = BLACK then 1 else 0
      (blackCountsGo fuel t (leftOf t (some i)) ++
        blackCountsGo fuel t (rightOf t (some i))).map (· + inc)

/-- No RED node of the subtree has a RED child. -/
def redRedOkGo (fuel : Nat) (t : RBTree α) (oi : Option Nat) : Bool :=
  match fuel with
  | 0 => true
  | fuel + 1 =>
    match oi with
    | none => true
    | some i =>
      (if colorOf t (some i) = RED then
        decide (colorOf t (leftOf t (some i)) = BLACK) &&
          decide (colorOf t (rightOf t (some i)) = BLACK)
      else true) &&
        redRedOkGo fuel t (leftOf t (some i)) &&
        redRedOkGo fuel t (rightOf t (some i))

/-- All entries of the list are equal. -/
def allEqualNat : List Nat → Bool
  | [] => true
  | c :: rest => rest.all fun x => decide (x = c)

/-- The red-black property set of the claim: BLACK root, no RED node with a
RED child, and the same BLACK count on every root-to-null path. -/
def rbProps (t : RBTree α) : Bool :=
  (match t.root with
    | none => true
    | some r => decide (colorOf t (some r) = BLACK)) &&
    redRedOkGo (t.nodes.length + 1) t t.root &&
    allEqualNat (blackCountsGo (t.nodes.length + 1) t t.root)

/-- `RedBlackTree::GetBlackNodeCount(node)`, verbatim: null counts 1; a BLACK
node returns its left count plus one, a RED node returns its right count. -/
def getBlackNodeCount (fuel : Nat) (t : RBTree α) (oi : Option Nat) : Nat :=
  match fuel with
  | 0 => 0
  | fuel + 1 =>
    match oi with
    | none => 1
    | some i =>
      let leftCount := getBlackNodeCount fuel t (leftOf t (some i))
      let rightCount := getBlackNodeCount fuel t (rightOf t (some i))
      if colorOf t (some i) = BLACK then leftCount + 1 else rightCount

/-- `RedBlackTree::IsRedBlackTreeBalanced(node)`, the tree's own diagnostic:
BLACK root, only BLACK children under a RED node, and equal
`GetBlackNodeCount` on the two child subtrees, recursively. -/
def isRedBlackTreeBalancedGo (fuel : Nat) (t : RBTree α) (oi : Option Nat) : Bool :=
  match fuel with
  | 0 => true
  | fuel + 1 =>
    match oi with
    | none => true
    | some i =>
      if oi = t.root ∧ colorOf t (some i) ≠ BLACK then false
      else if colorOf t (some i) = RED ∧
          ((leftOf t (some i) ≠ none ∧ colorOf t (leftOf t (some i)) ≠ BLACK) ∨
            (rightOf t (some i) ≠ none ∧ colorOf t (rightOf t (some i)) ≠ BLACK)) then
        false
      else if getBlackNodeCount (fuel + 1) t (leftOf t (some i)) ≠
          getBlackNodeCount (fuel + 1) t (rightOf t (some i)) then
        false
      else
        isRedBlackTreeBalancedGo fuel t (leftOf t (some i)) &&
          isRedBlackTreeBalancedGo fuel t (rightOf t (some i))

/-- The public `RedBlackTree::IsRedBlackTreeBalanced()`. -/
def isRedBlackTreeBalancedRB (t : RBTree α) : Bool :=
  isRedBlackTreeBalancedGo (t.nodes.length + 1) t t.root

/-! ## Map (`include/lib/map.h`)

`rbtree::Map<K,V>` wraps the tree at value type `Pair<K,V>` with the
comparators `PairLess` / `PairEqual` from `include/lib/comparators.h`, which
compare keys only.  The embedding instantiates `K = V = Nat`. -/

/-- `comparators::PairLess`: compare pairs by key. -/
def pairLess (a b : Nat × Nat) : Bool := decide (a.1 < b.1)

/-- `comparators::PairEqual`: pairs are equal when their keys are. -/
def pairEqual (a b : Nat × Nat) : Bool := decide (a.1 = b.1)

/-- A `rbtree::Map<Nat, Nat>` state. -/
abbrev MapNN := RBTree (Nat × Nat)

/-- The empty map. -/
def mapEmpty : MapNN := RBTree.empty _

/-- `Map::Insert(key, value)`: `RBTree::Insert(Pair(key, value))`, returning
the updated map and the (possibly pre-existing) node for the key. -/
def mapInsert (m : MapNN) (k v : Nat) : MapNN × Option Nat :=
  insertRB pairLess pairEqual m (k, v)

/-- `Map::Get(key)`: `Search(Pair(key, typeV()))`; throws
`std::out_of_range("Key not found in the map")` when the node is null,
otherwise returns the stored value.  The map state is not touched: the
embedding returns only the result, as the source mutates nothing. -/
def mapGet (m : MapNN) (k : Nat) : Except String Nat :=
  match searchRB pairLess pairEqual m (k, 0) with
  | some (some i) =>
    Except.ok (match getNode m i with
      | some nd => nd.value.2
      | none => 0)
  | _ => Except.error "Key not found in the map"

/-- `Map::Contains(key)`: `Search(Pair(key, typeV())) != nullptr`. -/
def mapContains (m : MapNN) (k : Nat) : Bool :=
  match searchRB pairLess pairEqual m (k, 0) with
  | some (some _) => true
  | _ => false

/-- `Map::operator[](key)`: `RBTree::Insert(Pair(key, typeV()))`, i.e.
lookup-or-insert with a default-constructed value, never an error. -/
def mapIndexOp (m : MapNN) (k : Nat) : MapNN × Option Nat :=
  insertRB pairLess pairEqual m (k, 0)

/-- `Map::At(key)`: same body as `operator[]`. -/
def mapAt (m : MapNN) (k : Nat) : MapNN × Option Nat :=
  insertRB pairLess pairEqual m (k, 0)

/-- `Map::Remove(key)`: `RBTree::Remove(Pair(key, typeV()))`. -/
def mapRemove (m : MapNN) (k : Nat) : MapNN :=
  removeRB pairLess pairEqual m (k, 0)

/-- `Map::Size()`. -/
def mapSize (m : MapNN) : Nat := m.numNodes

/-- `less` comparator at `Nat` keys (`comparators::Less`). -/
def natLess (a b : Nat) : Bool := decide (a < b)

/-- `equal` comparator at `Nat` keys (`comparators::Equal`). -/
def natEqual (a b : Nat) : Bool := decide (a = b)

/-- `RedBlackTree<Nat>::Insert`, tree only. -/
def insertNat (t : RBTree Nat) (k : Nat) : RBTree Nat :=
  (insertRB natLess natEqual t k).1

/-- `RedBlackTree<Nat>::Remove`, tree only. -/
def removeNat (t : RBTree Nat) (k : Nat) : RBTree Nat :=
  removeRB natLess natEqual t k

/-! ### Structural bookkeeping lemmas

`FixInsert` recolors and rotates but never touches the node count nor any
stored value; these lemmas record that, slot by slot. -/

/-- The stored value at a slot, if the slot is live. -/
def valueAt? (t : RBTree α) (j : Nat) : Option α :=
  (getNode t j).map (·.value)

theorem getNode_lt_length {t : RBTree α} {i : Nat} {nd : TNode α}
    (h : getNode t i = some nd) : i < t.nodes.length := by
  by_contra hge
  rw [getNode, List.getD_eq_default _ _ (Nat.le_of_not_lt hge)] at h
  cases h

theorem updNode_numNodes (t : RBTree α) (i : Nat) (f : TNode α → TNode α) :
    (updNode t i f).numNodes = t.numNodes := by
  unfold updNode; split <;> rfl

theorem updNode_root (t : RBTree α) (i : Nat) (f : TNode α → TNode α) :
    (updNode t i f).root = t.root := by
  unfold updNode; split <;> rfl

theorem updNode_length (t : RBTree α) (i : Nat) (f : TNode α → TNode α) :
    (updNode t i f).nodes.length = t.nodes.length := by
  unfold updNode; split <;> simp

theorem setColorOpt_numNodes (t : RBTree α) (oi : Option Nat) (c : RBColor) :
    (setColorOpt t oi c).numNodes = t.numNodes := by
  unfold setColorOpt; split
  · exact updNode_numNodes ..
  · rfl

theorem rotateLeft_numNodes (t : RBTree α) (oi : Option Nat) :
    ((rotateLeft t oi).1).numNodes = t.numNodes := by
  unfold rotateLeft
  cases oi with
  | none => rfl
  | some n =>
    cases hr : rightOf t (some n) with
    | none => simp [hr]
    | some p =>
      simp only [hr]
      cases hpl : leftOf t (some p) <;>
        cases hnp : parentOf t (some n) <;>
          simp [hpl, hnp, updNode_numNodes] <;>
            split <;> simp [updNode_numNodes]

theorem rotateRight_numNodes (t : RBTree α) (oi : Option Nat) :
    ((rotateRight t oi).1).numNodes = t.numNodes := by
  unfold rotateRight
  cases oi with
  | none => rfl
  | some n =>
    cases hl : leftOf t (some n) with
    | none => simp [hl]
    | some p =>
      simp only [hl]
      cases hpr : rightOf t (some p) <;>
        cases hnp : parentOf t (some n) <;>
          simp [hpr, hnp, updNode_numNodes] <;>
            split <;> simp [updNode_numNodes]

theorem fixInsertGo_numNodes (fuel : Nat) (t : RBTree α) (n? : Option Nat) :
    (fixInsertGo fuel t n?).numNodes = t.numNodes := by
  induction fuel generalizing t n? with
  | zero => rfl
  | succ fuel ih =>
    unfold fixInsertGo
    dsimp only
    split
    · split <;> split
      · rw [ih]; simp [setColorOpt_numNodes]
      · rw [ih]
        split <;>
          simp [setColorOpt_numNodes, rotateLeft_numNodes, rotateRight_numNodes]
      · rw [ih]; simp [setColorOpt_numNodes]
      · rw [ih]
        split <;>
          simp [setColorOpt_numNodes, rotateLeft_numNodes, rotateRight_numNodes]
    · rfl

theorem fixInsert_numNodes (t : RBTree α) (n : Nat) :
    (fixInsert t n).numNodes = t.numNodes := by
  unfold fixInsert
  rw [setColorOpt_numNodes, fixInsertGo_numNodes]

/-- C3: the red-black invariant set is violated by a reachable sequence of
operations.  Starting from the empty tree, `Insert 1; Insert 2; Insert 3;
Insert 4` yields a balanced tree, but `Remove 1` deletes a BLACK leaf whose
fix-up starts from a null pointer and therefore does nothing, leaving paths
of unequal BLACK counts; the tree's own `IsRedBlackTreeBalanced` diagnostic
also reports the corruption, and the mathematical property set `rbProps`
fails. -/
theorem rb_remove_breaks_invariants :
    rbProps (insertNat (insertNat (insertNat (insertNat (RBTree.empty Nat) 1) 2) 3) 4)
        = true ∧
      rbProps (removeNat
          (insertNat (insertNat (insertNat (insertNat (RBTree.empty Nat) 1) 2) 3) 4) 1)
        = false ∧
      isRedBlackTreeBalancedRB (removeNat
          (insertNat (insertNat (insertNat (insertNat (RBTree.empty Nat) 1) 2) 3) 4) 1)
        = false := by
  refine ⟨by decide, by decide, by decide⟩

/-- C5: `Map::Get` on an absent key reports the NotFound error (the exact
`std::out_of_range` message of the source) and performs no insertion: the
embedding of `Get` is a pure function of the map (the source only calls the
read-only `Search`), so the map, its size and all other keys are untouched
by construction. -/
theorem mapGet_missing_key (m : MapNN) (k : Nat)
    (h : mapContains m k = false) :
    mapGet m k = Except.error "Key not found in the map" := by
  unfold mapGet
  unfold mapContains at h
  cases e : searchRB pairLess pairEqual m (k, 0) with
  | none => rfl
  | some oi =>
    cases oi with
    | none => rfl
    | some i => rw [e] at h; simp at h

/-- C5, witness: a concrete one-entry map and an absent key. -/
theorem mapGet_missing_key_witness :
    mapContains (mapInsert mapEmpty 1 2).1 0 = false ∧
      mapGet (mapInsert mapEmpty 1 2).1 0 =
        Except.error "Key not found in the map" :=
  ⟨by decide, mapGet_missing_key (mapInsert mapEmpty 1 2).1 0 (by decide)⟩

theorem valueAt?_setRoot (t : RBTree α) (r : Option Nat) (j : Nat) :
    valueAt? { t with root := r } j = valueAt? t j := rfl

theorem getNode_set_self {t : RBTree α} {i : Nat} (hlt : i < t.nodes.length)
    (o : Option (TNode α)) :
    getNode { t with nodes := t.nodes.set i o } i = o := by
  unfold getNode
  rw [List.getD_eq_getD_get?, List.get?_eq_getElem?,
    List.getElem?_set_eq_of_lt _ hlt]
  rfl

theorem getNode_set_ne {t : RBTree α} {i j : Nat} (h : i ≠ j)
    (o : Option (TNode α)) :
    getNode { t with nodes := t.nodes.set i o } j = getNode t j := by
  unfold getNode
  rw [List.getD_eq_getD_get?, List.get?_eq_getElem?, List.getElem?_set_ne h,
    ← List.get?_eq_getElem?, ← List.getD_eq_getD_get?]

theorem valueAt?_updNode_preserve (t : RBTree α) (i : Nat) (f : TNode α → TNode α)
    (j : Nat) (hf : ∀ nd, (f nd).value = nd.value) :
    valueAt? (updNode t i f) j = valueAt? t j := by
  unfold updNode
  cases hn : getNode t i with
  | none => rfl
  | some nd =>
    unfold valueAt?
    by_cases hij : j = i
    · subst hij
      rw [getNode_set_self (getNode_lt_length hn), hn]
      simp [hf]
    · rw [getNode_set_ne (fun he => hij he.symm)]

theorem valueAt?_setColorOpt (t : RBTree α) (oi : Option Nat) (c : RBColor)
    (j : Nat) : valueAt? (setColorOpt t oi c) j = valueAt? t j := by
  unfold setColorOpt
  split
  · exact valueAt?_updNode_preserve _ _ _ _ (fun nd => rfl)
  · rfl

theorem valueAt?_rotateLeft (t : RBTree α) (oi : Option Nat) (j : Nat) :
    valueAt? ((rotateLeft t oi).1) j = valueAt? t j := by
  unfold rotateLeft
  cases oi with
  | none => rfl
  | some n =>
    cases hr : rightOf t (some n) with
    | none => simp [hr]
    | some p =>
      simp only [hr]
      cases hpl : leftOf t (some p) <;>
        cases hnp : parentOf t (some n) <;>
          simp only [hpl, hnp] <;>
            (try split) <;>
              simp [valueAt?_updNode_preserve, valueAt?_setRoot]

theorem valueAt?_rotateRight (t : RBTree α) (oi : Option Nat) (j : Nat) :
    valueAt? ((rotateRight t oi).1) j = valueAt? t j := by
  unfold rotateRight
  cases oi with
  | none => rfl
  | some n =>
    cases hl : leftOf t (some n) with
    | none => simp [hl]
    | some p =>
      simp only [hl]
      cases hpr : rightOf t (some p) <;>
        cases hnp : parentOf t (some n) <;>
          simp only [hpr, hnp] <;>
            (try split) <;>
              simp [valueAt?_updNode_preserve, valueAt?_setRoot]

theorem valueAt?_fixInsertGo (fuel : Nat) (t : RBTree α) (n? : Option Nat)
    (j : Nat) : valueAt? (fixInsertGo fuel t n?) j = valueAt? t j := by
  induction fuel generalizing t n? with
  | zero => rfl
  | succ fuel ih =>
    unfold fixInsertGo
    dsimp only
    split
    · split <;> split
      · rw [ih]; simp [valueAt?_setColorOpt]
      · rw [ih]
        split <;>
          simp [valueAt?_setColorOpt, valueAt?_rotateLeft, valueAt?_rotateRight]
      · rw [ih]; simp [valueAt?_setColorOpt]
      · rw [ih]
        split <;>
          simp [valueAt?_setColorOpt, valueAt?_rotateLeft, valueAt?_rotateRight]
    · rfl

theorem valueAt?_fixInsert (t : RBTree α) (n : Nat) (j : Nat) :
    valueAt? (fixInsert t n) j = valueAt? t j := by
  unfold fixInsert
  rw [valueAt?_setColorOpt, valueAt?_fixInsertGo]

theorem leftOf_eq {t : RBTree α} {i : Nat} {nd : TNode α}
    (h : getNode t i = some nd) : leftOf t (some i) = nd.left := by
  simp [leftOf, getNodeOpt, h]

theorem rightOf_eq {t : RBTree α} {i : Nat} {nd : TNode α}
    (h : getNode t i = some nd) : rightOf t (some i) = nd.right := by
  simp [rightOf, getNodeOpt, h]

/-! ### Insert follows the search path

`RedBlackTree::Insert` and `RedBlackTree::Search` descend by the same
comparator decisions, so a successful search pinpoints what `Insert` does:
on a hit it returns the existing node and leaves the tree untouched, on a
definite miss it allocates exactly one node. -/

theorem insertGo_found (fuel : Nat) (t : MapNN) (parent : Nat) (side : Bool)
    (k v i : Nat)
    (h : searchGo pairLess pairEqual fuel t
        (if side then leftOf t (some parent) else rightOf t (some parent))
        (k, 0) = some (some i)) :
    insertGo pairLess pairEqual fuel t parent side (k, v) = (t, some i) := by
  induction fuel generalizing t parent side i with
  | zero => cases h
  | succ fuel ih =>
    cases hc : (if side then leftOf t (some parent) else rightOf t (some parent)) with
    | none => rw [hc] at h; simp [searchGo] at h
    | some ci =>
      rw [hc] at h
      cases hn : getNode t ci with
      | none => simp [searchGo, hn] at h
      | some nd =>
        simp only [searchGo, hn] at h
        unfold insertGo
        rw [hc]
        dsimp only
        rw [hn]
        dsimp only
        by_cases hkey : nd.value.1 = k
        · have e1 : pairEqual (k, 0) nd.value = true := by
            simp [pairEqual, hkey]
          have e2 : pairEqual nd.value (k, v) = true := by
            simp [pairEqual, hkey]
          rw [e1] at h
          have hci : ci = i := by simpa using h
          simp [e2, hci]
        · have e1 : pairEqual (k, 0) nd.value = false := by
            simp [pairEqual]
            exact fun he => hkey he.symm
          have e2 : pairEqual nd.value (k, v) = false := by
            simp [pairEqual, hkey]
          rw [e1] at h
          simp only [Bool.false_eq_true, if_false] at h
          by_cases hlt : k < nd.value.1
          · have el : pairLess (k, 0) nd.value = true := by simp [pairLess, hlt]
            have el' : pairLess (k, v) nd.value = true := by simp [pairLess, hlt]
            rw [el] at h
            simp only [if_true] at h
            simp only [e2, Bool.false_eq_true, if_false, el', if_true]
            exact ih t ci true i (by rw [if_pos rfl, leftOf_eq hn]; exact h)
          · have el : pairLess (k, 0) nd.value = false := by simp [pairLess, hlt]
            have el' : pairLess (k, v) nd.value = false := by simp [pairLess, hlt]
            rw [el] at h
            simp only [Bool.false_eq_true, if_false] at h
            simp only [e2, Bool.false_eq_true, if_false, el']
            exact ih t ci false i (by rw [if_neg (by simp), rightOf_eq hn]; exact h)

theorem mapInsert_found (m : MapNN) (k v i : Nat)
    (h : searchRB pairLess pairEqual m (k, 0) = some (some i)) :
    mapInsert m k v = (m, some i) := by
  unfold mapInsert insertRB
  unfold searchRB at h
  cases hr : m.root with
  | none => rw [hr] at h; simp [searchGo] at h
  | some r =>
    rw [hr] at h
    cases hn : getNode m r with
    | none => simp [searchGo, hn] at h
    | some nd =>
      simp only [searchGo, hn] at h
      dsimp only
      rw [hn]
      dsimp only
      by_cases hkey : nd.value.1 = k
      · have e1 : pairEqual (k, 0) nd.value = true := by simp [pairEqual, hkey]
        have e2 : pairEqual nd.value (k, v) = true := by simp [pairEqual, hkey]
        rw [e1] at h
        have hri : r = i := by simpa using h
        simp [e2, hri]
      · have e1 : pairEqual (k, 0) nd.value = false := by
          simp [pairEqual]
          exact fun he => hkey he.symm
        have e2 : pairEqual nd.value (k, v) = false := by simp [pairEqual, hkey]
        rw [e1] at h
        simp only [Bool.false_eq_true, if_false] at h
        by_cases hlt : k < nd.value.1
        · have el : pairLess (k, 0) nd.value = true := by simp [pairLess, hlt]
          have el' : pairLess (k, v) nd.value = true := by simp [pairLess, hlt]
          rw [el] at h
          simp only [if_true] at h
          simp only [e2, Bool.false_eq_true, if_false, el', if_true]
          exact insertGo_found m.nodes.length m r true k v i
            (by rw [if_pos rfl, leftOf_eq hn]; exact h)
        · have el : pairLess (k, 0) nd.value = false := by simp [pairLess, hlt]
          have el' : pairLess (k, v) nd.value = false := by simp [pairLess, hlt]
          rw [el] at h
          simp only [Bool.false_eq_true, if_false] at h
          simp only [e2, Bool.false_eq_true, if_false, el']
          exact insertGo_found m.nodes.length m r false k v i
            (by rw [if_neg (by simp), rightOf_eq hn]; exact h)

theorem insertGo_absent (fuel : Nat) (t : MapNN) (parent : Nat) (side : Bool)
    (k v : Nat)
    (h : searchGo pairLess pairEqual fuel t
        (if side then leftOf t (some parent) else rightOf t (some parent))
        (k, 0) = some none) :
    ((insertGo pairLess pairEqual fuel t parent side (k, v)).1).numNodes =
        t.numNodes + 1 ∧
      ∃ j, (insertGo pairLess pairEqual fuel t parent side (k, v)).2 = some j ∧
        valueAt? (insertGo pairLess pairEqual fuel t parent side (k, v)).1 j =
          some (k, v) := by
  induction fuel generalizing t parent side with
  | zero => cases h
  | succ fuel ih =>
    cases hc : (if side then leftOf t (some parent) else rightOf t (some parent)) with
    | none =>
      unfold insertGo
      rw [hc]
      dsimp only
      set t1 : MapNN := { t with numNodes := t.numNodes + 1 } with ht1
      set idx := t1.nodes.length with hidx
      set newNd : TNode (Nat × Nat) := ⟨(k, v), RED, some parent, none, none⟩
      set t2 : MapNN := { t1 with nodes := t1.nodes ++ [some newNd] } with ht2
      have hval2 : valueAt? t2 idx = some (k, v) := by
        unfold valueAt? getNode
        rw [ht2]
        simp only [hidx]
        rw [List.getD_append_right _ _ _ _ (Nat.le_refl _), Nat.sub_self]
        rfl
      have hn2 : t2.numNodes = t.numNodes + 1 := rfl
      set t3 : MapNN := (if side = true then
          updNode t2 parent fun nd => { nd with left := some idx }
        else
          updNode t2 parent fun nd => { nd with right := some idx }) with ht3
      have hn3 : t3.numNodes = t.numNodes + 1 := by
        rw [ht3]; split <;> rw [updNode_numNodes]
      have hval3 : valueAt? t3 idx = some (k, v) := by
        rw [ht3]
        split
        · exact (valueAt?_updNode_preserve t2 parent
            (fun nd => { nd with left := some idx }) idx (fun nd => rfl)).trans hval2
        · exact (valueAt?_updNode_preserve t2 parent
            (fun nd => { nd with right := some idx }) idx (fun nd => rfl)).trans hval2
      refine ⟨?_, idx, rfl, ?_⟩
      · rw [fixInsert_numNodes]; exact hn3
      · rw [valueAt?_fixInsert]; exact hval3
    | some ci =>
      rw [hc] at h
      cases hn : getNode t ci with
      | none => simp [searchGo, hn] at h
      | some nd =>
        simp only [searchGo, hn] at h
        unfold insertGo
        rw [hc]
        dsimp only
        rw [hn]
        dsimp only
        by_cases hkey : nd.value.1 = k
        · have e1 : pairEqual (k, 0) nd.value = true := by simp [pairEqual, hkey]
          rw [e1] at h
          simp at h
        · have e1 : pairEqual (k, 0) nd.value = false := by
            simp [pairEqual]
            exact fun he => hkey he.symm
          have e2 : pairEqual nd.value (k, v) = false := by simp [pairEqual, hkey]
          rw [e1] at h
          simp only [Bool.false_eq_true, if_false] at h
          by_cases hlt : k < nd.value.1
          · have el : pairLess (k, 0) nd.value = true := by simp [pairLess, hlt]
            have el' : pairLess (k, v) nd.value = true := by simp [pairLess, hlt]
            rw [el] at h
            simp only [if_true] at h
            simp only [e2, Bool.false_eq_true, if_false, el', if_true]
            exact ih t ci true (by rw [if_pos rfl, leftOf_eq hn]; exact h)
          · have el : pairLess (k, 0) nd.value = false := by simp [pairLess, hlt]
            have el' : pairLess (k, v) nd.value = false := by simp [pairLess, hlt]
            rw [el] at h
            simp only [Bool.false_eq_true, if_false] at h
            simp only [e2, Bool.false_eq_true, if_false, el']
            exact ih t ci false (by rw [if_neg (by simp), rightOf_eq hn]; exact h)

theorem mapInsert_absent (m : MapNN) (k v : Nat)
    (h : searchRB pairLess pairEqual m (k, 0) = some none) :
    ((mapInsert m k v).1).numNodes = m.numNodes + 1 ∧
      ∃ j, (mapInsert m k v).2 = some j ∧
        valueAt? (mapInsert m k v).1 j = some (k, v) := by
  unfold mapInsert insertRB
  unfold searchRB at h
  cases hr : m.root with
  | none =>
    dsimp only
    refine ⟨by rw [setColorOpt_numNodes], m.nodes.length, rfl, ?_⟩
    rw [valueAt?_setColorOpt]
    unfold valueAt? getNode
    simp only
    rw [List.getD_append_right _ _ _ _ (Nat.le_refl _), Nat.sub_self]
    rfl
  | some r =>
    rw [hr] at h
    cases hn : getNode m r with
    | none => simp [searchGo, hn] at h
    | some nd =>
      simp only [searchGo, hn] at h
      dsimp only
      rw [hn]
      dsimp only
      by_cases hkey : nd.value.1 = k
      · have e1 : pairEqual (k, 0) nd.value = true := by simp [pairEqual, hkey]
        rw [e1] at h
        simp at h
      · have e1 : pairEqual (k, 0) nd.value = false := by
          simp [pairEqual]
          exact fun he => hkey he.symm
        have e2 : pairEqual nd.value (k, v) = false := by simp [pairEqual, hkey]
        rw [e1] at h
        simp only [Bool.false_eq_true, if_false] at h
        by_cases hlt : k < nd.value.1
        · have el : pairLess (k, 0) nd.value = true := by simp [pairLess, hlt]
          have el' : pairLess (k, v) nd.value = true := by simp [pairLess, hlt]
          rw [el] at h
          simp only [if_true] at h
          simp only [e2, Bool.false_eq_true, if_false, el', if_true]
          exact insertGo_absent m.nodes.length m r true k v
            (by rw [if_pos rfl, leftOf_eq hn]; exact h)
        · have el : pairLess (k, 0) nd.value = false := by simp [pairLess, hlt]
          have el' : pairLess (k, v) nd.value = false := by simp [pairLess, hlt]
          rw [el] at h
          simp only [Bool.false_eq_true, if_false] at h
          simp only [e2, Bool.false_eq_true, if_false, el']
          exact insertGo_absent m.nodes.length m r false k v
            (by rw [if_neg (by simp), rightOf_eq hn]; exact h)

/-- C6, counterexample: `Insert(0, 10); Insert(0, 20)` leaves `Get(0) = 10`.
The second `Insert` returns the pre-existing node without storing the new
value, so `Get` does not return the last value passed to `Insert`. -/
theorem mapInsert_second_insert_ignored :
    mapGet (mapInsert (mapInsert mapEmpty 0 10).1 0 20).1 0 = Except.ok 10 ∧
      mapGet (mapInsert (mapInsert mapEmpty 0 10).1 0 20).1 0 ≠ Except.ok 20 := by
  have h10 : mapGet (mapInsert (mapInsert mapEmpty 0 10).1 0 20).1 0 =
      Except.ok 10 := rfl
  refine ⟨h10, ?_⟩
  rw [h10]
  intro h
  simp at h

/-- C6, amended: `Map::Insert(key, value)` has lookup-or-insert semantics.
If `Search` finds a node for the key, `Insert` returns that pre-existing
node and leaves the map completely unchanged (so `Size()` is unchanged and
the stored value is the one from the first insertion, not the new one); if
`Search` definitely misses, `Insert` creates exactly one new entry holding
`(key, value)` and `Size()` grows by one. -/
theorem mapInsert_amended (m : MapNN) (k v i : Nat) :
    (searchRB pairLess pairEqual m (k, 0) = some (some i) →
        mapInsert m k v = (m, some i)) ∧
      (searchRB pairLess pairEqual m (k, 0) = some none →
        ((mapInsert m k v).1).numNodes = m.numNodes + 1 ∧
          ∃ j, (mapInsert m k v).2 = some j ∧
            valueAt? (mapInsert m k v).1 j = some (k, v)) :=
  ⟨mapInsert_found m k v i, mapInsert_absent m k v⟩

/-- C6 amended, witness: both branches applied on a concrete one-entry map
(key 5 present, key 6 absent). -/
theorem mapInsert_amended_witness :
    mapInsert (mapInsert mapEmpty 5 7).1 5 9 = ((mapInsert mapEmpty 5 7).1, some 0) ∧
      ((mapInsert (mapInsert mapEmpty 5 7).1 6 3).1).numNodes =
        ((mapInsert mapEmpty 5 7).1).numNodes + 1 :=
  ⟨(mapInsert_amended (mapInsert mapEmpty 5 7).1 5 9 0).1 (by decide),
    ((mapInsert_amended (mapInsert mapEmpty 5 7).1 6 3 0).2 (by decide)).1⟩

/-! ## Binary heap (`include/lib/binary_heap.h`)

The heap's backing `Vector` is a list; `m_heap[i]` is `nth h i` (unchecked
access, always guarded in the source), `Vector::Swap` is two `set`s and
`PopBack` is `dropLast`.  The comparator `comp a b = true` means `a` has
priority over `b`. -/

/-- `m_heap[i]`. -/
def nth [Inhabited α] (h : List α) (i : Nat) : α := h.getD i default

/-- `Vector::Swap(index1, index2)`. -/
def swapL [Inhabited α] (h : List α) (i j : Nat) : List α :=
  (h.set i (nth h j)).set j (nth h i)

/-- The `largest` selection of `BinaryHeap::HeapifyDown`: start from `index`,
prefer the left child when it beats the current candidate, then the right
child when it beats the updated candidate. -/
def largestIdx [Inhabited α] (comp : α → α → Bool) (h : List α) (i : Nat) : Nat :=
  let l := 2 * i + 1
  let r := 2 * i + 2
  let largest1 := if l < h.length ∧ comp (nth h l) (nth h i) = true then l else i
  if r < h.length ∧ comp (nth h r) (nth h largest1) = true then r else largest1

theorem swapL_length [Inhabited α] (h : List α) (i j : Nat) :
    (swapL h i j).length = h.length := by
  simp [swapL]

theorem largestIdx_ge [Inhabited α] (comp : α → α → Bool) (h : List α) (i : Nat) :
    i ≤ largestIdx comp h i := by
  unfold largestIdx
  dsimp only
  by_cases h1 : 2 * i + 1 < h.length ∧ comp (nth h (2 * i + 1)) (nth h i) = true
  · rw [if_pos h1]
    split <;> omega
  · rw [if_neg h1]
    split <;> omega

theorem largestIdx_lt_of_ne [Inhabited α] (comp : α → α → Bool) (h : List α)
    (i : Nat) (hne : largestIdx comp h i ≠ i) :
    i < largestIdx comp h i ∧ largestIdx comp h i < h.length := by
  unfold largestIdx at hne ⊢
  dsimp only at hne ⊢
  by_cases h1 : 2 * i + 1 < h.length ∧ comp (nth h (2 * i + 1)) (nth h i) = true
  · rw [if_pos h1] at hne ⊢
    by_cases h2 : 2 * i + 2 < h.length ∧
        comp (nth h (2 * i + 2)) (nth h (2 * i + 1)) = true
    · rw [if_pos h2]
      exact ⟨by omega, h2.1⟩
    · rw [if_neg h2]
      exact ⟨by omega, h1.1⟩
  · rw [if_neg h1] at hne ⊢
    by_cases h2 : 2 * i + 2 < h.length ∧ comp (nth h (2 * i + 2)) (nth h i) = true
    · rw [if_pos h2]
      exact ⟨by omega, h2.1⟩
    · rw [if_neg h2] at hne
      exact absurd rfl hne

/-- `BinaryHeap::HeapifyDown(index)`: swap with the dominant child while one
beats the current node, descending. -/
def heapifyDown [Inhabited α] (comp : α → α → Bool) (h : List α) (i : Nat) :
    List α :=
  if hne : largestIdx comp h i ≠ i then
    heapifyDown comp (swapL h i (largestIdx comp h i)) (largestIdx comp h i)
  else h
termination_by h.length - i
decreasing_by
  rw [swapL_length]
  have := largestIdx_lt_of_ne comp h i hne
  omega

/-- `BinaryHeap::HeapifyUp(index)`: swap with the immediate parent while the
node beats it, ascending. -/
def heapifyUp [Inhabited α] (comp : α → α → Bool) (h : List α) (i : Nat) :
    List α :=
  if hcond : 0 < i ∧ comp (nth h i) (nth h ((i - 1) / 2)) = true then
    heapifyUp comp (swapL h i ((i - 1) / 2)) ((i - 1) / 2)
  else h
termination_by i
decreasing_by
  exact Nat.lt_of_le_of_lt (Nat.div_le_self _ _) (by omega)

/-- `BinaryHeap::Push`: append, then sift up from the last position. -/
def pushHeap [Inhabited α] (comp : α → α → Bool) (h : List α) (x : α) : List α :=
  heapifyUp comp (h ++ [x]) ((h ++ [x]).length - 1)

/-- `BinaryHeap::Pop`: save the root, swap it with the last element, shrink,
sift down from the root; returns the saved root and the new heap. -/
def popHeap [Inhabited α] (comp : α → α → Bool) (h : List α) : α × List α :=
  (nth h 0, heapifyDown comp ((swapL h 0 (h.length - 1)).dropLast) 0)

/-- `k` successive `Push` calls. -/
def pushList [Inhabited α] (comp : α → α → Bool) (h : List α) (xs : List α) :
    List α :=
  xs.foldl (pushHeap comp) h

/-- `j` successive `Pop` calls: the list of popped elements and the final
heap. -/
def popSeq [Inhabited α] (comp : α → α → Bool) : Nat → List α → List α × List α
  | 0, h => ([], h)
  | j + 1, h =>
    let p := popHeap comp h
    let rest := popSeq comp j p.2
    (p.1 :: rest.1, rest.2)

/-- The binary-heap shape invariant: no child has priority over its parent. -/
def HeapInv [Inhabited α] (comp : α → α → Bool) (h : List α) : Prop :=
  ∀ j, 0 < j → j < h.length → comp (nth h j) (nth h ((j - 1) / 2)) = false

theorem getD_set_self (l : List α) (i : Nat) (a d : α) (hlt : i < l.length) :
    (l.set i a).getD i d = a := by
  rw [List.getD_eq_getD_get?, List.get?_eq_getElem?,
    List.getElem?_set_eq_of_lt _ hlt]
  rfl

theorem getD_set_ne (l : List α) (i j : Nat) (a d : α) (hne : i ≠ j) :
    (l.set i a).getD j d = l.getD j d := by
  rw [List.getD_eq_getD_get?, List.get?_eq_getElem?, List.getElem?_set_ne hne,
    ← List.get?_eq_getElem?, ← List.getD_eq_getD_get?]

theorem nth_swapL [Inhabited α] (h : List α) (i j k : Nat)
    (hi : i < h.length) (hj : j < h.length) :
    nth (swapL h i j) k =
      if k = j then nth h i else if k = i then nth h j else nth h k := by
  unfold swapL nth
  by_cases hkj : k = j
  · subst hkj
    rw [if_pos rfl, getD_set_self _ _ _ _ (by simpa using hj)]
  · rw [if_neg hkj, getD_set_ne _ _ _ _ _ (fun he => hkj he.symm)]
    by_cases hki : k = i
    · subst hki
      rw [if_pos rfl, getD_set_self _ _ _ _ hi]
    · rw [if_neg hki, getD_set_ne _ _ _ _ _ (fun he => hki he.symm)]

theorem nth_mem [Inhabited α] {h : List α} {i : Nat} (hi : i < h.length) :
    nth h i ∈ h := by
  unfold nth
  rw [List.getD_eq_getElem h default hi]
  exact h.getElem_mem hi

theorem mem_swapL [Inhabited α] {h : List α} {i j : Nat} {y : α}
    (hi : i < h.length) (hj : j < h.length) (hy : y ∈ swapL h i j) : y ∈ h := by
  unfold swapL at hy
  rcases List.mem_or_eq_of_mem_set hy with hy1 | hy1
  · rcases List.mem_or_eq_of_mem_set hy1 with hy2 | hy2
    · exact hy2
    · subst hy2
      exact nth_mem hj
  · subst hy1
    exact nth_mem hi

/-! ### Strict-total-order facts for the comparator -/

theorem comp_asym {comp : α → α → Bool}
    (hIrr : ∀ a, comp a a = false)
    (hTrans : ∀ a b c, comp a b = true → comp b c = true → comp a c = true)
    {a b : α} (hab : comp a b = true) : comp b a = false := by
  by_contra hba
  have := hTrans a b a hab (by revert hba; cases comp b a <;> simp)
  rw [hIrr] at this
  cases this

theorem comp_notChain {comp : α → α → Bool}
    (hIrr : ∀ a, comp a a = false)
    (hTrans : ∀ a b c, comp a b = true → comp b c = true → comp a c = true)
    (hTot : ∀ a b, comp a b = true ∨ comp b a = true ∨ a = b)
    {a b c : α} (hab : comp a b = false) (hbc : comp b c = false) :
    comp a c = false := by
  by_contra hac
  have hac' : comp a c = true := by revert hac; cases comp a c <;> simp
  rcases hTot a b with h1 | h1 | h1
  · rw [h1] at hab; cases hab
  · have := hTrans b a c h1 hac'
    rw [this] at hbc; cases hbc
  · subst h1
    rw [hac'] at hbc; cases hbc

/-! ### Sift-up and sift-down loop invariants

`SUS h hole` says every parent-child edge is respected except possibly the
one entering `hole`, and `hole`'s children would also respect `hole`'s
parent; `SDS h hole` is the mirror state for sift-down, where only the edges
leaving `hole` may be out of order. -/

structure SUS [Inhabited α] (comp : α → α → Bool) (h : List α) (hole : Nat) :
    Prop where
  bounded : hole < h.length
  heap : ∀ j, 0 < j → j < h.length → j ≠ hole →
    comp (nth h j) (nth h ((j - 1) / 2)) = false
  lower : 0 < hole → ∀ j, 0 < j → j < h.length → (j - 1) / 2 = hole →
    comp (nth h j) (nth h ((hole - 1) / 2)) = false

structure SDS [Inhabited α] (comp : α → α → Bool) (h : List α) (hole : Nat) :
    Prop where
  heap : ∀ j, 0 < j → j < h.length → (j - 1) / 2 ≠ hole →
    comp (nth h j) (nth h ((j - 1) / 2)) = false
  upper : 0 < hole → ∀ j, 0 < j → j < h.length → (j - 1) / 2 = hole →
    comp (nth h j) (nth h ((hole - 1) / 2)) = false

theorem heapifyUp_length [Inhabited α] (comp : α → α → Bool) (h : List α)
    (i : Nat) : (heapifyUp comp h i).length = h.length := by
  induction i using Nat.strong_induction_on generalizing h with
  | _ i ih =>
    rw [heapifyUp]
    split
    · rename_i hcond
      rw [ih ((i - 1) / 2)
        (Nat.lt_of_le_of_lt (Nat.div_le_self _ _) (by omega)), swapL_length]
    · rfl

theorem heapifyDown_length [Inhabited α] (comp : α → α → Bool) (h : List α)
    (i : Nat) : (heapifyDown comp h i).length = h.length := by
  generalize hm : h.length - i = m
  induction m using Nat.strong_induction_on generalizing h i with
  | _ m ih =>
    rw [heapifyDown]
    split
    · rename_i hne
      have hlt := largestIdx_lt_of_ne comp h i hne
      rw [ih ((swapL h i (largestIdx comp h i)).length - largestIdx comp h i)
        (by rw [swapL_length]; omega) _ _ rfl, swapL_length]
    · rfl

theorem heapifyDown_mem [Inhabited α] (comp : α → α → Bool) (y : α) :
    ∀ m h i, h.length - i = m → y ∈ heapifyDown comp h i → y ∈ h := by
  intro m
  induction m using Nat.strong_induction_on with
  | _ m ih =>
    intro h i hm hy
    rw [heapifyDown] at hy
    split at hy
    · rename_i hne
      have hlt := largestIdx_lt_of_ne comp h i hne
      have hy' := ih ((swapL h i (largestIdx comp h i)).length - largestIdx comp h i)
        (by rw [swapL_length]; omega) _ _ rfl hy
      exact mem_swapL (by omega) hlt.2 hy'
    · exact hy

theorem largestIdx_cases [Inhabited α] (comp : α → α → Bool) (h : List α)
    (i : Nat) : largestIdx comp h i = i ∨ largestIdx comp h i = 2 * i + 1 ∨
      largestIdx comp h i = 2 * i + 2 := by
  unfold largestIdx
  dsimp only
  by_cases h1 : 2 * i + 1 < h.length ∧ comp (nth h (2 * i + 1)) (nth h i) = true
  · rw [if_pos h1]
    split
    · right; right; rfl
    · right; left; rfl
  · rw [if_neg h1]
    split
    · right; right; rfl
    · left; rfl

theorem largestIdx_stop [Inhabited α] {comp : α → α → Bool} {h : List α}
    {i : Nat} (heq : largestIdx comp h i = i) :
    ∀ s, (s = 2 * i + 1 ∨ s = 2 * i + 2) → s < h.length →
      comp (nth h s) (nth h i) = false := by
  unfold largestIdx at heq
  dsimp only at heq
  by_cases h1 : 2 * i + 1 < h.length ∧ comp (nth h (2 * i + 1)) (nth h i) = true
  · rw [if_pos h1] at heq
    split at heq <;> omega
  · rw [if_neg h1] at heq
    by_cases h2 : 2 * i + 2 < h.length ∧ comp (nth h (2 * i + 2)) (nth h i) = true
    · rw [if_pos h2] at heq; omega
    · intro s hs hslen
      by_contra hcc
      have hct : comp (nth h s) (nth h i) = true := by
        revert hcc; cases comp (nth h s) (nth h i) <;> simp
      rcases hs with rfl | rfl
      · exact h1 ⟨hslen, hct⟩
      · exact h2 ⟨hslen, hct⟩

theorem largestIdx_domParent [Inhabited α] {comp : α → α → Bool}
    (hTrans : ∀ a b c, comp a b = true → comp b c = true → comp a c = true)
    {h : List α} {i : Nat} (hne : largestIdx comp h i ≠ i) :
    comp (nth h (largestIdx comp h i)) (nth h i) = true := by
  unfold largestIdx at hne ⊢
  dsimp only at hne ⊢
  by_cases h1 : 2 * i + 1 < h.length ∧ comp (nth h (2 * i + 1)) (nth h i) = true
  · rw [if_pos h1] at hne ⊢
    by_cases h2 : 2 * i + 2 < h.length ∧
        comp (nth h (2 * i + 2)) (nth h (2 * i + 1)) = true
    · rw [if_pos h2]
      exact hTrans _ _ _ h2.2 h1.2
    · rw [if_neg h2]
      exact h1.2
  · rw [if_neg h1] at hne ⊢
    by_cases h2 : 2 * i + 2 < h.length ∧ comp (nth h (2 * i + 2)) (nth h i) = true
    · rw [if_pos h2]
      exact h2.2
    · rw [if_neg h2] at hne
      exact absurd rfl hne

theorem largestIdx_domSibling [Inhabited α] {comp : α → α → Bool}
    (hIrr : ∀ a, comp a a = false)
    (hTrans : ∀ a b c, comp a b = true → comp b c = true → comp a c = true)
    {h : List α} {i : Nat} (hne : largestIdx comp h i ≠ i) :
    ∀ s, (s = 2 * i + 1 ∨ s = 2 * i + 2) → s ≠ largestIdx comp h i →
      s < h.length → comp (nth h s) (nth h (largestIdx comp h i)) = false := by
  unfold largestIdx at hne ⊢
  dsimp only at hne ⊢
  by_cases h1 : 2 * i + 1 < h.length ∧ comp (nth h (2 * i + 1)) (nth h i) = true
  · rw [if_pos h1] at hne ⊢
    by_cases h2 : 2 * i + 2 < h.length ∧
        comp (nth h (2 * i + 2)) (nth h (2 * i + 1)) = true
    · rw [if_pos h2] at hne ⊢
      intro s hs hsne hslen
      have hsl : s = 2 * i + 1 := by omega
      subst hsl
      exact comp_asym hIrr hTrans h2.2
    · rw [if_neg h2] at hne ⊢
      intro s hs hsne hslen
      have hsr : s = 2 * i + 2 := by omega
      subst hsr
      by_contra hcc
      have hct : comp (nth h (2 * i + 2)) (nth h (2 * i + 1)) = true := by
        revert hcc; cases comp (nth h (2 * i + 2)) (nth h (2 * i + 1)) <;> simp
      exact h2 ⟨hslen, hct⟩
  · rw [if_neg h1] at hne ⊢
    by_cases h2 : 2 * i + 2 < h.length ∧ comp (nth h (2 * i + 2)) (nth h i) = true
    · rw [if_pos h2] at hne ⊢
      intro s hs hsne hslen
      have hsl : s = 2 * i + 1 := by omega
      subst hsl
      by_contra hcc
      have hct : comp (nth h (2 * i + 1)) (nth h (2 * i + 2)) = true := by
        revert hcc; cases comp (nth h (2 * i + 1)) (nth h (2 * i + 2)) <;> simp
      have : comp (nth h (2 * i + 1)) (nth h i) = true := hTrans _ _ _ hct h2.2
      exact h1 ⟨hslen, this⟩
    · rw [if_neg h2] at hne
      exact absurd rfl hne

theorem heapifyUp_inv [Inhabited α] {comp : α → α → Bool}
    (hIrr : ∀ a, comp a a = false)
    (hTrans : ∀ a b c, comp a b = true → comp b c = true → comp a c = true)
    (hTot : ∀ a b, comp a b = true ∨ comp b a = true ∨ a = b) :
    ∀ i (h : List α), SUS comp h i → HeapInv comp (heapifyUp comp h i) := by
  intro i
  induction i using Nat.strong_induction_on with
  | _ i ih =>
    intro h hS
    rw [heapifyUp]
    split
    · rename_i hcond
      obtain ⟨hi0, hcmp⟩ := hcond
      have hpi : (i - 1) / 2 < i := by omega
      have hilt : i < h.length := hS.bounded
      have hplt : (i - 1) / 2 < h.length := lt_trans hpi hilt
      apply ih ((i - 1) / 2) hpi
      refine ⟨by rw [swapL_length]; exact hplt, ?_, ?_⟩
      · intro j hj0 hjlen hjp
        rw [swapL_length] at hjlen
        rw [nth_swapL h i ((i - 1) / 2) j hilt hplt,
          nth_swapL h i ((i - 1) / 2) ((j - 1) / 2) hilt hplt]
        by_cases hji : j = i
        · subst hji
          rw [if_neg hjp, if_pos rfl, if_pos (by omega)]
          exact comp_asym hIrr hTrans hcmp
        · by_cases hpji : (j - 1) / 2 = i
          · have hjbig : j = 2 * i + 1 ∨ j = 2 * i + 2 := by omega
            rw [if_neg hjp, if_neg hji, if_neg (by omega), if_pos hpji]
            exact hS.lower hi0 j hj0 hjlen hpji
          · by_cases hpjp : (j - 1) / 2 = (i - 1) / 2
            · rw [if_neg hjp, if_neg hji, if_pos hpjp]
              have h1 : comp (nth h j) (nth h ((i - 1) / 2)) = false := by
                have := hS.heap j hj0 hjlen hji
                rwa [hpjp] at this
              by_contra hcc
              have hct : comp (nth h j) (nth h i) = true := by
                revert hcc; cases comp (nth h j) (nth h i) <;> simp
              have := hTrans _ _ _ hct hcmp
              rw [this] at h1; cases h1
            · rw [if_neg hjp, if_neg hji, if_neg hpjp, if_neg hpji]
              exact hS.heap j hj0 hjlen hji
      · intro hp0 j hj0 hjlen hjp
        rw [swapL_length] at hjlen
        have hgp : ((i - 1) / 2 - 1) / 2 < (i - 1) / 2 := by omega
        have eparent : nth (swapL h i ((i - 1) / 2)) (((i - 1) / 2 - 1) / 2) =
            nth h (((i - 1) / 2 - 1) / 2) := by
          rw [nth_swapL h i ((i - 1) / 2) (((i - 1) / 2 - 1) / 2) hilt hplt,
            if_neg (by omega), if_neg (by omega)]
        by_cases hji : j = i
        · have ej : nth (swapL h i ((i - 1) / 2)) j = nth h ((i - 1) / 2) := by
            rw [nth_swapL h i ((i - 1) / 2) j hilt hplt, if_neg (by omega),
              if_pos hji]
          rw [ej, eparent]
          exact hS.heap ((i - 1) / 2) hp0 hplt (by omega)
        · have ej : nth (swapL h i ((i - 1) / 2)) j = nth h j := by
            rw [nth_swapL h i ((i - 1) / 2) j hilt hplt, if_neg (by omega),
              if_neg hji]
          rw [ej, eparent]
          have hjp' : comp (nth h j) (nth h ((i - 1) / 2)) = false := by
            have := hS.heap j hj0 hjlen hji
            rwa [hjp] at this
          have hpg : comp (nth h ((i - 1) / 2)) (nth h (((i - 1) / 2 - 1) / 2)) =
              false := hS.heap ((i - 1) / 2) hp0 hplt (by omega)
          exact comp_notChain hIrr hTrans hTot hjp' hpg
    · rename_i hcond
      intro j hj0 hjlen
      by_cases hji : j = i
      · subst hji
        rcases Decidable.not_and_iff_or_not_not.mp hcond with hc | hc
        · omega
        · revert hc
          cases comp (nth h j) (nth h ((j - 1) / 2)) <;> simp
      · exact hS.heap j hj0 hjlen hji

theorem heapifyDown_inv [Inhabited α] {comp : α → α → Bool}
    (hIrr : ∀ a, comp a a = false)
    (hTrans : ∀ a b c, comp a b = true → comp b c = true → comp a c = true)
    (hTot : ∀ a b, comp a b = true ∨ comp b a = true ∨ a = b) :
    ∀ m (h : List α) i, h.length - i = m → SDS comp h i →
      HeapInv comp (heapifyDown comp h i) := by
  intro m
  induction m using Nat.strong_induction_on with
  | _ m ih =>
    intro h i hm hS
    rw [heapifyDown]
    split
    · rename_i hne
      have hlt := largestIdx_lt_of_ne comp h i hne
      have hcC : largestIdx comp h i = 2 * i + 1 ∨ largestIdx comp h i = 2 * i + 2 := by
        rcases largestIdx_cases comp h i with hc | hc | hc
        · exact absurd hc hne
        · exact Or.inl hc
        · exact Or.inr hc
      have hil : i < h.length := lt_trans hlt.1 hlt.2
      have hdom := largestIdx_domParent hTrans hne
      apply ih ((swapL h i (largestIdx comp h i)).length - largestIdx comp h i)
        (by rw [swapL_length]; omega) _ _ rfl
      constructor
      · intro j hj0 hjlen hjp
        rw [swapL_length] at hjlen
        rw [nth_swapL h i (largestIdx comp h i) j hil hlt.2,
          nth_swapL h i (largestIdx comp h i) ((j - 1) / 2) hil hlt.2]
        by_cases hjc : j = largestIdx comp h i
        · subst hjc
          rw [if_pos rfl, if_neg (by omega), if_pos (by omega)]
          exact comp_asym hIrr hTrans hdom
        · by_cases hji : j = i
          · rw [if_neg hjc, if_pos hji, if_neg (by omega), if_neg (by omega)]
            rw [hji]
            exact hS.upper (by omega) (largestIdx comp h i) (by omega) hlt.2
              (by omega)
          · by_cases hpji : (j - 1) / 2 = i
            · rw [if_neg hjc, if_neg hji, if_neg (by omega), if_pos hpji]
              exact largestIdx_domSibling hIrr hTrans hne j (by omega) hjc hjlen
            · rw [if_neg hjc, if_neg hji, if_neg hjp, if_neg hpji]
              exact hS.heap j hj0 hjlen hpji
      · intro hc0 j hj0 hjlen hjp
        rw [swapL_length] at hjlen
        have hgi : (largestIdx comp h i - 1) / 2 = i := by omega
        have eparent : nth (swapL h i (largestIdx comp h i))
            ((largestIdx comp h i - 1) / 2) = nth h (largestIdx comp h i) := by
          rw [nth_swapL h i (largestIdx comp h i)
            ((largestIdx comp h i - 1) / 2) hil hlt.2, if_neg (by omega),
            if_pos hgi]
        have ej : nth (swapL h i (largestIdx comp h i)) j = nth h j := by
          rw [nth_swapL h i (largestIdx comp h i) j hil hlt.2,
            if_neg (by omega), if_neg (by omega)]
        rw [ej, eparent]
        have := hS.heap j hj0 hjlen (by omega)
        rwa [hjp] at this
    · rename_i hstop
      have heq : largestIdx comp h i = i := by
        revert hstop
        by_cases hx : largestIdx comp h i = i <;> simp [hx]
      intro j hj0 hjlen
      by_cases hpj : (j - 1) / 2 = i
      · rw [hpj]
        exact largestIdx_stop heq j (by omega) hjlen
      · exact hS.heap j hj0 hjlen hpj

theorem heap_rootMin [Inhabited α] {comp : α → α → Bool}
    (hIrr : ∀ a, comp a a = false)
    (hTrans : ∀ a b c, comp a b = true → comp b c = true → comp a c = true)
    (hTot : ∀ a b, comp a b = true ∨ comp b a = true ∨ a = b)
    {h : List α} (hInv : HeapInv comp h) :
    ∀ j, j < h.length → comp (nth h j) (nth h 0) = false := by
  intro j
  induction j using Nat.strong_induction_on with
  | _ j ih =>
    intro hjlen
    rcases Nat.eq_zero_or_pos j with h0 | hpos
    · subst h0
      exact hIrr _
    · have hparent := hInv j hpos hjlen
      have hplt : (j - 1) / 2 < j := by omega
      have hroot := ih ((j - 1) / 2) hplt (lt_trans hplt hjlen)
      exact comp_notChain hIrr hTrans hTot hparent hroot

theorem nth_append_left [Inhabited α] (h : List α) (x : α) (j : Nat)
    (hj : j < h.length) : nth (h ++ [x]) j = nth h j := by
  unfold nth
  exact List.getD_append _ _ _ _ hj

theorem pushHeap_length [Inhabited α] (comp : α → α → Bool) (h : List α)
    (x : α) : (pushHeap comp h x).length = h.length + 1 := by
  unfold pushHeap
  rw [heapifyUp_length]
  simp

theorem pushHeap_inv [Inhabited α] {comp : α → α → Bool}
    (hIrr : ∀ a, comp a a = false)
    (hTrans : ∀ a b c, comp a b = true → comp b c = true → comp a c = true)
    (hTot : ∀ a b, comp a b = true ∨ comp b a = true ∨ a = b)
    {h : List α} (hInv : HeapInv comp h) (x : α) :
    HeapInv comp (pushHeap comp h x) := by
  unfold pushHeap
  have hlen : (h ++ [x]).length - 1 = h.length := by simp
  rw [hlen]
  apply heapifyUp_inv hIrr hTrans hTot
  refine ⟨by simp, ?_, ?_⟩
  · intro j hj0 hjlen hjn
    have hjlt : j < h.length := by
      simp only [List.length_append, List.length_cons, List.length_nil] at hjlen
      omega
    rw [nth_append_left h x j hjlt, nth_append_left h x ((j - 1) / 2) (by omega)]
    exact hInv j hj0 hjlt
  · intro hn0 j hj0 hjlen hjp
    simp only [List.length_append, List.length_cons, List.length_nil] at hjlen
    omega

theorem nth_dropLast [Inhabited α] (l : List α) (j : Nat)
    (hj : j < l.length - 1) : nth l.dropLast j = nth l j := by
  unfold nth
  have hj' : j < l.dropLast.length := by simp; omega
  rw [List.getD_eq_getElem _ _ hj', List.getD_eq_getElem _ _ (by omega),
    List.getElem_dropLast]

theorem popHeap_length [Inhabited α] (comp : α → α → Bool) (h : List α) :
    ((popHeap comp h).2).length = h.length - 1 := by
  unfold popHeap
  rw [heapifyDown_length, List.length_dropLast, swapL_length]

theorem popHeap_mem [Inhabited α] {comp : α → α → Bool} {h : List α} {y : α}
    (hh : 0 < h.length) (hy : y ∈ (popHeap comp h).2) : y ∈ h := by
  unfold popHeap at hy
  have hy1 := heapifyDown_mem comp y _ _ _ rfl hy
  have hy2 := List.mem_of_mem_dropLast hy1
  exact mem_swapL hh (by omega) hy2

theorem popHeap_inv [Inhabited α] {comp : α → α → Bool}
    (hIrr : ∀ a, comp a a = false)
    (hTrans : ∀ a b c, comp a b = true → comp b c = true → comp a c = true)
    (hTot : ∀ a b, comp a b = true ∨ comp b a = true ∨ a = b)
    {h : List α} (hInv : HeapInv comp h) :
    HeapInv comp (popHeap comp h).2 := by
  unfold popHeap
  apply heapifyDown_inv hIrr hTrans hTot _ _ _ rfl
  constructor
  · intro j hj0 hjlen hjp
    rw [List.length_dropLast, swapL_length] at hjlen
    have hh0 : 0 < h.length := by omega
    rw [nth_dropLast _ _ (by rw [swapL_length]; omega),
      nth_dropLast _ _ (by rw [swapL_length]; omega)]
    rw [nth_swapL h 0 (h.length - 1) j hh0 (by omega),
      nth_swapL h 0 (h.length - 1) ((j - 1) / 2) hh0 (by omega)]
    rw [if_neg (by omega), if_neg (by omega), if_neg (by omega),
      if_neg (by omega)]
    exact hInv j hj0 (by omega)
  · intro h0
    omega

theorem pushList_length [Inhabited α] (comp : α → α → Bool) (xs : List α) :
    ∀ h : List α, (pushList comp h xs).length = h.length + xs.length := by
  induction xs with
  | nil => intro h; simp [pushList]
  | cons x xs ih =>
    intro h
    have : pushList comp h (x :: xs) = pushList comp (pushHeap comp h x) xs := rfl
    rw [this, ih, pushHeap_length]
    simp
    omega

theorem pushList_inv [Inhabited α] {comp : α → α → Bool}
    (hIrr : ∀ a, comp a a = false)
    (hTrans : ∀ a b c, comp a b = true → comp b c = true → comp a c = true)
    (hTot : ∀ a b, comp a b = true ∨ comp b a = true ∨ a = b) (xs : List α) :
    ∀ h : List α, HeapInv comp h → HeapInv comp (pushList comp h xs) := by
  induction xs with
  | nil => intro h hInv; exact hInv
  | cons x xs ih =>
    intro h hInv
    exact ih _ (pushHeap_inv hIrr hTrans hTot hInv x)

theorem popSeq_spec [Inhabited α] {comp : α → α → Bool}
    (hIrr : ∀ a, comp a a = false)
    (hTrans : ∀ a b c, comp a b = true → comp b c = true → comp a c = true)
    (hTot : ∀ a b, comp a b = true ∨ comp b a = true ∨ a = b) :
    ∀ (j : Nat) (h : List α), HeapInv comp h → j ≤ h.length →
      ((popSeq comp j h).1).Pairwise (fun a b => comp b a = false) ∧
        ((popSeq comp j h).2).length = h.length - j ∧
        ∀ y ∈ (popSeq comp j h).1, y ∈ h := by
  intro j
  induction j with
  | zero =>
    intro h _ _
    exact ⟨List.Pairwise.nil, by simp [popSeq], by simp [popSeq]⟩
  | succ j ih =>
    intro h hInv hle
    have hh0 : 0 < h.length := by omega
    have htherest := ih (popHeap comp h).2 (popHeap_inv hIrr hTrans hTot hInv)
      (by rw [popHeap_length]; omega)
    have hmemh : ∀ y ∈ (popSeq comp j (popHeap comp h).2).1, y ∈ h := by
      intro y hy
      exact popHeap_mem hh0 (htherest.2.2 y hy)
    have hroot : ∀ y ∈ (popSeq comp j (popHeap comp h).2).1,
        comp y (nth h 0) = false := by
      intro y hy
      obtain ⟨k, hk, hky⟩ := List.mem_iff_getElem.mp (hmemh y hy)
      have := heap_rootMin hIrr hTrans hTot hInv k hk
      rwa [show nth h k = y by rw [nth, List.getD_eq_getElem _ _ hk, hky]] at this
    refine ⟨?_, ?_, ?_⟩
    · show ((nth h 0) :: (popSeq comp j (popHeap comp h).2).1).Pairwise _
      exact List.Pairwise.cons hroot htherest.1
    · show ((popSeq comp j (popHeap comp h).2).2).length = h.length - (j + 1)
      rw [htherest.2.1, popHeap_length]
      omega
    · intro y hy
      rcases List.mem_cons.mp hy with rfl | hy'
      · exact nth_mem hh0
      · exact hmemh y hy'

/-- C4: for a strict-total-order comparator, pushing the `k` elements of
`xs` onto an empty `BinaryHeap`/`PriorityQueue` and then popping `j ≤ k`
times yields a popped sequence in which no later element has priority over
an earlier one (each popped element has priority over, or ties with, every
later one), and leaves `Size() = k - j`. -/
theorem heap_popSeq_sorted_and_size [Inhabited α] (comp : α → α → Bool)
    (hIrr : ∀ a, comp a a = false)
    (hTrans : ∀ a b c, comp a b = true → comp b c = true → comp a c = true)
    (hTot : ∀ a b, comp a b = true ∨ comp b a = true ∨ a = b)
    (xs : List α) (j : Nat) (hj : j ≤ xs.length) :
    ((popSeq comp j (pushList comp [] xs)).1).Pairwise
        (fun a b => comp b a = false) ∧
      ((popSeq comp j (pushList comp [] xs)).2).length = xs.length - j := by
  have hlen : (pushList comp [] xs).length = xs.length := by
    rw [pushList_length]
    simp
  have hinv : HeapInv comp (pushList comp [] xs) :=
    pushList_inv hIrr hTrans hTot xs []
      (fun j hj0 hjlen => by simp at hjlen)
  have hspec := popSeq_spec hIrr hTrans hTot j (pushList comp [] xs) hinv
    (by omega)
  exact ⟨hspec.1, by rw [hspec.2.1, hlen]⟩

/-- C4, witness: pushing `[3, 1, 2]` with the strict `<` comparator on `Nat`
and popping all three elements. -/
theorem heap_popSeq_sorted_and_size_witness :
    ((popSeq (fun a b : Nat => decide (a < b)) 3
        (pushList (fun a b : Nat => decide (a < b)) [] [3, 1, 2])).1).Pairwise
        (fun a b => decide (b < a) = false) ∧
      ((popSeq (fun a b : Nat => decide (a < b)) 3
        (pushList (fun a b : Nat => decide (a < b)) [] [3, 1, 2])).2).length =
        [3, 1, 2].length - 3 :=
  heap_popSeq_sorted_and_size (fun a b : Nat => decide (a < b))
    (fun a => by simp)
    (fun a b c hab hbc => by
      simp only [decide_eq_true_eq] at hab hbc ⊢
      omega)
    (fun a b => by
      rcases Nat.lt_trichotomy a b with h | h | h
      · exact Or.inl (by simpa using h)
      · exact Or.inr (Or.inr h)
      · exact Or.inr (Or.inl (by simpa using h)))
    [3, 1, 2] 3 (by decide)

/-! ## Graph (`include/lib/graph.h`)

`graph::Graph` keeps two `rbtree::Map`s — vertex ID → `Vertex` and edge ID →
`Edge*` — plus the counters `m_vertexCount` / `m_EdgeCount` that mint fresh
IDs.  The maps are embedded by their key-sorted association-list semantics:
the red-black tree is an ordered binary search tree whose iterator visits
keys in ascending order, `Insert` is lookup-or-insert (proved above in
`mapInsert_amended`) and `Remove` removes the key's node, so a key-sorted
association list with lookup-or-insert insertion is its observable state.
`Edge` objects store pointers to their two endpoint `Vertex` objects (node
addresses are stable: rotations relink nodes without moving them); the code
only ever reads the endpoint IDs through those pointers, so the embedding
stores the two IDs, fixed at `AddEdge` time.  Each `Vertex` carries the
fields the solver uses: the delta history `Vector<State>` as data, current
cost, heuristic cost, label, the adjacency map (edge IDs, ascending) and the
predecessor edge.  Costs mix `uint16_t` with `double` heuristics and are
embedded as `Int`; the label, written both from `graph::VertexLabel` and
from `SetLabel(cost + 1)` in `Solver::IDDFS`, is likewise an `Int`. -/

/-- The fields of `graph::Vertex` used by the solver (`include/lib/vertex.h`):
ID, `m_data`, `m_currentCost`, `m_heuristicCost`, `m_label`, the adjacency
map and `m_predecessor` (by edge ID).  The constructor zeroes the numeric
fields. -/
structure GVertex where
  id : Nat
  data : List Change
  currentCost : Int
  heuristicCost : Int
  label : Int
  adj : List Nat
  pred : Option Nat
  deriving Repr, DecidableEq

/-- The fields of `graph::Edge` (`include/lib/edge.h`): ID, the two endpoint
vertex IDs in `AddEdge` argument order, and the cost. -/
structure GEdge where
  id : Nat
  v1 : Nat
  v2 : Nat
  cost : Int
  deriving Repr, DecidableEq

/-- `graph::Graph`: the two maps and the two ID counters. -/
structure GraphM where
  vertices : List (Nat × GVertex)
  edges : List (Nat × GEdge)
  vertexCount : Nat
  edgeCount : Nat
  deriving Repr, DecidableEq

/-- `Map::Contains` on the association-list map view. -/
def alistContains (l : List (Nat × β)) (k : Nat) : Bool :=
  l.any fun p => p.1 == k

/-- `Map::Get` (read-only lookup) on the association-list map view. -/
def alistGet? (l : List (Nat × β)) (k : Nat) : Option β :=
  (l.find? fun p => p.1 == k).map fun p => p.2

/-- `Map::Insert` on the association-list map view: lookup-or-insert at the
sorted position, leaving the list unchanged when the key is present (the
behaviour proved in `mapInsert_amended`). -/
def alistInsert (l : List (Nat × β)) (k : Nat) (v : β) : List (Nat × β) :=
  match l with
  | [] => [(k, v)]
  | p :: rest =>
    if k = p.1 then p :: rest
    else if k < p.1 then (k, v) :: p :: rest
    else p :: alistInsert rest k v

/-- `Map::Remove` on the association-list map view (no-op on a missing
key, as `RBTree::Remove` returns when `Search` misses). -/
def alistRemove (l : List (Nat × β)) (k : Nat) : List (Nat × β) :=
  l.filter fun p => !(p.1 == k)

/-- In-place mutation of a map entry through a C++ reference obtained from
`Get`/`operator[]`. -/
def alistUpdate (l : List (Nat × β)) (k : Nat) (f : β → β) : List (Nat × β) :=
  l.map fun p => if p.1 = k then (p.1, f p.2) else p

/-- Insertion into an adjacency map, keeping edge IDs sorted ascending
(lookup-or-insert, like every `Map::Insert`). -/
def insertSorted (l : List Nat) (k : Nat) : List Nat :=
  match l with
  | [] => [k]
  | x :: rest =>
    if k = x then x :: rest
    else if k < x then k :: x :: rest
    else x :: insertSorted rest k

/-- Removal from an adjacency map. -/
def eraseSorted (l : List Nat) (k : Nat) : List Nat :=
  l.filter fun x => !(x == k)

/-- The empty graph: `Graph::Graph()` zeroes both counters (also the state
after `Destroy()`). -/
def GraphM.empty : GraphM := ⟨[], [], 0, 0⟩

/-- Adjacency list of a vertex (empty for a dangling ID; the code never
reads the adjacency of a missing vertex in the verified scenarios). -/
def adjOf (g : GraphM) (id : Nat) : List Nat :=
  match alistGet? g.vertices id with
  | some v => v.adj
  | none => []

/-- Mutate one vertex record in place. -/
def updVertex (g : GraphM) (id : Nat) (f : GVertex → GVertex) : GraphM :=
  { g with vertices := alistUpdate g.vertices id f }

/-- `Graph::AddVertex(data)`: insert a fresh vertex keyed and identified by
`m_vertexCount`, bump the counter, and hand back the new ID (the C++ returns
a reference to the new entry, identified by that ID). -/
def addVertex (g : GraphM) (data : List Change) : GraphM × Nat :=
  let id := g.vertexCount
  ({ g with
      vertices := alistInsert g.vertices id ⟨id, data, 0, 0, 0, [], none⟩,
      vertexCount := id + 1 }, id)

/-- `Graph::AddEdge(vertexID, neighborID, edgeCost)`: fail if either vertex
is missing; otherwise create edge `m_EdgeCount`, register it in `vertexID`'s
adjacency map (and in `neighborID`'s too when the graph is undirected),
store it in the edge table and bump the counter. -/
def addEdge (directed : Bool) (g : GraphM) (vertexID neighborID : Nat)
    (edgeCost : Int) : GraphM × Bool :=
  if !(alistContains g.vertices vertexID &&
       alistContains g.vertices neighborID) then (g, false)
  else
    let eid := g.edgeCount
    let g1 := updVertex g vertexID fun v =>
      { v with adj := insertSorted v.adj eid }
    let g2 :=
      if !directed then
        updVertex g1 neighborID fun v =>
          { v with adj := insertSorted v.adj eid }
      else g1
    ({ g2 with
        edges := alistInsert g2.edges eid ⟨eid, vertexID, neighborID, edgeCost⟩,
        edgeCount := eid + 1 }, true)

/-- `Graph::RemoveEdge(edgeID)`: fail if the edge is missing; otherwise read
its endpoints, unregister the edge from the adjacency maps (directed: from
`u`'s map if present there, else from `v`'s; undirected: from both) and drop
it from the edge table. -/
def removeEdge (directed : Bool) (g : GraphM) (edgeID : Nat) :
    GraphM × Bool :=
  if !(alistContains g.edges edgeID) then (g, false)
  else
    match alistGet? g.edges edgeID with
    | none => (g, false)
    | some e =>
      let u := e.v1
      let v := e.v2
      let g1 :=
        if directed then
          if (adjOf g u).contains edgeID then
            updVertex g u fun w => { w with adj := eraseSorted w.adj edgeID }
          else
            updVertex g v fun w => { w with adj := eraseSorted w.adj edgeID }
        else
          let ga := updVertex g u fun w =>
            { w with adj := eraseSorted w.adj edgeID }
          updVertex ga v fun w => { w with adj := eraseSorted w.adj edgeID }
      -- the adjacency updates leave `m_edges` untouched, so the final
      -- `m_edges.Remove(edgeID)` filters the original edge table
      ({ g1 with edges := alistRemove g.edges edgeID }, true)

/-- `Graph::RemoveVertex(vertexID)`: fail if the vertex is missing;
otherwise `RemoveEdge` every edge in the vertex's adjacency map, then (for a
directed graph) sweep the whole edge table removing every edge whose second
endpoint is the vertex, and finally remove the vertex entry.  Both C++ loops
advance the iterator before calling `RemoveEdge`, which removes only the
element the iterator has already passed, so iterating over a snapshot of the
map is observationally identical. -/
def removeVertex (directed : Bool) (g : GraphM) (vertexID : Nat) :
    GraphM × Bool :=
  if !(alistContains g.vertices vertexID) then (g, false)
  else
    let snapshot := adjOf g vertexID
    let g1 := snapshot.foldl (fun acc eid => (removeEdge directed acc eid).1) g
    let g2 :=
      if directed then
        g1.edges.foldl
          (fun acc p =>
            if p.2.v2 = vertexID then (removeEdge directed acc p.1).1 else acc)
          g1
      else g1
    ({ g2 with vertices := alistRemove g2.vertices vertexID }, true)

/-! ### Bookkeeping lemmas for `RemoveVertex` (claim C7) -/

theorem updVertex_edges (g : GraphM) (id : Nat) (f : GVertex → GVertex) :
    (updVertex g id f).edges = g.edges := rfl

theorem alistGet?_of_contains {l : List (Nat × β)} {k : Nat}
    (h : alistContains l k = true) : ∃ b, alistGet? l k = some b := by
  unfold alistContains at h
  unfold alistGet?
  rcases List.any_eq_true.mp h with ⟨p, hp, hpk⟩
  have : (l.find? fun p => p.1 == k).isSome = true :=
    List.find?_isSome.mpr ⟨p, hp, hpk⟩
  rcases Option.isSome_iff_exists.mp this with ⟨q, hq⟩
  exact ⟨q.2, by rw [hq]; rfl⟩

theorem alistContains_of_mem {l : List (Nat × β)} {q : Nat × β}
    (h : q ∈ l) : alistContains l q.1 = true := by
  unfold alistContains
  exact List.any_eq_true.mpr ⟨q, h, by simp⟩

theorem alistContains_remove_self (l : List (Nat × β)) (k : Nat) :
    alistContains (alistRemove l k) k = false := by
  unfold alistContains alistRemove
  rw [List.any_eq_false]
  intro p hp
  have := List.of_mem_filter hp
  simpa using this

/-- Reduction of `RemoveEdge` on a missing edge. -/
theorem removeEdge_absent (directed : Bool) (g : GraphM) (eid : Nat)
    (h : alistContains g.edges eid = false) :
    removeEdge directed g eid = (g, false) := by
  unfold removeEdge
  rw [h]
  simp

/-- On a present edge, `RemoveEdge` filters the edge's key out of the edge
table (and returns `true`). -/
theorem removeEdge_present_edges (directed : Bool) (g : GraphM) (eid : Nat)
    (h : alistContains g.edges eid = true) :
    (removeEdge directed g eid).1.edges = alistRemove g.edges eid := by
  rcases alistGet?_of_contains h with ⟨e, he⟩
  unfold removeEdge
  rw [h, he]
  simp

/-- `RemoveEdge` never adds to the edge table. -/
theorem removeEdge_edges_sub (directed : Bool) (g : GraphM) (eid : Nat) :
    ∀ q ∈ (removeEdge directed g eid).1.edges, q ∈ g.edges := by
  intro q hq
  cases hc : alistContains g.edges eid with
  | false =>
    rw [removeEdge_absent directed g eid hc] at hq
    exact hq
  | true =>
    rw [removeEdge_present_edges directed g eid hc] at hq
    exact List.mem_of_mem_filter hq

/-- When the edge is present, `RemoveEdge` purges its key from the table. -/
theorem removeEdge_kills_key (directed : Bool) (g : GraphM) (eid : Nat)
    (h : alistContains g.edges eid = true) :
    ∀ q ∈ (removeEdge directed g eid).1.edges, q.1 ≠ eid := by
  intro q hq
  rw [removeEdge_present_edges directed g eid h] at hq
  have := List.of_mem_filter hq
  simpa using this

/-- Folding `RemoveEdge` over a list of edge IDs never adds to the table. -/
theorem foldAdj_edges_sub (directed : Bool) :
    ∀ (l : List Nat) (g : GraphM),
      ∀ q ∈ (l.foldl (fun acc eid => (removeEdge directed acc eid).1) g).edges,
        q ∈ g.edges := by
  intro l
  induction l with
  | nil => intro g q hq; exact hq
  | cons x rest ih =>
    intro g q hq
    exact removeEdge_edges_sub directed g x q (ih _ q hq)

/-- Adjacency sweep of `RemoveVertex`: if every edge satisfying `P` is
listed (by ID) in the swept list, none survives the sweep. -/
theorem foldAdj_kills (directed : Bool) (P : Nat × GEdge → Prop) :
    ∀ (l : List Nat) (g : GraphM),
      (∀ q ∈ g.edges, P q → q.1 ∈ l) →
      ∀ q ∈ (l.foldl (fun acc eid => (removeEdge directed acc eid).1) g).edges,
        ¬ P q := by
  intro l
  induction l with
  | nil =>
    intro g hcov q hq hP
    simpa using hcov q hq hP
  | cons x rest ih =>
    intro g hcov q hq
    refine ih ((removeEdge directed g x).1) ?_ q hq
    intro r hr hPr
    have hrg : r ∈ g.edges := removeEdge_edges_sub directed g x r hr
    have hrx : r.1 ∈ x :: rest := hcov r hrg hPr
    rcases List.mem_cons.mp hrx with heq | htail
    · exfalso
      have hc : alistContains g.edges x = true := by
        have := alistContains_of_mem hrg
        rwa [heq] at this
      exact removeEdge_kills_key directed g x hc r hr heq
    · exact htail

/-- Edge-table sweep of `RemoveVertex` (directed case): it never adds to
the table. -/
theorem foldScan_edges_sub (directed : Bool) (vid : Nat) :
    ∀ (l : List (Nat × GEdge)) (g : GraphM),
      ∀ q ∈ (l.foldl
          (fun acc p =>
            if p.2.v2 = vid then (removeEdge directed acc p.1).1 else acc)
          g).edges,
        q ∈ g.edges := by
  intro l
  induction l with
  | nil => intro g q hq; exact hq
  | cons p rest ih =>
    intro g q hq
    simp only [List.foldl_cons] at hq
    by_cases hp : p.2.v2 = vid
    · rw [if_pos hp] at hq
      exact removeEdge_edges_sub directed g p.1 q (ih _ q hq)
    · rw [if_neg hp] at hq
      exact ih _ q hq

/-- Edge-table sweep of `RemoveVertex` (directed case): if every edge whose
second endpoint is `vid` occurs in the swept snapshot, none survives. -/
theorem foldScan_kills (directed : Bool) (vid : Nat) :
    ∀ (l : List (Nat × GEdge)) (g : GraphM),
      (∀ q ∈ g.edges, q.2.v2 = vid → q ∈ l) →
      ∀ q ∈ (l.foldl
          (fun acc p =>
            if p.2.v2 = vid then (removeEdge directed acc p.1).1 else acc)
          g).edges,
        q.2.v2 ≠ vid := by
  intro l
  induction l with
  | nil =>
    intro g hcov q hq hP
    simpa using hcov q hq hP
  | cons p rest ih =>
    intro g hcov q hq
    refine ih (if p.2.v2 = vid then (removeEdge directed g p.1).1 else g) ?_ q hq
    intro r hr hPr
    by_cases hp : p.2.v2 = vid
    · rw [if_pos hp] at hr
      have hrg : r ∈ g.edges := removeEdge_edges_sub directed g p.1 r hr
      rcases List.mem_cons.mp (hcov r hrg hPr) with hre | htail
      · exfalso
        have hc : alistContains g.edges p.1 = true := by
          have := alistContains_of_mem hrg
          rwa [hre] at this
        exact removeEdge_kills_key directed g p.1 hc r hr (by rw [hre])
      · exact htail
    · rw [if_neg hp] at hr
      rcases List.mem_cons.mp (hcov r hr hPr) with hre | htail
      · exfalso
        rw [hre] at hPr
        exact hp hPr
      · exact htail

/-- Reduction of `RemoveVertex` on a missing vertex. -/
theorem removeVertex_absent (directed : Bool) (g : GraphM) (vid : Nat)
    (h : alistContains g.vertices vid = false) :
    removeVertex directed g vid = (g, false) := by
  unfold removeVertex
  rw [h]
  rfl

/-- Reduction of `RemoveVertex` on a present vertex: the adjacency sweep,
the directed-only edge-table sweep, then dropping the vertex entry. -/
theorem removeVertex_present_eq (directed : Bool) (g : GraphM) (vid : Nat)
    (h : alistContains g.vertices vid = true) :
    removeVertex directed g vid =
      (let g1 := (adjOf g vid).foldl
          (fun acc eid => (removeEdge directed acc eid).1) g
       let g2 :=
         if directed then
           g1.edges.foldl
             (fun acc p =>
               if p.2.v2 = vid then (removeEdge directed acc p.1).1 else acc)
             g1
         else g1
       ({ g2 with vertices := alistRemove g2.vertices vid }, true)) := by
  unfold removeVertex
  rw [h]
  rfl

/-- C7: `Graph::RemoveVertex(id)` returns `false` and changes nothing when
`id` is absent.  When `id` is present it returns `true`, the vertex entry is
gone afterwards, and no edge remaining in the edge table references `id` as
either endpoint.  The hypotheses are the adjacency-registration invariant
that `AddEdge` maintains and `RemoveEdge` preserves: every edge whose first
endpoint is `id` — and, when the graph is undirected, every edge with `id`
as either endpoint — is registered in `id`'s adjacency map. -/
theorem removeVertex_spec (directed : Bool) (g : GraphM) (vid : Nat)
    (hWF1 : ∀ q ∈ g.edges, q.2.v1 = vid → q.1 ∈ adjOf g vid)
    (hWF2 : directed = false →
      ∀ q ∈ g.edges, q.2.v2 = vid → q.1 ∈ adjOf g vid) :
    (alistContains g.vertices vid = false →
      removeVertex directed g vid = (g, false)) ∧
    (alistContains g.vertices vid = true →
      (removeVertex directed g vid).2 = true ∧
      alistContains (removeVertex directed g vid).1.vertices vid = false ∧
      ∀ q ∈ (removeVertex directed g vid).1.edges,
        q.2.v1 ≠ vid ∧ q.2.v2 ≠ vid) := by
  constructor
  · intro h
    exact removeVertex_absent directed g vid h
  · intro h
    rw [removeVertex_present_eq directed g vid h]
    cases directed with
    | false =>
      refine ⟨rfl, alistContains_remove_self _ vid, ?_⟩
      intro q hq
      have hq1 : q ∈ ((adjOf g vid).foldl
          (fun acc eid => (removeEdge false acc eid).1) g).edges := hq
      have hkill := foldAdj_kills false
        (fun q => q.2.v1 = vid ∨ q.2.v2 = vid) (adjOf g vid) g
        (fun r hr hPr => hPr.elim (hWF1 r hr) (hWF2 rfl r hr)) q hq1
      exact ⟨fun h1 => hkill (Or.inl h1), fun h2 => hkill (Or.inr h2)⟩
    | true =>
      refine ⟨rfl, alistContains_remove_self _ vid, ?_⟩
      intro q hq
      have hq2 : q ∈ (((adjOf g vid).foldl
          (fun acc eid => (removeEdge true acc eid).1) g).edges.foldl
            (fun acc p =>
              if p.2.v2 = vid then (removeEdge true acc p.1).1 else acc)
            ((adjOf g vid).foldl
              (fun acc eid => (removeEdge true acc eid).1) g)).edges := hq
      have hq1 := foldScan_edges_sub true vid _ _ q hq2
      have hv1 := foldAdj_kills true (fun q => q.2.v1 = vid) (adjOf g vid) g
        (fun r hr hPr => hWF1 r hr hPr) q hq1
      have hv2 := foldScan_kills true vid _ _ (fun r hr _ => hr) q hq2
      exact ⟨hv1, hv2⟩

/-- Concrete graph for the C7 witness: two vertices `0, 1` and the directed
edge `0 → 1`, built by `AddVertex`/`AddEdge`. -/
def gEx : GraphM :=
  let g1 := (addVertex GraphM.empty []).1
  let g2 := (addVertex g1 []).1
  (addEdge true g2 0 1 0).1

/-- C7, witness: removing vertex 0 of the two-vertex directed graph with
edge `0 → 1` succeeds, deletes the vertex, and leaves no edge referencing
it. -/
theorem removeVertex_spec_witness :
    (removeVertex true gEx 0).2 = true ∧
    alistContains (removeVertex true gEx 0).1.vertices 0 = false ∧
    ∀ q ∈ (removeVertex true gEx 0).1.edges, q.2.v1 ≠ 0 ∧ q.2.v2 ≠ 0 :=
  (removeVertex_spec true gEx 0 (by decide) (by decide)).2 (by decide)

/-! ## Solver (`src/solver.cc`)

`sudoku::Solver` works on `Graph<uint16_t, uint16_t, Vector<State>, 2, true>`
(a directed graph, `include/solver.h`), so every graph call below passes
`directed = true`.  Its mutable state is the graph, `m_vertexSolutionID`,
`m_expandedStates` and — in the embedding — the index of the next value
drawn from the random stream.  `m_startGrid` is written once by the
constructor and never changed, so it is a plain parameter.

The while-loops of the search algorithms take fuel; the theorems below
supply enough fuel for the runs they describe, and fuel exhaustion returns
the failure result.  The adjacency `for`-loops with an early `return true`
are structural recursions over the adjacency snapshot returning
`Except`: `.error` carries the early return (the found vertex, plus the
graph mutations already performed), `.ok` the state at normal loop exit. -/

/-- The random stream feeding `Solver::GenRandomCost` (one abstract draw per
call of the clock-seeded generator). -/
abbrev CostStream := Nat → Nat

/-- `Solver::GenRandomCost`: a value uniform in `1 .. GRID_SIZE + 1`; draw
`k` of the stream, reduced to the distribution's range. -/
def genRandomCost (s : CostStream) (k : Nat) : Nat :=
  s k % (GRID_SIZE + 1) + 1

/-- The solver's mutable state: `m_graph`, `m_vertexSolutionID`,
`m_expandedStates`, and the index of the next random draw. -/
structure SolverSt where
  graph : GraphM
  vertexSolutionID : Nat
  expandedStates : Nat
  rng : Nat
  deriving Repr, DecidableEq

/-- `Graph::GetVertex` / reads through stored vertex pointers.  A missing ID
terminates the C++ process; the embedding returns an inert record, never
reached by the verified runs. -/
def vertexOf (g : GraphM) (vid : Nat) : GVertex :=
  match alistGet? g.vertices vid with
  | some v => v
  | none => ⟨vid, [], 0, 0, 0, [], none⟩

/-- `Graph::GetEdge` / reads through stored edge pointers (same convention
for a missing ID). -/
def edgeOf (g : GraphM) (eid : Nat) : GEdge :=
  match alistGet? g.edges eid with
  | some e => e
  | none => ⟨eid, 0, 0, 0⟩

/-- The far endpoint resolution performed in every adjacency scan:
`uv->GetVertices().GetFirst()->GetID() == u->GetID() ? second : first`. -/
def farEnd (g : GraphM) (uid eid : Nat) : Nat :=
  let e := edgeOf g eid
  if e.v1 = uid then e.v2 else e.v1

/-- `Solver::GetVertexState`: copy `m_startGrid`, then replay the vertex's
delta history over it. -/
def getVertexState (startGrid : Grid) (v : GVertex) : Grid :=
  applyChanges startGrid v.data

/-- `Solver::CheckSolution`. -/
def checkSolution (startGrid : Grid) (v : GVertex) : Bool :=
  isSolved (getVertexState startGrid v)

/-- `Solver::CalculateAStarHeuristic`: number of digits valid at the cell
assigned by the vertex's last delta (`GRID_SIZE` for the root). -/
def calculateAStarHeuristic (startGrid : Grid) (v : GVertex) : Nat :=
  let currentGrid := getVertexState startGrid v
  match v.data.getLast? with
  | some ch =>
    (List.range' 1 GRID_SIZE).countP fun num =>
      IsValid currentGrid ch.1.1 ch.1.2 num
  | none => GRID_SIZE

/-- `Solver::CalculateGreedyBFSHeuristic`: number of empty cells of the
vertex's grid. -/
def calculateGreedyBFSHeuristic (startGrid : Grid) (v : GVertex) : Nat :=
  let currentGrid := getVertexState startGrid v
  allCoords.countP fun p => cellAt currentGrid p.1 p.2 == 0

/-- `Solver::CreateInitialState`: `Destroy()` the graph and add the root
vertex (empty delta history), labelled `UNVISITED`.  The counters
`m_vertexSolutionID`, `m_expandedStates` (and the stream position) are NOT
reset. -/
def createInitialState (st : SolverSt) : SolverSt :=
  let p := addVertex GraphM.empty []
  { st with graph := updVertex p.1 p.2 fun v => { v with label := 0 } }

/-- One pass of the `ExpandNode` digit loop, `num = 1 .. GRID_SIZE`: when
`num` is valid at the (fixed) first empty cell of the father's grid, push
the delta onto the accumulating `changes` vector, add the child vertex, set
its random cost and `UNVISITED` label, add the father→child edge and count
the expansion. -/
def expandDigit (fatherID row col : Nat) (currentGrid : Grid)
    (s : CostStream) (acc : List Change × SolverSt) (num : Nat) :
    List Change × SolverSt :=
  if IsValid currentGrid row col num then
    let changes := acc.1 ++ [((row, col), num)]
    let st := acc.2
    let p := addVertex st.graph changes
    let g2 := updVertex p.1 p.2 fun v =>
      { v with currentCost := (genRandomCost s st.rng : Int) }
    let g3 := updVertex g2 p.2 fun v => { v with label := 0 }
    let g4 := (addEdge true g3 fatherID p.2 0).1
    (changes,
      { graph := g4,
        vertexSolutionID := st.vertexSolutionID,
        expandedStates := st.expandedStates + 1,
        rng := st.rng + 1 })
  else acc

/-- `Solver::ExpandNode`: reconstruct the father's grid once, find its first
empty cell once, and run the digit loop; the `changes` vector accumulates
across loop iterations (it is never popped), so the child for a later valid
digit also carries the deltas of the earlier valid digits — all targeting
the same cell, so the last delta wins on replay.  Finally the father is
labelled `PROCESSING`.  When the grid has no empty cell the C++ leaves the
loop's cell indices at `GRID_SIZE` and reads past the array (undefined
behaviour); no verified run expands a solved vertex, and the embedding adds
no children in that case. -/
def expandNode (startGrid : Grid) (s : CostStream) (st : SolverSt)
    (fatherID : Nat) : SolverSt :=
  let father := vertexOf st.graph fatherID
  let currentGrid := getVertexState startGrid father
  let changes := father.data
  let st1 :=
    match findEmptyCell currentGrid with
    | none => st
    | some (row, col) =>
      ((List.range' 1 GRID_SIZE).foldl
        (expandDigit fatherID row col currentGrid s) (changes, st)).2
  { st1 with
      graph := updVertex st1.graph fatherID fun v => { v with label := 1 } }

/-- The adjacency scan of `Solver::BFS`: resolve each neighbour, return it
on a solution hit, enqueue it if `UNVISITED`. -/
def bfsScanGo (startGrid : Grid) (g : GraphM) (uid : Nat) :
    List Nat → List Nat → Except Nat (List Nat)
  | [], queue => .ok queue
  | eid :: rest, queue =>
    let vid := farEnd g uid eid
    let v := vertexOf g vid
    if checkSolution startGrid v then .error vid
    else
      bfsScanGo startGrid g uid rest
        (if v.label = 0 then queue ++ [vid] else queue)

/-- The while-loop of `Solver::BFS` (fuel-bounded). -/
def bfsLoop (startGrid : Grid) (s : CostStream) :
    Nat → SolverSt → List Nat → Bool × SolverSt
  | 0, st, _ => (false, st)
  | _ + 1, st, [] => (false, st)
  | fuel + 1, st, uid :: qrest =>
    let st1 := expandNode startGrid s st uid
    match bfsScanGo startGrid st1.graph uid (adjOf st1.graph uid) qrest with
    | .error vid => (true, { st1 with vertexSolutionID := vid })
    | .ok queue' =>
      bfsLoop startGrid s fuel
        { st1 with graph := (removeVertex true st1.graph uid).1 } queue'

/-- `Solver::BFS`: fresh initial state, enqueue the root, run the loop. -/
def bfs (startGrid : Grid) (s : CostStream) (fuel : Nat) (st : SolverSt) :
    Bool × SolverSt :=
  bfsLoop startGrid s fuel (createInitialState st) [0]

/-- The adjacency scan of `Solver::IDDFS`: return the neighbour on a
solution hit; label an `UNVISITED` neighbour with `u`'s current cost + 1 and
push it onto the stack. -/
def iddfsScanGo (startGrid : Grid) (uid : Nat) (ucost : Int) :
    GraphM → List Nat → List Nat → Except (Nat × GraphM) (GraphM × List Nat)
  | g, [], stack => .ok (g, stack)
  | g, eid :: rest, stack =>
    let vid := farEnd g uid eid
    let v := vertexOf g vid
    if checkSolution startGrid v then .error (vid, g)
    else if v.label = 0 then
      iddfsScanGo startGrid uid ucost
        (updVertex g vid fun w => { w with label := ucost + 1 })
        rest (vid :: stack)
    else iddfsScanGo startGrid uid ucost g rest stack

/-- The inner (depth-limited) while-loop of `Solver::IDDFS`: pop a vertex;
skip it when its stored current cost exceeds the depth limit; otherwise
expand and scan. -/
def iddfsDLS (startGrid : Grid) (s : CostStream) (depth : Nat) :
    Nat → SolverSt → List Nat → Bool × SolverSt
  | 0, st, _ => (false, st)
  | _ + 1, st, [] => (false, st)
  | fuel + 1, st, uid :: srest =>
    if (vertexOf st.graph uid).currentCost > (depth : Int) then
      iddfsDLS startGrid s depth fuel st srest
    else
      let st1 := expandNode startGrid s st uid
      match iddfsScanGo startGrid uid (vertexOf st1.graph uid).currentCost
          st1.graph (adjOf st1.graph uid) srest with
      | .error (vid, g') =>
        (true, { st1 with graph := g', vertexSolutionID := vid })
      | .ok (g', stack') =>
        iddfsDLS startGrid s depth fuel
          { st1 with graph := (removeVertex true g' uid).1 } stack'

/-- The outer loop of `Solver::IDDFS` over the list of depth limits: fresh
initial state per iteration, root cost 0 and label `VISITED`, then the
depth-limited search from the root. -/
def iddfsOuter (startGrid : Grid) (s : CostStream) (fuel : Nat) :
    List Nat → SolverSt → Bool × SolverSt
  | [], st => (false, st)
  | depth :: rest, st =>
    let st0 := createInitialState st
    let st1 := { st0 with
      graph := updVertex
        (updVertex st0.graph 0 fun v => { v with currentCost := 0 }) 0
        fun v => { v with label := 2 } }
    match iddfsDLS startGrid s depth fuel st1 [0] with
    | (true, st') => (true, st')
    | (false, st') => iddfsOuter startGrid s fuel rest st'

/-- `Solver::IDDFS(maxDepth)`: depth limits `1 .. maxDepth` (the C++ `for`
runs from 1; the default argument is `GRID_SIZE * GRID_SIZE = 81`). -/
def iddfs (startGrid : Grid) (s : CostStream) (maxDepth fuel : Nat)
    (st : SolverSt) : Bool × SolverSt :=
  iddfsOuter startGrid s fuel (List.range' 1 maxDepth) st

/-- `graph::Relax` acting on the solver's graph: compare against
`(u.cost - u.heur) + uv.cost`, and on success store that plus `v.heur` as
`v`'s cost and record the predecessor edge (the behaviour proved in
`relax_amended`). -/
def relaxG (g : GraphM) (uid vid eid : Nat) : GraphM × Bool :=
  let u := vertexOf g uid
  let v := vertexOf g vid
  let e := edgeOf g eid
  if v.currentCost > (u.currentCost - u.heuristicCost) + e.cost then
    (updVertex g vid fun w =>
      { w with
          currentCost := (u.currentCost - u.heuristicCost) + e.cost +
            v.heuristicCost,
          pred := some eid }, true)
  else (g, false)

/-- `compare::Vertex` (current cost, `<=`) resolved through the graph at
comparison time, as the C++ heap compares through vertex pointers. -/
def vertexComp (g : GraphM) (a b : Nat) : Bool :=
  decide ((vertexOf g a).currentCost ≤ (vertexOf g b).currentCost)

/-- `compare::VertexHeuristic` (heuristic cost, `<=`). -/
def vertexHeurComp (g : GraphM) (a b : Nat) : Bool :=
  decide ((vertexOf g a).heuristicCost ≤ (vertexOf g b).heuristicCost)

/-- The adjacency scan of `Solver::UCS`: return the neighbour on a solution
hit; relax an `UNVISITED` neighbour and enqueue it when the relaxation
succeeds. -/
def ucsScanGo (startGrid : Grid) (uid : Nat) :
    GraphM → List Nat → List Nat → Except (Nat × GraphM) (GraphM × List Nat)
  | g, [], heap => .ok (g, heap)
  | g, eid :: rest, heap =>
    let vid := farEnd g uid eid
    let v := vertexOf g vid
    if checkSolution startGrid v then .error (vid, g)
    else if v.label = 0 then
      match relaxG g uid vid eid with
      | (g', true) =>
        ucsScanGo startGrid uid g' rest (pushHeap (vertexComp g') heap vid)
      | (g', false) => ucsScanGo startGrid uid g' rest heap
    else ucsScanGo startGrid uid g rest heap

/-- The while-loop of `Solver::UCS` (fuel-bounded): dequeue the minimum by
current cost, label it `VISITED`, expand, scan, remove. -/
def ucsLoop (startGrid : Grid) (s : CostStream) :
    Nat → SolverSt → List Nat → Bool × SolverSt
  | 0, st, _ => (false, st)
  | _ + 1, st, [] => (false, st)
  | fuel + 1, st, h :: hrest =>
    let pq := popHeap (vertexComp st.graph) (h :: hrest)
    let uid := pq.1
    let st0 := { st with
      graph := updVertex st.graph uid fun v => { v with label := 2 } }
    let st1 := expandNode startGrid s st0 uid
    match ucsScanGo startGrid uid st1.graph (adjOf st1.graph uid) pq.2 with
    | .error (vid, g') =>
      (true, { st1 with graph := g', vertexSolutionID := vid })
    | .ok (g', heap') =>
      ucsLoop startGrid s fuel
        { st1 with graph := (removeVertex true g' uid).1 } heap'

/-- `Solver::UCS`. -/
def ucs (startGrid : Grid) (s : CostStream) (fuel : Nat) (st : SolverSt) :
    Bool × SolverSt :=
  let st0 := createInitialState st
  ucsLoop startGrid s fuel st0 (pushHeap (vertexComp st0.graph) [] 0)

/-- The adjacency scan of `Solver::AStar`: like UCS, but an `UNVISITED`
neighbour first receives its A* heuristic, then is relaxed. -/
def astarScanGo (startGrid : Grid) (uid : Nat) :
    GraphM → List Nat → List Nat → Except (Nat × GraphM) (GraphM × List Nat)
  | g, [], heap => .ok (g, heap)
  | g, eid :: rest, heap =>
    let vid := farEnd g uid eid
    let v := vertexOf g vid
    if checkSolution startGrid v then .error (vid, g)
    else if v.label = 0 then
      let g1 := updVertex g vid fun w =>
        { w with
            heuristicCost := (calculateAStarHeuristic startGrid v : Int) }
      match relaxG g1 uid vid eid with
      | (g', true) =>
        astarScanGo startGrid uid g' rest (pushHeap (vertexComp g') heap vid)
      | (g', false) => astarScanGo startGrid uid g' rest heap
    else astarScanGo startGrid uid g rest heap

/-- The while-loop of `Solver::AStar` (fuel-bounded). -/
def astarLoop (startGrid : Grid) (s : CostStream) :
    Nat → SolverSt → List Nat → Bool × SolverSt
  | 0, st, _ => (false, st)
  | _ + 1, st, [] => (false, st)
  | fuel + 1, st, h :: hrest =>
    let pq := popHeap (vertexComp st.graph) (h :: hrest)
    let uid := pq.1
    let st0 := { st with
      graph := updVertex st.graph uid fun v => { v with label := 2 } }
    let st1 := expandNode startGrid s st0 uid
    match astarScanGo startGrid uid st1.graph (adjOf st1.graph uid) pq.2 with
    | .error (vid, g') =>
      (true, { st1 with graph := g', vertexSolutionID := vid })
    | .ok (g', heap') =>
      astarLoop startGrid s fuel
        { st1 with graph := (removeVertex true g' uid).1 } heap'

/-- `Solver::AStar`: the root receives the A* heuristic as both current and
heuristic cost before being enqueued. -/
def astar (startGrid : Grid) (s : CostStream) (fuel : Nat) (st : SolverSt) :
    Bool × SolverSt :=
  let st0 := createInitialState st
  let h := (calculateAStarHeuristic startGrid (vertexOf st0.graph 0) : Int)
  let st1 := { st0 with
    graph := updVertex st0.graph 0 fun v =>
      { v with currentCost := h, heuristicCost := h } }
  astarLoop startGrid s fuel st1 (pushHeap (vertexComp st1.graph) [] 0)

/-- The adjacency scan of `Solver::GreedyBFS`: an `UNVISITED` neighbour
receives its greedy heuristic and is enqueued unconditionally. -/
def greedyScanGo (startGrid : Grid) (uid : Nat) :
    GraphM → List Nat → List Nat → Except (Nat × GraphM) (GraphM × List Nat)
  | g, [], heap => .ok (g, heap)
  | g, eid :: rest, heap =>
    let vid := farEnd g uid eid
    let v := vertexOf g vid
    if checkSolution startGrid v then .error (vid, g)
    else if v.label = 0 then
      let g1 := updVertex g vid fun w =>
        { w with
            heuristicCost := (calculateGreedyBFSHeuristic startGrid v : Int) }
      greedyScanGo startGrid uid g1 rest
        (pushHeap (vertexHeurComp g1) heap vid)
    else greedyScanGo startGrid uid g rest heap

/-- The while-loop of `Solver::GreedyBFS` (fuel-bounded); the priority
queue orders by heuristic cost. -/
def greedyLoop (startGrid : Grid) (s : CostStream) :
    Nat → SolverSt → List Nat → Bool × SolverSt
  | 0, st, _ => (false, st)
  | _ + 1, st, [] => (false, st)
  | fuel + 1, st, h :: hrest =>
    let pq := popHeap (vertexHeurComp st.graph) (h :: hrest)
    let uid := pq.1
    let st0 := { st with
      graph := updVertex st.graph uid fun v => { v with label := 2 } }
    let st1 := expandNode startGrid s st0 uid
    match greedyScanGo startGrid uid st1.graph (adjOf st1.graph uid) pq.2 with
    | .error (vid, g') =>
      (true, { st1 with graph := g', vertexSolutionID := vid })
    | .ok (g', heap') =>
      greedyLoop startGrid s fuel
        { st1 with graph := (removeVertex true g' uid).1 } heap'

/-- `Solver::GreedyBFS`: the root receives the greedy heuristic before
being enqueued. -/
def greedyBFS (startGrid : Grid) (s : CostStream) (fuel : Nat)
    (st : SolverSt) : Bool × SolverSt :=
  let st0 := createInitialState st
  let h := (calculateGreedyBFSHeuristic startGrid (vertexOf st0.graph 0) : Int)
  let st1 := { st0 with
    graph := updVertex st0.graph 0 fun v => { v with heuristicCost := h } }
  greedyLoop startGrid s fuel st1 (pushHeap (vertexHeurComp st1.graph) [] 0)

/-! ### Bookkeeping for the one-empty-cell scenario (claim C1) -/

/-- A guarded fold over digits does nothing when no digit passes the
guard. -/
theorem foldl_skip {σ : Type} (step : σ → Nat → σ) (p : Nat → Bool)
    (hskip : ∀ acc n, p n = false → step acc n = acc) :
    ∀ (l : List Nat) (acc : σ), l.filter p = [] → l.foldl step acc = acc := by
  intro l
  induction l with
  | nil => intro acc _; rfl
  | cons x rest ih =>
    intro acc hf
    rw [List.filter_cons] at hf
    by_cases hx : p x = true
    · rw [if_pos hx] at hf
      exact absurd hf (by simp)
    · rw [if_neg hx] at hf
      rw [List.foldl_cons, hskip acc x (by simpa using hx)]
      exact ih _ hf

/-- A guarded fold over digits reduces to the single action of the unique
digit passing the guard. -/
theorem foldl_single {σ : Type} (step : σ → Nat → σ) (p : Nat → Bool)
    (hskip : ∀ acc n, p n = false → step acc n = acc) :
    ∀ (l : List Nat) (acc : σ) (d : Nat), l.filter p = [d] →
      l.foldl step acc = step acc d := by
  intro l
  induction l with
  | nil => intro acc d h; simp at h
  | cons x rest ih =>
    intro acc d hf
    rw [List.filter_cons] at hf
    by_cases hx : p x = true
    · rw [if_pos hx] at hf
      injection hf with h1 h2
      rw [List.foldl_cons, h1]
      exact foldl_skip step p hskip rest _ h2
    · rw [if_neg hx] at hf
      rw [List.foldl_cons, hskip acc x (by simpa using hx)]
      exact ih _ d hf

/-- Every row of a well-formed grid read by `getD` has length 9. -/
theorem row_length_of_WF {g : Grid} (hWF : WFGrid g) {r : Nat}
    (hr : r < GRID_SIZE) : (g.getD r []).length = GRID_SIZE := by
  have hlen : r < g.length := by rw [hWF.1]; exact hr
  rw [List.getD_eq_getElem g [] hlen]
  exact hWF.2 _ (List.getElem_mem hlen)

/-- Writing a cell, then reading it back. -/
theorem cellAt_setCell_self {g : Grid} (hWF : WFGrid g) {r c : Nat}
    (hr : r < GRID_SIZE) (hc : c < GRID_SIZE) (d : Nat) :
    cellAt (setCell g r c d) r c = d := by
  unfold cellAt setCell
  have hrl : r < g.length := by rw [hWF.1]; exact hr
  rw [getD_set_self g r _ [] hrl]
  have hcl : c < (g.getD r []).length := by rw [row_length_of_WF hWF hr]; exact hc
  exact getD_set_self _ c d 0 hcl

/-- Writing a cell leaves every other cell unchanged. -/
theorem cellAt_setCell_ne {g : Grid} (r c d i j : Nat)
    (h : ¬(i = r ∧ j = c)) :
    cellAt (setCell g r c d) i j = cellAt g i j := by
  unfold cellAt setCell
  by_cases hir : i = r
  · subst hir
    have hjc : j ≠ c := fun hj => h ⟨rfl, hj⟩
    by_cases hrl : i < g.length
    · rw [getD_set_self g i _ [] hrl]
      exact getD_set_ne _ c j _ 0 (fun hcj => hjc hcj.symm)
    · have h1 : (g.set i ((g.getD i []).set c d)).length ≤ i := by
        rw [List.length_set]; omega
      have h2 : g.length ≤ i := by omega
      rw [List.getD_eq_default _ _ h1, List.getD_eq_default _ _ h2]
  · rw [getD_set_ne g r i _ [] (fun hri => hir hri.symm)]

/-- Any member of `allCoords` is inside the 9×9 bounds. -/
theorem mem_allCoords {p : Nat × Nat} (hp : p ∈ allCoords) :
    p.1 < GRID_SIZE ∧ p.2 < GRID_SIZE := by
  unfold allCoords at hp
  simp only [List.mem_flatMap, List.mem_map, List.mem_range] at hp
  rcases hp with ⟨r, hr, c, hc, hpc⟩
  rw [← hpc]
  exact ⟨hr, hc⟩

/-- What `FindEmptyCell` returning a cell means: the cell is in bounds and
holds 0. -/
theorem findEmptyCell_bounds {g : Grid} {r c : Nat}
    (hfind : findEmptyCell g = some (r, c)) :
    r < GRID_SIZE ∧ c < GRID_SIZE ∧ cellAt g r c = 0 := by
  unfold findEmptyCell at hfind
  have hmem := List.mem_of_find?_eq_some hfind
  have hp := List.find?_some hfind
  have hb := mem_allCoords hmem
  exact ⟨hb.1, hb.2, by simpa using hp⟩

/-- Filling the unique empty cell with a nonzero digit solves the grid (in
the `IsSolved` sense of the source: no zero left). -/
theorem isSolved_setCell {g : Grid} (hWF : WFGrid g) {r c d : Nat}
    (hr : r < GRID_SIZE) (hc : c < GRID_SIZE)
    (hone : ∀ i, i < GRID_SIZE → ∀ j, j < GRID_SIZE →
      (cellAt g i j = 0 ↔ i = r ∧ j = c))
    (hd : d ≠ 0) :
    isSolved (setCell g r c d) = true := by
  unfold isSolved
  rw [List.all_eq_true]
  intro p hp
  have hb := mem_allCoords hp
  by_cases hprc : p.1 = r ∧ p.2 = c
  · rw [hprc.1, hprc.2, cellAt_setCell_self hWF hr hc d]
    simpa using hd
  · rw [cellAt_setCell_ne r c d p.1 p.2 hprc]
    have := (hone p.1 hb.1 p.2 hb.2).not.mpr hprc
    simpa using this

/-- The graph right after `CreateInitialState` (and, for IDDFS/UCS/A*/GBFS,
after the root's cost/heuristic/label writes): a lone root vertex with the
given cost fields and label. -/
def rootGraph (cost heur lab : Int) : GraphM :=
  ⟨[(0, ⟨0, [], cost, heur, lab, [], none⟩)], [], 1, 0⟩

/-- The child vertex created by expanding the root in the one-empty-cell
scenario. -/
def childRec (r c d : Nat) (cc : Int) : GVertex :=
  ⟨1, [((r, c), d)], cc, 0, 0, [], none⟩

/-- The graph after `ExpandNode(root)` in the one-empty-cell scenario: the
root (now `PROCESSING`, adjacency `[0]`), one child with the single delta,
and the edge `0 → 1`. -/
def postGraph (r c d : Nat) (cost heur cc : Int) : GraphM :=
  ⟨[(0, ⟨0, [], cost, heur, 1, [0], none⟩), (1, childRec r c d cc)],
   [(0, ⟨0, 0, 1, 0⟩)], 2, 1⟩

/-- `CreateInitialState` resets only the graph; the solution ID, the
expanded-state counter and the stream position persist. -/
theorem createInitialState_eq (st : SolverSt) :
    createInitialState st =
      ⟨rootGraph 0 0 0, st.vertexSolutionID, st.expandedStates, st.rng⟩ := rfl

/-- `ExpandNode` on a lone root in the one-empty-cell scenario: exactly one
child is created, one state is counted, one random value is drawn. -/
theorem expandNode_rootGraph (g : Grid) (s : CostStream) (r c d : Nat)
    (cost heur lab : Int) (sid exp k : Nat)
    (hfind : findEmptyCell g = some (r, c))
    (hfilter : (List.range' 1 GRID_SIZE).filter
      (fun n => IsValid g r c n) = [d]) :
    expandNode g s ⟨rootGraph cost heur lab, sid, exp, k⟩ 0 =
      ⟨postGraph r c d cost heur (genRandomCost s k), sid, exp + 1, k + 1⟩ := by
  have hd : IsValid g r c d = true := by
    have hmem : d ∈ (List.range' 1 GRID_SIZE).filter
        (fun n => IsValid g r c n) := by
      rw [hfilter]; exact List.mem_singleton.mpr rfl
    exact (List.mem_filter.mp hmem).2
  have hskip : ∀ (acc : List Change × SolverSt) n,
      IsValid g r c n = false →
      expandDigit 0 r c g s acc n = acc := by
    intro acc n hn
    unfold expandDigit
    rw [hn]
    rfl
  unfold expandNode
  dsimp only
  rw [show (vertexOf (rootGraph cost heur lab) 0) =
    (⟨0, [], cost, heur, lab, [], none⟩ : GVertex) from rfl]
  dsimp only
  rw [show getVertexState g
    (⟨0, [], cost, heur, lab, [], none⟩ : GVertex) = g from rfl]
  rw [hfind]
  dsimp only
  rw [foldl_single (expandDigit 0 r c g s)
    (fun n => IsValid g r c n) hskip _ _ d hfilter]
  unfold expandDigit
  rw [hd]
  rfl

/-- `BinaryHeap::Push` into the empty heap. -/
theorem pushHeap_nil [Inhabited α] (comp : α → α → Bool) (x : α) :
    pushHeap comp [] x = [x] := by
  unfold pushHeap heapifyUp
  simp

/-- `BinaryHeap::Pop` from a one-element heap. -/
theorem popHeap_single [Inhabited α] (comp : α → α → Bool) (x : α) :
    popHeap comp [x] = (x, []) := by
  unfold popHeap heapifyDown
  simp [swapL, nth, largestIdx]

/-- The BFS adjacency scan hits the solution at the root's only child. -/
theorem bfsScan_hit (g : Grid) (r c d : Nat) (co he cc : Int)
    (hsolved : checkSolution g (childRec r c d cc) = true) :
    bfsScanGo g (postGraph r c d co he cc) 0 [0] [] = .error 1 := by
  unfold bfsScanGo
  dsimp only
  rw [show farEnd (postGraph r c d co he cc) 0 0 = 1 from rfl]
  rw [show vertexOf (postGraph r c d co he cc) 1 = childRec r c d cc from rfl]
  rw [hsolved]
  rfl

/-- The IDDFS adjacency scan hits the solution at the root's only child. -/
theorem iddfsScan_hit (g : Grid) (r c d : Nat) (u : Int) (co he cc : Int)
    (hsolved : checkSolution g (childRec r c d cc) = true) :
    iddfsScanGo g 0 u (postGraph r c d co he cc) [0] [] =
      .error (1, postGraph r c d co he cc) := by
  unfold iddfsScanGo
  dsimp only
  rw [show farEnd (postGraph r c d co he cc) 0 0 = 1 from rfl]
  rw [show vertexOf (postGraph r c d co he cc) 1 = childRec r c d cc from rfl]
  rw [hsolved]
  rfl

/-- The UCS adjacency scan hits the solution at the root's only child. -/
theorem ucsScan_hit (g : Grid) (r c d : Nat) (co he cc : Int)
    (hsolved : checkSolution g (childRec r c d cc) = true) :
    ucsScanGo g 0 (postGraph r c d co he cc) [0] [] =
      .error (1, postGraph r c d co he cc) := by
  unfold ucsScanGo
  dsimp only
  rw [show farEnd (postGraph r c d co he cc) 0 0 = 1 from rfl]
  rw [show vertexOf (postGraph r c d co he cc) 1 = childRec r c d cc from rfl]
  rw [hsolved]
  rfl

/-- The A* adjacency scan hits the solution at the root's only child. -/
theorem astarScan_hit (g : Grid) (r c d : Nat) (co he cc : Int)
    (hsolved : checkSolution g (childRec r c d cc) = true) :
    astarScanGo g 0 (postGraph r c d co he cc) [0] [] =
      .error (1, postGraph r c d co he cc) := by
  unfold astarScanGo
  dsimp only
  rw [show farEnd (postGraph r c d co he cc) 0 0 = 1 from rfl]
  rw [show vertexOf (postGraph r c d co he cc) 1 = childRec r c d cc from rfl]
  rw [hsolved]
  rfl

/-- The GBFS adjacency scan hits the solution at the root's only child. -/
theorem greedyScan_hit (g : Grid) (r c d : Nat) (co he cc : Int)
    (hsolved : checkSolution g (childRec r c d cc) = true) :
    greedyScanGo g 0 (postGraph r c d co he cc) [0] [] =
      .error (1, postGraph r c d co he cc) := by
  unfold greedyScanGo
  dsimp only
  rw [show farEnd (postGraph r c d co he cc) 0 0 = 1 from rfl]
  rw [show vertexOf (postGraph r c d co he cc) 1 = childRec r c d cc from rfl]
  rw [hsolved]
  rfl

/-- Success of one algorithm run in the C1 sense: the run returns `true`,
records vertex 1 as the solution, and the grid reconstructed from that
vertex's delta history agrees with the start grid everywhere except the
unique empty cell, which holds the unique legal digit. -/
def SolvedOutcome (g : Grid) (r c d : Nat) (res : Bool × SolverSt) : Prop :=
  res.1 = true ∧ res.2.vertexSolutionID = 1 ∧
  ∀ i j, i < GRID_SIZE → j < GRID_SIZE →
    cellAt (getVertexState g (vertexOf res.2.graph 1)) i j =
      if i = r ∧ j = c then d else cellAt g i j

/-- The one-empty-cell post-expansion state satisfies `SolvedOutcome`. -/
theorem solvedOutcome_post {g : Grid} {r c d : Nat} (hWF : WFGrid g)
    (hr : r < GRID_SIZE) (hc : c < GRID_SIZE)
    (co he cc : Int) (e k : Nat) :
    SolvedOutcome g r c d
      (true, ⟨postGraph r c d co he cc, 1, e, k⟩) := by
  refine ⟨rfl, rfl, ?_⟩
  intro i j hi hj
  rw [show getVertexState g (vertexOf
    ((⟨postGraph r c d co he cc, 1, e, k⟩ : SolverSt).graph) 1) =
    setCell g r c d from rfl]
  by_cases hij : i = r ∧ j = c
  · rw [if_pos hij, hij.1, hij.2]
    exact cellAt_setCell_self hWF hr hc d
  · rw [if_neg hij]
    exact cellAt_setCell_ne r c d i j hij

/-- In the one-empty-cell scenario, the single child created by expanding
the root passes `CheckSolution`, whatever its random cost. -/
theorem childSolved {g : Grid} {r c d : Nat} (hWF : WFGrid g)
    (hfind : findEmptyCell g = some (r, c))
    (hone : ∀ i, i < GRID_SIZE → ∀ j, j < GRID_SIZE →
      (cellAt g i j = 0 ↔ i = r ∧ j = c))
    (hfilter : (List.range' 1 GRID_SIZE).filter
      (fun n => IsValid g r c n) = [d]) :
    ∀ cc : Int, checkSolution g (childRec r c d cc) = true := by
  obtain ⟨hr, hc, _⟩ := findEmptyCell_bounds hfind
  have hd0 : d ≠ 0 := by
    have hdmem : d ∈ List.range' 1 GRID_SIZE :=
      (List.mem_filter.mp
        (by rw [hfilter]; exact List.mem_singleton.mpr rfl)).1
    have := (List.mem_range'_1.mp hdmem).1
    omega
  intro cc
  show isSolved (setCell g r c d) = true
  exact isSolved_setCell hWF hr hc hone hd0

/-- The full `Solver::BFS` run in the one-empty-cell scenario: the first
dequeue expands the root, the adjacency scan hits the solution child. -/
theorem bfs_run (g : Grid) (r c d : Nat) (s : CostStream) (fuel : Nat)
    (init : SolverSt) (hWF : WFGrid g)
    (hfind : findEmptyCell g = some (r, c))
    (hone : ∀ i, i < GRID_SIZE → ∀ j, j < GRID_SIZE →
      (cellAt g i j = 0 ↔ i = r ∧ j = c))
    (hfilter : (List.range' 1 GRID_SIZE).filter
      (fun n => IsValid g r c n) = [d]) :
    bfs g s (fuel + 1) init =
      (true, ⟨postGraph r c d 0 0 (genRandomCost s init.rng), 1,
        init.expandedStates + 1, init.rng + 1⟩) := by
  have hsolved := childSolved hWF hfind hone hfilter
  unfold bfs
  rw [createInitialState_eq]
  unfold bfsLoop
  dsimp only
  rw [expandNode_rootGraph g s r c d 0 0 0 init.vertexSolutionID
    init.expandedStates init.rng hfind hfilter]
  dsimp only
  rw [show adjOf (postGraph r c d 0 0 (genRandomCost s init.rng)) 0 = [0]
    from rfl]
  rw [bfsScan_hit g r c d 0 0 _ (hsolved _)]

/-- The full `Solver::IDDFS` run in the one-empty-cell scenario: the very
first depth-limit iteration pops the unpruned root (cost 0), expands it,
and the adjacency scan hits the solution child. -/
theorem iddfs_run (g : Grid) (r c d : Nat) (s : CostStream)
    (maxD fuel : Nat) (init : SolverSt) (hWF : WFGrid g)
    (hfind : findEmptyCell g = some (r, c))
    (hone : ∀ i, i < GRID_SIZE → ∀ j, j < GRID_SIZE →
      (cellAt g i j = 0 ↔ i = r ∧ j = c))
    (hfilter : (List.range' 1 GRID_SIZE).filter
      (fun n => IsValid g r c n) = [d]) :
    iddfs g s (maxD + 1) (fuel + 1) init =
      (true, ⟨postGraph r c d 0 0 (genRandomCost s init.rng), 1,
        init.expandedStates + 1, init.rng + 1⟩) := by
  have hsolved := childSolved hWF hfind hone hfilter
  unfold iddfs
  rw [show List.range' 1 (maxD + 1) = 1 :: List.range' 2 maxD from rfl]
  unfold iddfsOuter
  dsimp only
  rw [createInitialState_eq]
  dsimp only
  rw [show updVertex (updVertex (rootGraph 0 0 0) 0 fun v =>
      { v with currentCost := 0 }) 0 (fun v => { v with label := 2 }) =
      rootGraph 0 0 2 from rfl]
  unfold iddfsDLS
  dsimp only
  rw [if_neg (show ¬((vertexOf (rootGraph 0 0 2) 0).currentCost >
    ((1 : Nat) : Int)) by decide)]
  rw [expandNode_rootGraph g s r c d 0 0 2 init.vertexSolutionID
    init.expandedStates init.rng hfind hfilter]
  dsimp only
  rw [show adjOf (postGraph r c d 0 0 (genRandomCost s init.rng)) 0 = [0]
    from rfl]
  rw [show (vertexOf (postGraph r c d 0 0 (genRandomCost s init.rng))
    0).currentCost = (0 : Int) from rfl]
  rw [iddfsScan_hit g r c d 0 0 0 _ (hsolved _)]

/-- The full `Solver::UCS` run in the one-empty-cell scenario. -/
theorem ucs_run (g : Grid) (r c d : Nat) (s : CostStream) (fuel : Nat)
    (init : SolverSt) (hWF : WFGrid g)
    (hfind : findEmptyCell g = some (r, c))
    (hone : ∀ i, i < GRID_SIZE → ∀ j, j < GRID_SIZE →
      (cellAt g i j = 0 ↔ i = r ∧ j = c))
    (hfilter : (List.range' 1 GRID_SIZE).filter
      (fun n => IsValid g r c n) = [d]) :
    ucs g s (fuel + 1) init =
      (true, ⟨postGraph r c d 0 0 (genRandomCost s init.rng), 1,
        init.expandedStates + 1, init.rng + 1⟩) := by
  have hsolved := childSolved hWF hfind hone hfilter
  unfold ucs
  rw [createInitialState_eq]
  dsimp only
  rw [pushHeap_nil]
  unfold ucsLoop
  dsimp only
  rw [popHeap_single]
  dsimp only
  rw [show updVertex (rootGraph 0 0 0) 0 (fun v => { v with label := 2 }) =
    rootGraph 0 0 2 from rfl]
  rw [expandNode_rootGraph g s r c d 0 0 2 init.vertexSolutionID
    init.expandedStates init.rng hfind hfilter]
  dsimp only
  rw [show adjOf (postGraph r c d 0 0 (genRandomCost s init.rng)) 0 = [0]
    from rfl]
  rw [ucsScan_hit g r c d 0 0 _ (hsolved _)]

/-- The full `Solver::AStar` run in the one-empty-cell scenario: the root
receives heuristic `GRID_SIZE = 9` (its delta history is empty). -/
theorem astar_run (g : Grid) (r c d : Nat) (s : CostStream) (fuel : Nat)
    (init : SolverSt) (hWF : WFGrid g)
    (hfind : findEmptyCell g = some (r, c))
    (hone : ∀ i, i < GRID_SIZE → ∀ j, j < GRID_SIZE →
      (cellAt g i j = 0 ↔ i = r ∧ j = c))
    (hfilter : (List.range' 1 GRID_SIZE).filter
      (fun n => IsValid g r c n) = [d]) :
    astar g s (fuel + 1) init =
      (true, ⟨postGraph r c d 9 9 (genRandomCost s init.rng), 1,
        init.expandedStates + 1, init.rng + 1⟩) := by
  have hsolved := childSolved hWF hfind hone hfilter
  unfold astar
  rw [createInitialState_eq]
  dsimp only
  rw [show ((calculateAStarHeuristic g
    (vertexOf (rootGraph 0 0 0) 0) : Nat) : Int) = (9 : Int) from rfl]
  rw [show updVertex (rootGraph 0 0 0) 0 (fun v =>
    { v with currentCost := (9 : Int), heuristicCost := (9 : Int) }) =
    rootGraph 9 9 0 from rfl]
  rw [pushHeap_nil]
  unfold astarLoop
  dsimp only
  rw [popHeap_single]
  dsimp only
  rw [show updVertex (rootGraph 9 9 0) 0 (fun v => { v with label := 2 }) =
    rootGraph 9 9 2 from rfl]
  rw [expandNode_rootGraph g s r c d 9 9 2 init.vertexSolutionID
    init.expandedStates init.rng hfind hfilter]
  dsimp only
  rw [show adjOf (postGraph r c d 9 9 (genRandomCost s init.rng)) 0 = [0]
    from rfl]
  rw [astarScan_hit g r c d 9 9 _ (hsolved _)]

/-- The full `Solver::GreedyBFS` run in the one-empty-cell scenario: the
root receives its greedy heuristic (the number of empty cells). -/
theorem greedy_run (g : Grid) (r c d : Nat) (s : CostStream) (fuel : Nat)
    (init : SolverSt) (hWF : WFGrid g)
    (hfind : findEmptyCell g = some (r, c))
    (hone : ∀ i, i < GRID_SIZE → ∀ j, j < GRID_SIZE →
      (cellAt g i j = 0 ↔ i = r ∧ j = c))
    (hfilter : (List.range' 1 GRID_SIZE).filter
      (fun n => IsValid g r c n) = [d]) :
    greedyBFS g s (fuel + 1) init =
      (true, ⟨postGraph r c d 0
        ((calculateGreedyBFSHeuristic g
          (vertexOf (rootGraph 0 0 0) 0) : Nat) : Int)
        (genRandomCost s init.rng), 1,
        init.expandedStates + 1, init.rng + 1⟩) := by
  have hsolved := childSolved hWF hfind hone hfilter
  unfold greedyBFS
  rw [createInitialState_eq]
  dsimp only
  generalize hG : ((calculateGreedyBFSHeuristic g
    (vertexOf (rootGraph 0 0 0) 0) : Nat) : Int) = hGv
  rw [show updVertex (rootGraph 0 0 0) 0 (fun v =>
    { v with heuristicCost := hGv }) = rootGraph 0 hGv 0 from rfl]
  rw [pushHeap_nil]
  unfold greedyLoop
  dsimp only
  rw [popHeap_single]
  dsimp only
  rw [show updVertex (rootGraph 0 hGv 0) 0 (fun v =>
    { v with label := 2 }) = rootGraph 0 hGv 2 from rfl]
  rw [expandNode_rootGraph g s r c d 0 hGv 2 init.vertexSolutionID
    init.expandedStates init.rng hfind hfilter]
  dsimp only
  rw [show adjOf (postGraph r c d 0 hGv (genRandomCost s init.rng)) 0 = [0]
    from rfl]
  rw [greedyScan_hit g r c d 0 hGv _ (hsolved _)]

/-- C1: for every starting grid with exactly one empty cell `(r, c)` and
exactly one digit `d` valid there (per `grid::IsValid`), each of the five
algorithms — BFS, IDDFS (any positive depth bound, so in particular the
default `GRID_SIZE * GRID_SIZE`), UCS, A* and GreedyBFS — returns `true`,
records vertex 1 (the single child of the root) as the goal, and the grid
reconstructed from that vertex's delta history equals the start grid at
every cell except `(r, c)`, which holds `d`.  This holds for every random
stream, every positive fuel and every incoming solver state. -/
theorem solver_one_empty_cell (g : Grid) (r c d : Nat) (s : CostStream)
    (maxD fuel : Nat) (init : SolverSt)
    (hWF : WFGrid g)
    (hfind : findEmptyCell g = some (r, c))
    (hone : ∀ i, i < GRID_SIZE → ∀ j, j < GRID_SIZE →
      (cellAt g i j = 0 ↔ i = r ∧ j = c))
    (hfilter : (List.range' 1 GRID_SIZE).filter
      (fun n => IsValid g r c n) = [d]) :
    SolvedOutcome g r c d (bfs g s (fuel + 1) init) ∧
    SolvedOutcome g r c d (iddfs g s (maxD + 1) (fuel + 1) init) ∧
    SolvedOutcome g r c d (ucs g s (fuel + 1) init) ∧
    SolvedOutcome g r c d (astar g s (fuel + 1) init) ∧
    SolvedOutcome g r c d (greedyBFS g s (fuel + 1) init) := by
  obtain ⟨hr, hc, _⟩ := findEmptyCell_bounds hfind
  refine ⟨?_, ?_, ?_, ?_, ?_⟩
  · rw [bfs_run g r c d s fuel init hWF hfind hone hfilter]
    exact solvedOutcome_post hWF hr hc _ _ _ _ _
  · rw [iddfs_run g r c d s maxD fuel init hWF hfind hone hfilter]
    exact solvedOutcome_post hWF hr hc _ _ _ _ _
  · rw [ucs_run g r c d s fuel init hWF hfind hone hfilter]
    exact solvedOutcome_post hWF hr hc _ _ _ _ _
  · rw [astar_run g r c d s fuel init hWF hfind hone hfilter]
    exact solvedOutcome_post hWF hr hc _ _ _ _ _
  · rw [greedy_run g r c d s fuel init hWF hfind hone hfilter]
    exact solvedOutcome_post hWF hr hc _ _ _ _ _

/-- A complete Latin-square sudoku solution with cell (0,0) blanked: the
unique digit valid at (0,0) is 1. -/
def gridC1 : Grid :=
  [[0, 2, 3, 4, 5, 6, 7, 8, 9],
   [4, 5, 6, 7, 8, 9, 1, 2, 3],
   [7, 8, 9, 1, 2, 3, 4, 5, 6],
   [2, 3, 4, 5, 6, 7, 8, 9, 1],
   [5, 6, 7, 8, 9, 1, 2, 3, 4],
   [8, 9, 1, 2, 3, 4, 5, 6, 7],
   [3, 4, 5, 6, 7, 8, 9, 1, 2],
   [6, 7, 8, 9, 1, 2, 3, 4, 5],
   [9, 1, 2, 3, 4, 5, 6, 7, 8]]

/-- C1, witness: the five algorithms on `gridC1` (empty cell (0,0), unique
digit 1), with the all-zero random stream, fuel 1 and a fresh solver
state. -/
theorem solver_one_empty_cell_witness :
    SolvedOutcome gridC1 0 0 1
      (bfs gridC1 (fun _ => 0) 1 ⟨GraphM.empty, 0, 0, 0⟩) ∧
    SolvedOutcome gridC1 0 0 1
      (iddfs gridC1 (fun _ => 0) 1 1 ⟨GraphM.empty, 0, 0, 0⟩) ∧
    SolvedOutcome gridC1 0 0 1
      (ucs gridC1 (fun _ => 0) 1 ⟨GraphM.empty, 0, 0, 0⟩) ∧
    SolvedOutcome gridC1 0 0 1
      (astar gridC1 (fun _ => 0) 1 ⟨GraphM.empty, 0, 0, 0⟩) ∧
    SolvedOutcome gridC1 0 0 1
      (greedyBFS gridC1 (fun _ => 0) 1 ⟨GraphM.empty, 0, 0, 0⟩) :=
  solver_one_empty_cell gridC1 0 0 1 (fun _ => 0) 0 0
    ⟨GraphM.empty, 0, 0, 0⟩ (by unfold WFGrid; exact ⟨rfl, by decide⟩)
    (by decide) (by decide) (by decide)

/-! ### The IDDFS of the spec versus the IDDFS of the code (claim C8)

The claim describes iterative deepening that prunes by *depth from the
root*; `specDLS`/`iddfsSpec` below are modelled from the spec's words (a
depth-limited search over grids, goal-tested at every visit, descending
into the valid-digit children of the first empty cell while depth budget
remains, with limits 0..maxDepth).  The code (`iddfs` above, from
`src/solver.cc`) instead prunes a popped vertex when its *stored current
cost* — the random value assigned by `ExpandNode` — exceeds the limit, and
its outer loop runs limits 1..maxDepth. -/

/-- Modelled from the spec: depth-limited search over grids, goal test at
every visit, expansion while the depth budget lasts. -/
def specDLS : Nat → Grid → Bool
  | 0, g => isSolved g
  | limit + 1, g =>
    if isSolved g then true
    else
      match findEmptyCell g with
      | none => false
      | some (r, c) =>
        ((List.range' 1 GRID_SIZE).filter fun n => IsValid g r c n).any
          fun n => specDLS limit (setCell g r c n)

/-- Modelled from the spec: outer loop over depth limits `0 .. maxDepth`. -/
def iddfsSpec (g : Grid) (maxDepth : Nat) : Bool :=
  (List.range (maxDepth + 1)).any fun limit => specDLS limit g

/-- `gridC1` with cell (0,1) blanked as well: two empty cells, each with a
unique valid digit ((0,0) ↦ 1, then (0,1) ↦ 2); solvable at depth 2. -/
def gridC8 : Grid :=
  [[0, 0, 3, 4, 5, 6, 7, 8, 9],
   [4, 5, 6, 7, 8, 9, 1, 2, 3],
   [7, 8, 9, 1, 2, 3, 4, 5, 6],
   [2, 3, 4, 5, 6, 7, 8, 9, 1],
   [5, 6, 7, 8, 9, 1, 2, 3, 4],
   [8, 9, 1, 2, 3, 4, 5, 6, 7],
   [3, 4, 5, 6, 7, 8, 9, 1, 2],
   [6, 7, 8, 9, 1, 2, 3, 4, 5],
   [9, 1, 2, 3, 4, 5, 6, 7, 8]]

/-- C8, counterexample: on the two-empty-cell grid, depth-limit-2 iterative
deepening as the spec describes it succeeds (the solution sits at depth 2),
but `Solver::IDDFS(2)` run with a stream drawing 9 (so every child gets
random cost 10) returns `false`: both iterations prune the depth-1 child
because its *random cost* 10 exceeds the limit, which is not what "prunes
exactly those vertices whose depth from the root exceeds the current depth
limit" predicts. -/
theorem iddfs_prunes_by_cost_not_depth :
    iddfsSpec gridC8 2 = true ∧
    (iddfs gridC8 (fun _ => 9) 2 20 ⟨GraphM.empty, 0, 0, 0⟩).1 = false := by
  constructor
  · decide
  · decide

/-- C8 (amended): the outer loop of `Solver::IDDFS` runs the depth limits
`1 .. maxDepth` — with `maxDepth = 0` nothing runs and the call returns
`false` leaving the state untouched; the inner loop prunes (skips without
expanding) a popped vertex exactly when its stored current cost — the
random value assigned at creation, not its depth from the root (see the
counterexample) — exceeds the current limit; and each iteration is fresh
only for the graph: `CreateInitialState` carries the expanded-state
counter, the recorded solution ID and the stream position over from the
previous iteration. -/
theorem iddfs_amended :
    (∀ (g : Grid) (s : CostStream) (fuel : Nat) (init : SolverSt),
      iddfs g s 0 fuel init = (false, init)) ∧
    (∀ (g : Grid) (s : CostStream) (depth fuel : Nat) (st : SolverSt)
        (uid : Nat) (rest : List Nat),
      (vertexOf st.graph uid).currentCost > (depth : Int) →
      iddfsDLS g s depth (fuel + 1) st (uid :: rest) =
        iddfsDLS g s depth fuel st rest) ∧
    (∀ st : SolverSt, (createInitialState st).expandedStates =
        st.expandedStates ∧
      (createInitialState st).rng = st.rng ∧
      (createInitialState st).vertexSolutionID = st.vertexSolutionID) := by
  refine ⟨fun g s fuel init => rfl, ?_, fun st => ⟨rfl, rfl, rfl⟩⟩
  intro g s depth fuel st uid rest h
  conv_lhs => unfold iddfsDLS
  rw [if_pos h]

/-- C8, witness: the amended statements at concrete inputs — `maxDepth = 0`
on the empty grid, and a skip of a popped vertex whose stored cost 5
exceeds the limit 4. -/
theorem iddfs_amended_witness :
    iddfs [] (fun _ => 0) 0 7 ⟨GraphM.empty, 0, 0, 0⟩ =
      (false, ⟨GraphM.empty, 0, 0, 0⟩) ∧
    iddfsDLS [] (fun _ => 0) 4 (3 + 1) ⟨rootGraph 5 0 0, 0, 0, 0⟩ [0] =
      iddfsDLS [] (fun _ => 0) 4 3 ⟨rootGraph 5 0 0, 0, 0, 0⟩ [] ∧
    (createInitialState ⟨GraphM.empty, 2, 3, 4⟩).expandedStates = 3 :=
  ⟨iddfs_amended.1 [] (fun _ => 0) 7 ⟨GraphM.empty, 0, 0, 0⟩,
   iddfs_amended.2.1 [] (fun _ => 0) 4 3 ⟨rootGraph 5 0 0, 0, 0, 0⟩ 0 []
     (by decide),
   (iddfs_amended.2.2 ⟨GraphM.empty, 2, 3, 4⟩).1⟩

/-! ### Stream (in)dependence of the algorithms (claim C9)

`GenRandomCost` draws from a generator seeded with the wall clock at every
call, so two runs on the same grid can see two different streams.  The
counterexample below shows two in-range streams driving `Solver::IDDFS` to
different expanded-state counts on the same grid; the remainder of the
section proves that `Solver::BFS`, which never reads a vertex cost, returns
the same outcome, solution ID and expanded-state count under every pair of
streams. -/

/-- C9, counterexample: on the two-empty-cell grid, a stream drawing 0
(every child cost 1) lets IDDFS succeed inside the first depth iteration
with 2 expansions, while a stream drawing 1 (every child cost 10 % 10 + 1 =
2) prunes the child at limit 1 and succeeds only in the second iteration,
with 3 expansions — the observable outcome depends on the clock-seeded
generator, not only on grid and algorithm. -/
theorem iddfs_stream_dependent :
    (iddfs gridC8 (fun _ => 0) (GRID_SIZE * GRID_SIZE) 20
      ⟨GraphM.empty, 0, 0, 0⟩).2.expandedStates ≠
    (iddfs gridC8 (fun _ => 1) (GRID_SIZE * GRID_SIZE) 20
      ⟨GraphM.empty, 0, 0, 0⟩).2.expandedStates := by
  decide

/-- Cost-blind equivalence of vertex records: equal except possibly in
`m_currentCost` and `m_heuristicCost`. -/
def VEq (v w : GVertex) : Prop :=
  v.id = w.id ∧ v.data = w.data ∧ v.label = w.label ∧ v.adj = w.adj ∧
  v.pred = w.pred

/-- Cost-blind equivalence of map entries. -/
def PEqV (p q : Nat × GVertex) : Prop := p.1 = q.1 ∧ VEq p.2 q.2

/-- Cost-blind equivalence of graphs: identical except possibly in the
vertices' cost fields. -/
def GEq (g1 g2 : GraphM) : Prop :=
  List.Forall₂ PEqV g1.vertices g2.vertices ∧ g1.edges = g2.edges ∧
  g1.vertexCount = g2.vertexCount ∧ g1.edgeCount = g2.edgeCount

/-- Cost-blind equivalence of solver states. -/
def SEq (a b : SolverSt) : Prop :=
  GEq a.graph b.graph ∧ a.vertexSolutionID = b.vertexSolutionID ∧
  a.expandedStates = b.expandedStates ∧ a.rng = b.rng

theorem VEq_refl (v : GVertex) : VEq v v := ⟨rfl, rfl, rfl, rfl, rfl⟩

theorem GEq_refl (g : GraphM) : GEq g g :=
  ⟨List.forall₂_same.mpr fun p _ => ⟨rfl, VEq_refl p.2⟩, rfl, rfl, rfl⟩

theorem SEq_refl (st : SolverSt) : SEq st st :=
  ⟨GEq_refl st.graph, rfl, rfl, rfl⟩

theorem alistContains_congr {l1 l2 : List (Nat × GVertex)}
    (h : List.Forall₂ PEqV l1 l2) (k : Nat) :
    alistContains l1 k = alistContains l2 k := by
  induction h with
  | nil => rfl
  | cons hpq _ ih =>
    unfold alistContains at ih ⊢
    simp only [List.any_cons]
    rw [hpq.1, ih]

theorem find?_key_cons {β : Type} (k : Nat) (p : Nat × β)
    (t : List (Nat × β)) :
    List.find? (fun r => r.1 == k) (p :: t) =
      if p.1 == k then some p else List.find? (fun r => r.1 == k) t := by
  by_cases h : (p.1 == k) = true
  · rw [if_pos h]
    exact List.find?_cons_of_pos _ h
  · rw [if_neg h]
    exact List.find?_cons_of_neg _ h

theorem alistGet?_congr {l1 l2 : List (Nat × GVertex)}
    (h : List.Forall₂ PEqV l1 l2) (k : Nat) :
    (alistGet? l1 k = none ∧ alistGet? l2 k = none) ∨
    ∃ v w, alistGet? l1 k = some v ∧ alistGet? l2 k = some w ∧ VEq v w := by
  induction h with
  | nil => exact Or.inl ⟨rfl, rfl⟩
  | @cons p q t1 t2 hpq htail ih =>
    unfold alistGet? at ih ⊢
    rw [find?_key_cons, find?_key_cons]
    by_cases hk : (p.1 == k) = true
    · rw [if_pos hk, if_pos (show (q.1 == k) = true by
        rw [← hpq.1]; exact hk)]
      exact Or.inr ⟨p.2, q.2, rfl, rfl, hpq.2⟩
    · rw [if_neg hk, if_neg (show ¬((q.1 == k) = true) by
        rw [← hpq.1]; exact hk)]
      exact ih

theorem vertexOf_congr {g1 g2 : GraphM} (h : GEq g1 g2) (vid : Nat) :
    VEq (vertexOf g1 vid) (vertexOf g2 vid) := by
  unfold vertexOf
  rcases alistGet?_congr h.1 vid with ⟨h1, h2⟩ | ⟨v, w, h1, h2, hvw⟩
  · rw [h1, h2]
    exact VEq_refl _
  · rw [h1, h2]
    exact hvw

theorem adjOf_congr {g1 g2 : GraphM} (h : GEq g1 g2) (vid : Nat) :
    adjOf g1 vid = adjOf g2 vid := by
  unfold adjOf
  rcases alistGet?_congr h.1 vid with ⟨h1, h2⟩ | ⟨v, w, h1, h2, hvw⟩
  · rw [h1, h2]
  · rw [h1, h2]
    exact hvw.2.2.2.1

theorem alistInsert_congr {l1 l2 : List (Nat × GVertex)}
    (h : List.Forall₂ PEqV l1 l2) {v w : GVertex} (hvw : VEq v w) (k : Nat) :
    List.Forall₂ PEqV (alistInsert l1 k v) (alistInsert l2 k w) := by
  induction h with
  | nil => exact List.Forall₂.cons ⟨rfl, hvw⟩ List.Forall₂.nil
  | @cons p q t1 t2 hpq htail ih =>
    unfold alistInsert
    rw [← hpq.1]
    by_cases hk : k = p.1
    · rw [if_pos hk, if_pos hk]
      exact List.Forall₂.cons hpq htail
    · rw [if_neg hk, if_neg hk]
      by_cases hlt : k < p.1
      · rw [if_pos hlt, if_pos hlt]
        exact List.Forall₂.cons ⟨rfl, hvw⟩ (List.Forall₂.cons hpq htail)
      · rw [if_neg hlt, if_neg hlt]
        exact List.Forall₂.cons hpq ih

theorem alistUpdate_congr {l1 l2 : List (Nat × GVertex)}
    (h : List.Forall₂ PEqV l1 l2) (k : Nat) {f1 f2 : GVertex → GVertex}
    (hf : ∀ v w, VEq v w → VEq (f1 v) (f2 w)) :
    List.Forall₂ PEqV (alistUpdate l1 k f1) (alistUpdate l2 k f2) := by
  induction h with
  | nil => exact List.Forall₂.nil
  | @cons p q t1 t2 hpq htail ih =>
    unfold alistUpdate
    simp only [List.map_cons]
    rw [← hpq.1]
    by_cases hk : p.1 = k
    · rw [if_pos hk, if_pos hk]
      exact List.Forall₂.cons ⟨rfl, hf _ _ hpq.2⟩ ih
    · rw [if_neg hk, if_neg hk]
      exact List.Forall₂.cons hpq ih

theorem alistRemove_congr {l1 l2 : List (Nat × GVertex)}
    (h : List.Forall₂ PEqV l1 l2) (k : Nat) :
    List.Forall₂ PEqV (alistRemove l1 k) (alistRemove l2 k) := by
  induction h with
  | nil => exact List.Forall₂.nil
  | @cons p q t1 t2 hpq htail ih =>
    unfold alistRemove
    simp only [List.filter_cons]
    rw [← hpq.1]
    by_cases hk : (!(p.1 == k)) = true
    · rw [if_pos hk, if_pos hk]
      exact List.Forall₂.cons hpq ih
    · rw [if_neg hk, if_neg hk]
      exact ih

theorem updVertex_congr {g1 g2 : GraphM} (h : GEq g1 g2) (vid : Nat)
    {f1 f2 : GVertex → GVertex}
    (hf : ∀ v w, VEq v w → VEq (f1 v) (f2 w)) :
    GEq (updVertex g1 vid f1) (updVertex g2 vid f2) :=
  ⟨alistUpdate_congr h.1 vid hf, h.2.1, h.2.2.1, h.2.2.2⟩

theorem addVertex_congr {g1 g2 : GraphM} (h : GEq g1 g2)
    (data : List Change) :
    GEq (addVertex g1 data).1 (addVertex g2 data).1 ∧
    (addVertex g1 data).2 = (addVertex g2 data).2 := by
  unfold addVertex
  dsimp only
  rw [h.2.2.1]
  exact ⟨⟨alistInsert_congr h.1 (VEq_refl _) _, h.2.1, rfl, h.2.2.2⟩, rfl⟩

theorem VEq_set_adj (eid : Nat) : ∀ a b : GVertex, VEq a b →
    VEq { a with adj := insertSorted a.adj eid }
        { b with adj := insertSorted b.adj eid } :=
  fun _ _ hab =>
    ⟨hab.1, hab.2.1, hab.2.2.1, by rw [hab.2.2.2.1], hab.2.2.2.2⟩

theorem VEq_erase_adj (eid : Nat) : ∀ a b : GVertex, VEq a b →
    VEq { a with adj := eraseSorted a.adj eid }
        { b with adj := eraseSorted b.adj eid } :=
  fun _ _ hab =>
    ⟨hab.1, hab.2.1, hab.2.2.1, by rw [hab.2.2.2.1], hab.2.2.2.2⟩

theorem VEq_set_label (lab : Int) : ∀ a b : GVertex, VEq a b →
    VEq { a with label := lab } { b with label := lab } :=
  fun _ _ hab => ⟨hab.1, hab.2.1, rfl, hab.2.2.2.1, hab.2.2.2.2⟩

theorem VEq_set_cost (c1 c2 : Int) : ∀ a b : GVertex, VEq a b →
    VEq { a with currentCost := c1 } { b with currentCost := c2 } :=
  fun _ _ hab => ⟨hab.1, hab.2.1, hab.2.2.1, hab.2.2.2.1, hab.2.2.2.2⟩

theorem addEdge_true_congr {g1 g2 : GraphM} (h : GEq g1 g2)
    (u v : Nat) (cost : Int) :
    GEq (addEdge true g1 u v cost).1 (addEdge true g2 u v cost).1 ∧
    (addEdge true g1 u v cost).2 = (addEdge true g2 u v cost).2 := by
  unfold addEdge
  rw [alistContains_congr h.1 u, alistContains_congr h.1 v]
  by_cases hc : (!(alistContains g2.vertices u &&
      alistContains g2.vertices v)) = true
  · rw [if_pos hc, if_pos hc]
    exact ⟨h, rfl⟩
  · rw [if_neg hc, if_neg hc]
    dsimp only [updVertex]
    rw [h.2.2.2, h.2.1]
    exact ⟨⟨alistUpdate_congr h.1 u (VEq_set_adj g2.edgeCount), rfl,
      h.2.2.1, rfl⟩, rfl⟩

/-- Reduction of `RemoveEdge` (directed) on a present edge. -/
theorem removeEdge_present_eq_true (g : GraphM) (eid : Nat) (e : GEdge)
    (h : alistContains g.edges eid = true)
    (he : alistGet? g.edges eid = some e) :
    removeEdge true g eid =
      ({ (if (adjOf g e.v1).contains eid then
            updVertex g e.v1 fun w => { w with adj := eraseSorted w.adj eid }
          else
            updVertex g e.v2 fun w =>
              { w with adj := eraseSorted w.adj eid }) with
          edges := alistRemove g.edges eid }, true) := by
  unfold removeEdge
  rw [h, he]
  rfl

theorem removeEdge_true_congr {g1 g2 : GraphM} (h : GEq g1 g2) (eid : Nat) :
    GEq (removeEdge true g1 eid).1 (removeEdge true g2 eid).1 ∧
    (removeEdge true g1 eid).2 = (removeEdge true g2 eid).2 := by
  by_cases hc : alistContains g2.edges eid = true
  · have hc1 : alistContains g1.edges eid = true := by rw [h.2.1]; exact hc
    obtain ⟨e, he2⟩ := alistGet?_of_contains hc
    have he1 : alistGet? g1.edges eid = some e := by rw [h.2.1]; exact he2
    rw [removeEdge_present_eq_true g1 eid e hc1 he1,
      removeEdge_present_eq_true g2 eid e hc he2]
    dsimp only [updVertex]
    rw [adjOf_congr h e.v1, h.2.1]
    refine ⟨?_, rfl⟩
    by_cases hac : ((adjOf g2 e.v1).contains eid) = true
    · rw [if_pos hac, if_pos hac]
      exact ⟨alistUpdate_congr h.1 _ (VEq_erase_adj eid), rfl, h.2.2.1,
        h.2.2.2⟩
    · rw [if_neg hac, if_neg hac]
      exact ⟨alistUpdate_congr h.1 _ (VEq_erase_adj eid), rfl, h.2.2.1,
        h.2.2.2⟩
  · have hc2 : alistContains g2.edges eid = false := by simpa using hc
    have hc1 : alistContains g1.edges eid = false := by rw [h.2.1]; exact hc2
    rw [removeEdge_absent true g1 eid hc1, removeEdge_absent true g2 eid hc2]
    exact ⟨h, rfl⟩

theorem foldRemove_congr :
    ∀ (l : List Nat) {g1 g2 : GraphM}, GEq g1 g2 →
      GEq (l.foldl (fun acc eid => (removeEdge true acc eid).1) g1)
          (l.foldl (fun acc eid => (removeEdge true acc eid).1) g2) := by
  intro l
  induction l with
  | nil => intro g1 g2 h; exact h
  | cons x rest ih =>
    intro g1 g2 h
    exact ih (removeEdge_true_congr h x).1

theorem foldScan_congr (vid : Nat) :
    ∀ (l : List (Nat × GEdge)) {g1 g2 : GraphM}, GEq g1 g2 →
      GEq (l.foldl (fun acc p =>
            if p.2.v2 = vid then (removeEdge true acc p.1).1 else acc) g1)
          (l.foldl (fun acc p =>
            if p.2.v2 = vid then (removeEdge true acc p.1).1 else acc) g2) := by
  intro l
  induction l with
  | nil => intro g1 g2 h; exact h
  | cons x rest ih =>
    intro g1 g2 h
    simp only [List.foldl_cons]
    by_cases hx : x.2.v2 = vid
    · rw [if_pos hx, if_pos hx]
      exact ih (removeEdge_true_congr h x.1).1
    · rw [if_neg hx, if_neg hx]
      exact ih h

/-- Reduction of `RemoveVertex` (directed) on a present vertex. -/
theorem removeVertex_present_true (g : GraphM) (vid : Nat)
    (h : alistContains g.vertices vid = true) :
    removeVertex true g vid =
      (let g1 := (adjOf g vid).foldl
          (fun acc eid => (removeEdge true acc eid).1) g
       let g2 := g1.edges.foldl
          (fun acc p =>
            if p.2.v2 = vid then (removeEdge true acc p.1).1 else acc) g1
       ({ g2 with vertices := alistRemove g2.vertices vid }, true)) := by
  rw [removeVertex_present_eq true g vid h]
  rfl

theorem removeVertex_true_congr {g1 g2 : GraphM} (h : GEq g1 g2)
    (vid : Nat) :
    GEq (removeVertex true g1 vid).1 (removeVertex true g2 vid).1 ∧
    (removeVertex true g1 vid).2 = (removeVertex true g2 vid).2 := by
  by_cases hc : alistContains g2.vertices vid = true
  · have hc1 : alistContains g1.vertices vid = true := by
      rw [alistContains_congr h.1 vid]; exact hc
    rw [removeVertex_present_true g1 vid hc1,
      removeVertex_present_true g2 vid hc]
    dsimp only
    rw [adjOf_congr h vid]
    have h1 := foldRemove_congr (adjOf g2 vid) h
    have h2 : GEq
        (((adjOf g2 vid).foldl
          (fun acc eid => (removeEdge true acc eid).1) g1).edges.foldl
          (fun acc p =>
            if p.2.v2 = vid then (removeEdge true acc p.1).1 else acc)
          ((adjOf g2 vid).foldl
            (fun acc eid => (removeEdge true acc eid).1) g1))
        (((adjOf g2 vid).foldl
          (fun acc eid => (removeEdge true acc eid).1) g2).edges.foldl
          (fun acc p =>
            if p.2.v2 = vid then (removeEdge true acc p.1).1 else acc)
          ((adjOf g2 vid).foldl
            (fun acc eid => (removeEdge true acc eid).1) g2)) := by
      rw [h1.2.1]
      exact foldScan_congr vid _ h1
    exact ⟨⟨alistRemove_congr h2.1 vid, h2.2.1, h2.2.2.1, h2.2.2.2⟩, rfl⟩
  · have hc2 : alistContains g2.vertices vid = false := by simpa using hc
    have hc1 : alistContains g1.vertices vid = false := by
      rw [alistContains_congr h.1 vid]; exact hc2
    rw [removeVertex_absent true g1 vid hc1,
      removeVertex_absent true g2 vid hc2]
    exact ⟨h, rfl⟩

theorem expandDigit_congr (fid row col : Nat) (grid : Grid)
    (s1 s2 : CostStream) {a1 a2 : List Change × SolverSt}
    (hch : a1.1 = a2.1) (hst : SEq a1.2 a2.2) (n : Nat) :
    (expandDigit fid row col grid s1 a1 n).1 =
      (expandDigit fid row col grid s2 a2 n).1 ∧
    SEq (expandDigit fid row col grid s1 a1 n).2
      (expandDigit fid row col grid s2 a2 n).2 := by
  unfold expandDigit
  by_cases hv : IsValid grid row col n = true
  · rw [if_pos hv, if_pos hv]
    dsimp only
    rw [hch]
    have hadd := addVertex_congr hst.1 (a2.1 ++ [((row, col), n)])
    rw [hadd.2]
    refine ⟨rfl, ?_, hst.2.1, by rw [hst.2.2.1], by rw [hst.2.2.2]⟩
    exact (addEdge_true_congr
      (updVertex_congr
        (updVertex_congr hadd.1 _
          (VEq_set_cost (genRandomCost s1 a1.2.rng)
            (genRandomCost s2 a2.2.rng)))
        _ (VEq_set_label 0))
      fid _ 0).1
  · rw [if_neg hv, if_neg hv]
    exact ⟨hch, hst⟩

theorem foldDigits_congr (fid row col : Nat) (grid : Grid)
    (s1 s2 : CostStream) :
    ∀ (l : List Nat) {a1 a2 : List Change × SolverSt},
      a1.1 = a2.1 → SEq a1.2 a2.2 →
      (l.foldl (expandDigit fid row col grid s1) a1).1 =
        (l.foldl (expandDigit fid row col grid s2) a2).1 ∧
      SEq (l.foldl (expandDigit fid row col grid s1) a1).2
        (l.foldl (expandDigit fid row col grid s2) a2).2 := by
  intro l
  induction l with
  | nil => intro a1 a2 hch hst; exact ⟨hch, hst⟩
  | cons x rest ih =>
    intro a1 a2 hch hst
    simp only [List.foldl_cons]
    have hx := expandDigit_congr fid row col grid s1 s2 hch hst x
    exact ih hx.1 hx.2

theorem expandNode_congr {st1 st2 : SolverSt} (hst : SEq st1 st2)
    (grid : Grid) (s1 s2 : CostStream) (fid : Nat) :
    SEq (expandNode grid s1 st1 fid) (expandNode grid s2 st2 fid) := by
  unfold expandNode
  dsimp only
  have hfv := vertexOf_congr hst.1 fid
  have hgr : getVertexState grid (vertexOf st1.graph fid) =
      getVertexState grid (vertexOf st2.graph fid) := by
    unfold getVertexState
    rw [hfv.2.1]
  rw [hgr, hfv.2.1]
  cases hfe : findEmptyCell (getVertexState grid (vertexOf st2.graph fid))
    with
  | none =>
    exact ⟨updVertex_congr hst.1 fid (VEq_set_label 1), hst.2.1,
      hst.2.2.1, hst.2.2.2⟩
  | some rc =>
    obtain ⟨row, col⟩ := rc
    dsimp only
    have hfold := @foldDigits_congr fid row col
      (getVertexState grid (vertexOf st2.graph fid)) s1 s2
      (List.range' 1 GRID_SIZE)
      ((vertexOf st2.graph fid).data, st1)
      ((vertexOf st2.graph fid).data, st2) rfl hst
    exact ⟨updVertex_congr hfold.2.1 fid (VEq_set_label 1),
      hfold.2.2.1, hfold.2.2.2.1, hfold.2.2.2.2⟩

theorem farEnd_congr {g1 g2 : GraphM} (h : g1.edges = g2.edges)
    (uid eid : Nat) : farEnd g1 uid eid = farEnd g2 uid eid := by
  unfold farEnd edgeOf
  rw [h]

theorem checkSolution_congr {v w : GVertex} (hvw : VEq v w) (grid : Grid) :
    checkSolution grid v = checkSolution grid w := by
  unfold checkSolution getVertexState
  rw [hvw.2.1]

theorem bfsScanGo_congr {g1 g2 : GraphM} (h : GEq g1 g2) (grid : Grid)
    (uid : Nat) :
    ∀ (adj queue : List Nat),
      bfsScanGo grid g1 uid adj queue = bfsScanGo grid g2 uid adj queue := by
  intro adj
  induction adj with
  | nil => intro queue; rfl
  | cons eid rest ih =>
    intro queue
    unfold bfsScanGo
    dsimp only
    rw [farEnd_congr h.2.1 uid eid]
    have hv := vertexOf_congr h (farEnd g2 uid eid)
    rw [checkSolution_congr hv grid, hv.2.2.1]
    simp only [ih]

theorem bfsLoop_congr (grid : Grid) (s1 s2 : CostStream) :
    ∀ (fuel : Nat) {st1 st2 : SolverSt} (queue : List Nat),
      SEq st1 st2 →
      (bfsLoop grid s1 fuel st1 queue).1 =
        (bfsLoop grid s2 fuel st2 queue).1 ∧
      (bfsLoop grid s1 fuel st1 queue).2.vertexSolutionID =
        (bfsLoop grid s2 fuel st2 queue).2.vertexSolutionID ∧
      (bfsLoop grid s1 fuel st1 queue).2.expandedStates =
        (bfsLoop grid s2 fuel st2 queue).2.expandedStates := by
  intro fuel
  induction fuel with
  | zero =>
    intro st1 st2 queue hst
    exact ⟨rfl, hst.2.1, hst.2.2.1⟩
  | succ n ih =>
    intro st1 st2 queue hst
    cases queue with
    | nil => exact ⟨rfl, hst.2.1, hst.2.2.1⟩
    | cons uid rest =>
      unfold bfsLoop
      dsimp only
      have hex := expandNode_congr hst grid s1 s2 uid
      rw [adjOf_congr hex.1 uid,
        bfsScanGo_congr hex.1 grid uid (adjOf (expandNode grid s2 st2
          uid).graph uid) rest]
      cases hsc : bfsScanGo grid (expandNode grid s2 st2 uid).graph uid
        (adjOf (expandNode grid s2 st2 uid).graph uid) rest with
      | error vid => exact ⟨rfl, rfl, hex.2.2.1⟩
      | ok queue' =>
        exact ih queue'
          ⟨(removeVertex_true_congr hex.1 uid).1, hex.2.1, hex.2.2.1,
            hex.2.2.2⟩

/-- C9 (amended): `Solver::BFS` never reads a vertex cost, so its outcome,
recorded solution vertex and expanded-state count are identical under any
two random streams — among the five algorithms, BFS is the one whose
observable result depends only on the grid (IDDFS, UCS, A* and GreedyBFS
order or prune by the randomly assigned costs; see the counterexample). -/
theorem bfs_stream_independent (g : Grid) (s1 s2 : CostStream) (fuel : Nat)
    (init : SolverSt) :
    (bfs g s1 fuel init).1 = (bfs g s2 fuel init).1 ∧
    (bfs g s1 fuel init).2.vertexSolutionID =
      (bfs g s2 fuel init).2.vertexSolutionID ∧
    (bfs g s1 fuel init).2.expandedStates =
      (bfs g s2 fuel init).2.expandedStates := by
  unfold bfs
  exact bfsLoop_congr g s1 s2 fuel [0] (SEq_refl (createInitialState init))

/-! ### Binary-search-tree invariant of the map arena (claim C10)

`Map::operator[]` / `Map::At` are `RBTree::Insert` with a default value; to
settle what `Contains` observes afterwards, this section develops the
search-tree invariant of reachable arenas: `chk` checks, with fuel, that
the subtree under a pointer is made of live nodes whose keys respect a
window, whose parent pointers are correct, and whose depth is bounded by
the fuel; `occp` collects the visited indices and `keysOf` the keys.  A
reachable map satisfies `WFrb`: the root passes `chk` with fuel
`nodes.length` and no index repeats (no sharing, no cycles).  Colors play
no role here: the fix-up recolorings never move a key. -/

/-- Strict lower window bound (`none` = unbounded). -/
def inLo (lo : Option Nat) (x : Nat) : Bool :=
  match lo with
  | none => true
  | some l => decide (l < x)

/-- Strict upper window bound (`none` = unbounded). -/
def inHi (hi : Option Nat) (x : Nat) : Bool :=
  match hi with
  | none => true
  | some h => decide (x < h)

/-- Fueled search-tree checker for the subtree under `oi`: every node is
live, keyed inside `(lo, hi)`, carries the correct parent pointer `pa`, and
the subtree's depth is at most the fuel. -/
def chk (t : MapNN) : Nat → Option Nat → Option Nat → Option Nat →
    Option Nat → Bool
  | _, none, _, _, _ => true
  | 0, some _, _, _, _ => false
  | fuel + 1, some i, lo, hi, pa =>
    match getNode t i with
    | none => false
    | some nd =>
      inLo lo nd.value.1 && inHi hi nd.value.1 &&
      decide (nd.parent = pa) &&
      chk t fuel nd.left lo (some nd.value.1) (some i) &&
      chk t fuel nd.right (some nd.value.1) hi (some i)

/-- The slot indices visited by `chk` (preorder). -/
def occp (t : MapNN) : Nat → Option Nat → List Nat
  | _, none => []
  | 0, some i => [i]
  | fuel + 1, some i =>
    match getNode t i with
    | none => [i]
    | some nd => i :: (occp t fuel nd.left ++ occp t fuel nd.right)

/-- The keys stored in the subtree (preorder). -/
def keysOf (t : MapNN) : Nat → Option Nat → List Nat
  | _, none => []
  | 0, some _ => []
  | fuel + 1, some i =>
    match getNode t i with
    | none => []
    | some nd => nd.value.1 :: (keysOf t fuel nd.left ++ keysOf t fuel nd.right)

/-- The fields of a node record that the search structure depends on:
key, children, parent — everything but the color and the stored value. -/
def core (nd : TNode (Nat × Nat)) :
    Nat × Option Nat × Option Nat × Option Nat :=
  (nd.value.1, nd.left, nd.right, nd.parent)

/-- The reachable-map invariant: the root passes the checker with fuel
`nodes.length`, and no index is visited twice (no sharing, no cycles). -/
def WFrb (t : MapNN) : Prop :=
  chk t t.nodes.length t.root none none none = true ∧
  (occp t t.nodes.length t.root).Nodup

theorem getNode_updNode_self {t : MapNN} {i : Nat} {nd : TNode (Nat × Nat)}
    (h : getNode t i = some nd) (f : TNode (Nat × Nat) → TNode (Nat × Nat)) :
    getNode (updNode t i f) i = some (f nd) := by
  have hlt : i < t.nodes.length := getNode_lt_length h
  unfold updNode
  rw [h]
  unfold getNode
  exact getD_set_self _ i _ none hlt

theorem getNode_updNode_ne (t : MapNN) (i j : Nat)
    (f : TNode (Nat × Nat) → TNode (Nat × Nat)) (h : i ≠ j) :
    getNode (updNode t i f) j = getNode t j := by
  unfold updNode
  cases hg : getNode t i with
  | none => rfl
  | some nd =>
    unfold getNode
    exact getD_set_ne _ i j _ none h

/-- A pointwise `core`-preserving rewrite of the arena (e.g. recoloring)
changes no `chk` verdict. -/
theorem chk_congr {t t' : MapNN}
    (h : ∀ i, (getNode t' i).map core = (getNode t i).map core) :
    ∀ (F : Nat) (oi lo hi pa : Option Nat),
      chk t' F oi lo hi pa = chk t F oi lo hi pa := by
  intro F
  induction F with
  | zero => intro oi lo hi pa; cases oi <;> rfl
  | succ n ih =>
    intro oi lo hi pa
    cases oi with
    | none => rfl
    | some i =>
      have hc := h i
      cases hg : getNode t i with
      | none =>
        have hg' : getNode t' i = none := by
          rw [hg] at hc
          cases hx : getNode t' i with
          | none => rfl
          | some x => rw [hx] at hc; simp at hc
        unfold chk
        rw [hg, hg']
      | some nd =>
        obtain ⟨nd', hg', hcore⟩ : ∃ nd', getNode t' i = some nd' ∧
            core nd' = core nd := by
          rw [hg] at hc
          cases hx : getNode t' i with
          | none => rw [hx] at hc; simp at hc
          | some x =>
            rw [hx] at hc
            exact ⟨x, rfl, by simpa using hc⟩
        have h1 : nd'.value.1 = nd.value.1 := congrArg (fun p => p.1) hcore
        have h2 : nd'.left = nd.left := congrArg (fun p => p.2.1) hcore
        have h3 : nd'.right = nd.right := congrArg (fun p => p.2.2.1) hcore
        have h4 : nd'.parent = nd.parent := congrArg (fun p => p.2.2.2) hcore
        unfold chk
        rw [hg, hg']
        dsimp only
        rw [h1, h2, h3, h4, ih, ih]

/-- Companion of `chk_congr` for the visited indices. -/
theorem occp_congr {t t' : MapNN}
    (h : ∀ i, (getNode t' i).map core = (getNode t i).map core) :
    ∀ (F : Nat) (oi : Option Nat), occp t' F oi = occp t F oi := by
  intro F
  induction F with
  | zero => intro oi; cases oi <;> rfl
  | succ n ih =>
    intro oi
    cases oi with
    | none => rfl
    | some i =>
      have hc := h i
      cases hg : getNode t i with
      | none =>
        have hg' : getNode t' i = none := by
          rw [hg] at hc
          cases hx : getNode t' i with
          | none => rfl
          | some x => rw [hx] at hc; simp at hc
        unfold occp
        rw [hg, hg']
      | some nd =>
        obtain ⟨nd', hg', hcore⟩ : ∃ nd', getNode t' i = some nd' ∧
            core nd' = core nd := by
          rw [hg] at hc
          cases hx : getNode t' i with
          | none => rw [hx] at hc; simp at hc
          | some x =>
            rw [hx] at hc
            exact ⟨x, rfl, by simpa using hc⟩
        have h2 : nd'.left = nd.left := congrArg (fun p => p.2.1) hcore
        have h3 : nd'.right = nd.right := congrArg (fun p => p.2.2.1) hcore
        unfold occp
        rw [hg, hg']
        dsimp only
        rw [h2, h3, ih, ih]

/-- Companion of `chk_congr` for the stored keys. -/
theorem keysOf_congr {t t' : MapNN}
    (h : ∀ i, (getNode t' i).map core = (getNode t i).map core) :
    ∀ (F : Nat) (oi : Option Nat), keysOf t' F oi = keysOf t F oi := by
  intro F
  induction F with
  | zero => intro oi; cases oi <;> rfl
  | succ n ih =>
    intro oi
    cases oi with
    | none => rfl
    | some i =>
      have hc := h i
      cases hg : getNode t i with
      | none =>
        have hg' : getNode t' i = none := by
          rw [hg] at hc
          cases hx : getNode t' i with
          | none => rfl
          | some x => rw [hx] at hc; simp at hc
        unfold keysOf
        rw [hg, hg']
      | some nd =>
        obtain ⟨nd', hg', hcore⟩ : ∃ nd', getNode t' i = some nd' ∧
            core nd' = core nd := by
          rw [hg] at hc
          cases hx : getNode t' i with
          | none => rw [hx] at hc; simp at hc
          | some x =>
            rw [hx] at hc
            exact ⟨x, rfl, by simpa using hc⟩
        have h1 : nd'.value.1 = nd.value.1 := congrArg (fun p => p.1) hcore
        have h2 : nd'.left = nd.left := congrArg (fun p => p.2.1) hcore
        have h3 : nd'.right = nd.right := congrArg (fun p => p.2.2.1) hcore
        unfold keysOf
        rw [hg, hg']
        dsimp only
        rw [h1, h2, h3, ih, ih]

/-- An arena rewrite that leaves the `core` of every index visited by a
checked subtree untouched preserves the verdict, the visited indices and
the keys of that subtree. -/
theorem chk_frame {t t' : MapNN} :
    ∀ (F : Nat) (oi lo hi pa : Option Nat),
      chk t F oi lo hi pa = true →
      (∀ i ∈ occp t F oi,
        (getNode t' i).map core = (getNode t i).map core) →
      chk t' F oi lo hi pa = true ∧ occp t' F oi = occp t F oi ∧
        keysOf t' F oi = keysOf t F oi := by
  intro F
  induction F with
  | zero =>
    intro oi lo hi pa hchk hfr
    cases oi with
    | none => exact ⟨rfl, rfl, rfl⟩
    | some i => exact absurd hchk (by unfold chk; simp)
  | succ n ih =>
    intro oi lo hi pa hchk hfr
    cases oi with
    | none => exact ⟨rfl, rfl, rfl⟩
    | some i =>
      cases hg : getNode t i with
      | none => rw [chk, hg] at hchk; exact absurd hchk (by simp)
      | some nd =>
        rw [chk, hg] at hchk
        dsimp only at hchk
        have hocc : occp t (n + 1) (some i) =
            i :: (occp t n nd.left ++ occp t n nd.right) := by
          rw [occp, hg]
        have hci := hfr i (by rw [hocc]; exact List.mem_cons_self i _)
        obtain ⟨nd', hg', hcore⟩ : ∃ nd', getNode t' i = some nd' ∧
            core nd' = core nd := by
          rw [hg] at hci
          cases hx : getNode t' i with
          | none => rw [hx] at hci; simp at hci
          | some x =>
            rw [hx] at hci
            exact ⟨x, rfl, by simpa using hci⟩
        have h1 : nd'.value.1 = nd.value.1 := congrArg (fun p => p.1) hcore
        have h2 : nd'.left = nd.left := congrArg (fun p => p.2.1) hcore
        have h3 : nd'.right = nd.right := congrArg (fun p => p.2.2.1) hcore
        have h4 : nd'.parent = nd.parent := congrArg (fun p => p.2.2.2) hcore
        simp only [Bool.and_eq_true] at hchk
        have hL := ih nd.left lo (some nd.value.1) (some i) hchk.1.2
          (fun x hx => hfr x (by
            rw [hocc]
            exact List.mem_cons_of_mem i (List.mem_append_left _ hx)))
        have hR := ih nd.right (some nd.value.1) hi (some i) hchk.2
          (fun x hx => hfr x (by
            rw [hocc]
            exact List.mem_cons_of_mem i (List.mem_append_right _ hx)))
        have hchk' : chk t' (n + 1) (some i) lo hi pa =
            (inLo lo nd'.value.1 && inHi hi nd'.value.1 &&
              decide (nd'.parent = pa) &&
              chk t' n nd'.left lo (some nd'.value.1) (some i) &&
              chk t' n nd'.right (some nd'.value.1) hi (some i)) := by
          rw [chk, hg']
        have hocc' : occp t' (n + 1) (some i) =
            i :: (occp t' n nd'.left ++ occp t' n nd'.right) := by
          rw [occp, hg']
        have hkey : keysOf t (n + 1) (some i) =
            nd.value.1 :: (keysOf t n nd.left ++ keysOf t n nd.right) := by
          rw [keysOf, hg]
        have hkey' : keysOf t' (n + 1) (some i) =
            nd'.value.1 :: (keysOf t' n nd'.left ++ keysOf t' n nd'.right) := by
          rw [keysOf, hg']
        refine ⟨?_, ?_, ?_⟩
        · rw [hchk', h1, h2, h3, h4]
          simp only [Bool.and_eq_true]
          exact ⟨⟨⟨⟨hchk.1.1.1.1, hchk.1.1.1.2⟩, hchk.1.1.2⟩, hL.1⟩, hR.1⟩
        · rw [hocc, hocc', h2, h3, hL.2.1, hR.2.1]
        · rw [hkey, hkey', h1, h2, h3, hL.2.2, hR.2.2]

/-- Every index a checked subtree visits is a live slot. -/
theorem occp_live {t : MapNN} :
    ∀ (F : Nat) (oi lo hi pa : Option Nat),
      chk t F oi lo hi pa = true →
      ∀ i ∈ occp t F oi, i < t.nodes.length := by
  intro F
  induction F with
  | zero =>
    intro oi lo hi pa hchk
    cases oi with
    | none => intro i hi0; simp [occp] at hi0
    | some i => exact absurd hchk (by unfold chk; simp)
  | succ n ih =>
    intro oi lo hi pa hchk
    cases oi with
    | none => intro i hi0; simp [occp] at hi0
    | some i =>
      cases hg : getNode t i with
      | none => rw [chk, hg] at hchk; exact absurd hchk (by simp)
      | some nd =>
        rw [chk, hg] at hchk
        dsimp only at hchk
        simp only [Bool.and_eq_true] at hchk
        intro x hx
        rw [occp, hg] at hx
        rcases List.mem_cons.mp hx with hxi | hx2
        · rw [hxi]; exact getNode_lt_length hg
        · rcases List.mem_append.mp hx2 with hxl | hxr
          · exact ih nd.left lo (some nd.value.1) (some i) hchk.1.2 x hxl
          · exact ih nd.right (some nd.value.1) hi (some i) hchk.2 x hxr

theorem inHi_trans {hi : Option Nat} {x y : Nat} (hxy : x < y)
    (hy : inHi hi y = true) : inHi hi x = true := by
  cases hi with
  | none => rfl
  | some h => simp only [inHi, decide_eq_true_eq] at hy ⊢; omega

theorem inLo_trans {lo : Option Nat} {x y : Nat} (hxy : y < x)
    (hy : inLo lo y = true) : inLo lo x = true := by
  cases lo with
  | none => rfl
  | some l => simp only [inLo, decide_eq_true_eq] at hy ⊢; omega

/-- Every key of a checked subtree lies inside the subtree's window. -/
theorem keysOf_window {t : MapNN} :
    ∀ (F : Nat) (oi lo hi pa : Option Nat),
      chk t F oi lo hi pa = true →
      ∀ x ∈ keysOf t F oi, inLo lo x = true ∧ inHi hi x = true := by
  intro F
  induction F with
  | zero =>
    intro oi lo hi pa hchk
    cases oi with
    | none => intro x hx; simp [keysOf] at hx
    | some i => exact absurd hchk (by unfold chk; simp)
  | succ n ih =>
    intro oi lo hi pa hchk
    cases oi with
    | none => intro x hx; simp [keysOf] at hx
    | some i =>
      cases hg : getNode t i with
      | none => rw [chk, hg] at hchk; exact absurd hchk (by simp)
      | some nd =>
        rw [chk, hg] at hchk
        dsimp only at hchk
        simp only [Bool.and_eq_true] at hchk
        intro x hx
        rw [keysOf, hg] at hx
        dsimp only at hx
        rcases List.mem_cons.mp hx with hxi | hx2
        · rw [hxi]; exact ⟨hchk.1.1.1.1, hchk.1.1.1.2⟩
        · rcases List.mem_append.mp hx2 with hxl | hxr
          · have := ih nd.left lo (some nd.value.1) (some i) hchk.1.2 x hxl
            refine ⟨this.1, ?_⟩
            have hlt : x < nd.value.1 := by simpa [inHi] using this.2
            exact inHi_trans hlt hchk.1.1.1.2
          · have := ih nd.right (some nd.value.1) hi (some i) hchk.2 x hxr
            refine ⟨?_, this.2⟩
            have hgt : nd.value.1 < x := by simpa [inLo] using this.1
            exact inLo_trans hgt hchk.1.1.1.1

/-- Fuel monotonicity of the checker. -/
theorem chk_mono {t : MapNN} :
    ∀ (F F' : Nat) (oi lo hi pa : Option Nat),
      chk t F oi lo hi pa = true → F ≤ F' →
      chk t F' oi lo hi pa = true := by
  intro F
  induction F with
  | zero =>
    intro F' oi lo hi pa hchk _
    cases oi with
    | none => cases F' <;> rfl
    | some i => exact absurd hchk (by unfold chk; simp)
  | succ n ih =>
    intro F' oi lo hi pa hchk hle
    cases oi with
    | none => cases F' <;> rfl
    | some i =>
      obtain ⟨m, rfl⟩ : ∃ m, F' = m + 1 :=
        ⟨F' - 1, by omega⟩
      cases hg : getNode t i with
      | none => rw [chk, hg] at hchk; exact absurd hchk (by simp)
      | some nd =>
        rw [chk, hg] at hchk
        rw [chk, hg]
        dsimp only at hchk ⊢
        simp only [Bool.and_eq_true] at hchk ⊢
        exact ⟨⟨⟨⟨hchk.1.1.1.1, hchk.1.1.1.2⟩, hchk.1.1.2⟩,
          ih m nd.left lo (some nd.value.1) (some i) hchk.1.2 (by omega)⟩,
          ih m nd.right (some nd.value.1) hi (some i) hchk.2 (by omega)⟩

/-- Above the checking fuel, the visited-index and key lists stabilize. -/
theorem occp_keysOf_mono {t : MapNN} :
    ∀ (F F' : Nat) (oi lo hi pa : Option Nat),
      chk t F oi lo hi pa = true → F ≤ F' →
      occp t F' oi = occp t F oi ∧ keysOf t F' oi = keysOf t F oi := by
  intro F
  induction F with
  | zero =>
    intro F' oi lo hi pa hchk _
    cases oi with
    | none => cases F' <;> exact ⟨rfl, rfl⟩
    | some i => exact absurd hchk (by unfold chk; simp)
  | succ n ih =>
    intro F' oi lo hi pa hchk hle
    cases oi with
    | none => cases F' <;> exact ⟨rfl, rfl⟩
    | some i =>
      obtain ⟨m, rfl⟩ : ∃ m, F' = m + 1 := ⟨F' - 1, by omega⟩
      cases hg : getNode t i with
      | none => rw [chk, hg] at hchk; exact absurd hchk (by simp)
      | some nd =>
        rw [chk, hg] at hchk
        dsimp only at hchk
        simp only [Bool.and_eq_true] at hchk
        have hL := ih m nd.left lo (some nd.value.1) (some i) hchk.1.2
          (by omega)
        have hR := ih m nd.right (some nd.value.1) hi (some i) hchk.2
          (by omega)
        constructor
        · unfold occp
          rw [hg]
          dsimp only
          rw [hL.1, hR.1]
        · unfold keysOf
          rw [hg]
          dsimp only
          rw [hL.2, hR.2]

/-- On a checked subtree, `Search` finds every stored key: the comparator
walk is steered by the very window structure `chk` guarantees. -/
theorem searchGo_found {t : MapNN} :
    ∀ (F : Nat) (oi lo hi pa : Option Nat) (k : Nat),
      chk t F oi lo hi pa = true →
      k ∈ keysOf t F oi →
      ∀ sfuel : Nat, F ≤ sfuel →
      ∃ j, searchGo pairLess pairEqual sfuel t oi (k, 0) = some (some j) := by
  intro F
  induction F with
  | zero =>
    intro oi lo hi pa k hchk hk sfuel _
    cases oi with
    | none => simp [keysOf] at hk
    | some i => exact absurd hchk (by unfold chk; simp)
  | succ n ih =>
    intro oi lo hi pa k hchk hk sfuel hle
    cases oi with
    | none => simp [keysOf] at hk
    | some i =>
      obtain ⟨m, rfl⟩ : ∃ m, sfuel = m + 1 := ⟨sfuel - 1, by omega⟩
      cases hg : getNode t i with
      | none => rw [chk, hg] at hchk; exact absurd hchk (by simp)
      | some nd =>
        rw [chk, hg] at hchk
        dsimp only at hchk
        simp only [Bool.and_eq_true] at hchk
        rw [keysOf, hg] at hk
        dsimp only at hk
        rw [searchGo, hg]
        dsimp only
        by_cases hkey : k = nd.value.1
        · rw [show pairEqual (k, 0) nd.value = true by
            simp [pairEqual, hkey]]
          exact ⟨i, rfl⟩
        · rw [show pairEqual (k, 0) nd.value = false by
            simp [pairEqual, hkey]]
          simp only [Bool.false_eq_true, if_false]
          rcases List.mem_cons.mp hk with hki | hk2
          · exact absurd hki hkey
          rcases List.mem_append.mp hk2 with hkl | hkr
          · have hwin := keysOf_window n nd.left lo (some nd.value.1)
              (some i) hchk.1.2 k hkl
            have hlt : k < nd.value.1 := by simpa [inHi] using hwin.2
            rw [show pairLess (k, 0) nd.value = true by
              simp [pairLess, hlt]]
            exact ih nd.left lo (some nd.value.1) (some i) k hchk.1.2 hkl m
              (by omega)
          · have hwin := keysOf_window n nd.right (some nd.value.1) hi
              (some i) hchk.2 k hkr
            have hgt : nd.value.1 < k := by simpa [inLo] using hwin.1
            rw [show pairLess (k, 0) nd.value = false by
              simp [pairLess]; omega]
            simp only [Bool.false_eq_true, if_false]
            exact ih nd.right (some nd.value.1) hi (some i) k hchk.2 hkr m
              (by omega)

/-- On a checked subtree, `Search` never exhausts its fuel: it returns a
definite answer. -/
theorem searchGo_definite {t : MapNN} :
    ∀ (F : Nat) (oi lo hi pa : Option Nat) (k : Nat),
      chk t F oi lo hi pa = true →
      ∀ sfuel : Nat, F < sfuel →
      ∃ res, searchGo pairLess pairEqual sfuel t oi (k, 0) = some res := by
  intro F
  induction F with
  | zero =>
    intro oi lo hi pa k hchk sfuel hlt
    obtain ⟨m, rfl⟩ : ∃ m, sfuel = m + 1 := ⟨sfuel - 1, by omega⟩
    cases oi with
    | none => exact ⟨none, rfl⟩
    | some i => exact absurd hchk (by unfold chk; simp)
  | succ n ih =>
    intro oi lo hi pa k hchk sfuel hlt
    obtain ⟨m, rfl⟩ : ∃ m, sfuel = m + 1 := ⟨sfuel - 1, by omega⟩
    cases oi with
    | none => exact ⟨none, rfl⟩
    | some i =>
      cases hg : getNode t i with
      | none => rw [chk, hg] at hchk; exact absurd hchk (by simp)
      | some nd =>
        rw [chk, hg] at hchk
        dsimp only at hchk
        simp only [Bool.and_eq_true] at hchk
        rw [searchGo, hg]
        dsimp only
        by_cases heq : pairEqual (k, 0) nd.value = true
        · rw [heq]
          exact ⟨some i, rfl⟩
        · rw [show pairEqual (k, 0) nd.value = false by simpa using heq]
          simp only [Bool.false_eq_true, if_false]
          by_cases hless : pairLess (k, 0) nd.value = true
          · rw [hless]
            exact ih nd.left lo (some nd.value.1) (some i) k hchk.1.2 m
              (by omega)
          · rw [show pairLess (k, 0) nd.value = false by simpa using hless]
            simp only [Bool.false_eq_true, if_false]
            exact ih nd.right (some nd.value.1) hi (some i) k hchk.2 m
              (by omega)

/-- `Map::Contains` is `true` for every key a well-formed map stores. -/
theorem contains_of_mem {t : MapNN} (hWF : WFrb t) {k : Nat}
    (hk : k ∈ keysOf t t.nodes.length t.root) : mapContains t k = true := by
  obtain ⟨j, hj⟩ := searchGo_found t.nodes.length t.root none none none k
    hWF.1 hk (t.nodes.length + 1) (by omega)
  unfold mapContains searchRB
  rw [hj]

/-- On a well-formed map, `Contains(k) = false` pins the search result down
to the definite null answer. -/
theorem searchRB_none_of_not_contains {t : MapNN} (hWF : WFrb t) {k : Nat}
    (hc : mapContains t k = false) :
    searchRB pairLess pairEqual t (k, 0) = some none := by
  obtain ⟨res, hres⟩ := searchGo_definite t.nodes.length t.root none none
    none k hWF.1 (t.nodes.length + 1) (by omega)
  unfold mapContains searchRB at hc
  unfold searchRB
  rw [hres] at hc ⊢
  cases res with
  | none => rfl
  | some j => simp at hc

/-- The arena transformation of `insertGo`'s empty-slot branch (before
`FixInsert`): bump the count, append the fresh RED node, and hook it into
the requested child slot of `parent`. -/
def graftT (t : MapNN) (parent : Nat) (side : Bool) (kv : Nat × Nat) :
    MapNN :=
  let t1 := { t with numNodes := t.numNodes + 1 }
  let idx := t1.nodes.length
  let t2 := { t1 with
    nodes := t1.nodes ++ [some ⟨kv, RED, some parent, none, none⟩] }
  if side then updNode t2 parent (fun nd => { nd with left := some idx })
  else updNode t2 parent (fun nd => { nd with right := some idx })

theorem chk_none (t : MapNN) (F : Nat) (lo hi pa : Option Nat) :
    chk t F none lo hi pa = true := by
  cases F <;> rfl

theorem occp_none (t : MapNN) (F : Nat) : occp t F none = [] := by
  cases F <;> rfl

theorem keysOf_none (t : MapNN) (F : Nat) : keysOf t F none = [] := by
  cases F <;> rfl

theorem getNode_ge (t : MapNN) {x : Nat} (h : t.nodes.length ≤ x) :
    getNode t x = none := by
  unfold getNode
  exact List.getD_eq_default _ _ h

theorem graftT_root (t : MapNN) (p : Nat) (side : Bool) (kv : Nat × Nat) :
    (graftT t p side kv).root = t.root := by
  unfold graftT
  cases side <;> simp only [if_true, if_false, Bool.false_eq_true] <;>
    rw [updNode_root]

theorem graftT_length (t : MapNN) (p : Nat) (side : Bool) (kv : Nat × Nat) :
    (graftT t p side kv).nodes.length = t.nodes.length + 1 := by
  unfold graftT
  cases side <;> simp only [if_true, if_false, Bool.false_eq_true] <;>
    rw [updNode_length] <;> simp

theorem graftT_numNodes (t : MapNN) (p : Nat) (side : Bool)
    (kv : Nat × Nat) : (graftT t p side kv).numNodes = t.numNodes + 1 := by
  unfold graftT
  cases side <;> simp only [if_true, if_false, Bool.false_eq_true] <;>
    rw [updNode_numNodes]

theorem graftT_getNode_old (t : MapNN) (p : Nat) (side : Bool)
    (kv : Nat × Nat) {x : Nat} (hxp : x ≠ p) (hxl : x ≠ t.nodes.length) :
    getNode (graftT t p side kv) x = getNode t x := by
  have happ : getNode ({ t with numNodes := t.numNodes + 1, nodes := t.nodes ++ [some ⟨kv, RED, some p, none, none⟩] } : MapNN) x = getNode t x := by
    by_cases hx : x < t.nodes.length
    · unfold getNode
      dsimp only
      exact List.getD_append _ _ _ _ hx
    · have h1 : ({ t with numNodes := t.numNodes + 1, nodes := t.nodes ++ [some ⟨kv, RED, some p, none, none⟩] } : MapNN).nodes.length ≤ x := by
        dsimp only
        rw [List.length_append]
        simp only [List.length_cons, List.length_nil]
        omega
      have h2 : t.nodes.length ≤ x := by omega
      rw [getNode_ge _ h1, getNode_ge _ h2]
  unfold graftT
  cases side
  · simp only [Bool.false_eq_true, if_false]
    rw [getNode_updNode_ne _ _ _ _ (fun h => hxp h.symm)]
    exact happ
  · simp only [if_true]
    rw [getNode_updNode_ne _ _ _ _ (fun h => hxp h.symm)]
    exact happ

theorem graftT_getNode_new (t : MapNN) (p : Nat) (side : Bool)
    (kv : Nat × Nat) (hp : p < t.nodes.length) :
    getNode (graftT t p side kv) t.nodes.length =
      some ⟨kv, RED, some p, none, none⟩ := by
  have happ : getNode ({ t with numNodes := t.numNodes + 1, nodes := t.nodes ++ [some ⟨kv, RED, some p, none, none⟩] } : MapNN) t.nodes.length = some ⟨kv, RED, some p, none, none⟩ := by
    unfold getNode
    dsimp only
    rw [List.getD_append_right _ _ _ _ (Nat.le_refl _), Nat.sub_self]
    rfl
  unfold graftT
  cases side
  · simp only [Bool.false_eq_true, if_false]
    rw [getNode_updNode_ne _ _ _ _ (fun h => absurd h.symm (by omega))]
    exact happ
  · simp only [if_true]
    rw [getNode_updNode_ne _ _ _ _ (fun h => absurd h.symm (by omega))]
    exact happ

theorem graftT_getNode_parent {t : MapNN} {p : Nat} {nd : TNode (Nat × Nat)}
    (hnd : getNode t p = some nd) (side : Bool) (kv : Nat × Nat) :
    getNode (graftT t p side kv) p =
      some (if side then { nd with left := some t.nodes.length }
        else { nd with right := some t.nodes.length }) := by
  have hp : p < t.nodes.length := getNode_lt_length hnd
  have happ : getNode ({ t with numNodes := t.numNodes + 1, nodes := t.nodes ++ [some ⟨kv, RED, some p, none, none⟩] } : MapNN) p = some nd := by
    unfold getNode at hnd ⊢
    dsimp only
    rw [List.getD_append _ _ _ _ hp]
    exact hnd
  unfold graftT
  cases side
  · simp only [Bool.false_eq_true, if_false]
    rw [getNode_updNode_self happ]
  · simp only [if_true]
    rw [getNode_updNode_self happ]

/-- What the tree `g` produced by the grafting walk satisfies, relative to
the original `t`, on the subtree under `oi`: checked one fuel higher, only
the fresh index added, still duplicate-free, `k` stored, the outside
untouched, the root pointer kept, the fresh index reachable. -/
def GraftProps (t g : MapNN) (F : Nat) (oi lo hi pa : Option Nat)
    (k : Nat) : Prop :=
  chk g (F + 1) oi lo hi pa = true ∧
  (∀ x ∈ occp g (F + 1) oi, x = t.nodes.length ∨ x ∈ occp t F oi) ∧
  (occp g (F + 1) oi).Nodup ∧
  k ∈ keysOf g (F + 1) oi ∧
  (∀ x, x ∉ occp t F oi → x ≠ t.nodes.length → getNode g x = getNode t x) ∧
  g.root = t.root ∧
  t.nodes.length ∈ occp g (F + 1) oi

/-- Grafting a fresh leaf for `k` into the empty child slot of the subtree
root re-establishes the checker (one fuel higher), adds only the fresh
index, keeps indices duplicate-free, stores `k`, and leaves every slot
outside the subtree untouched. -/
theorem graft_spec {t : MapNN} {parent : Nat} {nd : TNode (Nat × Nat)}
    (side : Bool) (k v : Nat) (F : Nat) (lo hi pa : Option Nat)
    (hnd : getNode t parent = some nd)
    (hchk : chk t (F + 1) (some parent) lo hi pa = true)
    (hndp : (occp t (F + 1) (some parent)).Nodup)
    (hslot : (if side then nd.left else nd.right) = none)
    (hk : if side then inLo lo k = true ∧ k < nd.value.1
      else nd.value.1 < k ∧ inHi hi k = true) :
    GraftProps t (graftT t parent side (k, v)) (F + 1) (some parent)
      lo hi pa k := by
  have hp : parent < t.nodes.length := getNode_lt_length hnd
  rw [chk, hnd] at hchk
  dsimp only at hchk
  simp only [Bool.and_eq_true] at hchk
  have hoccold : occp t (F + 1) (some parent) =
      parent :: (occp t F nd.left ++ occp t F nd.right) := by
    rw [occp, hnd]
  rw [hoccold] at hndp
  have hnp := (List.nodup_cons.mp hndp).1
  have hnd2 := (List.nodup_cons.mp hndp).2
  have hnpl : parent ∉ occp t F nd.left :=
    fun h => hnp (List.mem_append_left _ h)
  have hnpr : parent ∉ occp t F nd.right :=
    fun h => hnp (List.mem_append_right _ h)
  have hndl : (occp t F nd.left).Nodup := (List.nodup_append.mp hnd2).1
  have hndr : (occp t F nd.right).Nodup := (List.nodup_append.mp hnd2).2.1
  have hgpar := graftT_getNode_parent hnd side (k, v)
  have hgnew := graftT_getNode_new t parent side (k, v) hp
  have hfr : ∀ x, x ∉ occp t (F + 1) (some parent) →
      x ≠ t.nodes.length →
      getNode (graftT t parent side (k, v)) x = getNode t x := by
    intro x hx hxl
    have hxp : x ≠ parent := by
      intro he
      rw [hoccold] at hx
      exact hx (he ▸ List.mem_cons_self _ _)
    exact graftT_getNode_old t parent side (k, v) hxp hxl
  unfold GraftProps
  cases side with
  | true =>
    simp only [if_true] at hgpar hslot hk
    have hchkR := hchk.2
    have hliveR := occp_live F nd.right (some nd.value.1) hi (some parent)
      hchkR
    have hfrR : ∀ x ∈ occp t F nd.right,
        (getNode (graftT t parent true (k, v)) x).map core =
        (getNode t x).map core := by
      intro x hx
      rw [graftT_getNode_old t parent true (k, v)
        (fun he => hnpr (he ▸ hx))
        (by have := hliveR x hx; omega)]
    have hR := chk_frame F nd.right (some nd.value.1) hi (some parent)
      hchkR hfrR
    have hRocc : occp (graftT t parent true (k, v)) (F + 1) nd.right =
        occp t F nd.right ∧
        keysOf (graftT t parent true (k, v)) (F + 1) nd.right =
        keysOf t F nd.right := by
      have := occp_keysOf_mono F (F + 1) nd.right (some nd.value.1) hi
        (some parent) hR.1 (by omega)
      exact ⟨this.1.trans hR.2.1, this.2.trans hR.2.2⟩
    have hleafchk : chk (graftT t parent true (k, v)) (F + 1)
        (some t.nodes.length) lo (some nd.value.1) (some parent) = true := by
      rw [chk, hgnew]
      dsimp only
      simp only [Bool.and_eq_true]
      exact ⟨⟨⟨⟨hk.1, by simpa [inHi] using hk.2⟩, by simp⟩,
        chk_none _ _ _ _ _⟩, chk_none _ _ _ _ _⟩
    have hleafocc : occp (graftT t parent true (k, v)) (F + 1)
        (some t.nodes.length) = [t.nodes.length] := by
      rw [occp, hgnew]
      dsimp only
      simp [occp_none]
    have hleafkeys : keysOf (graftT t parent true (k, v)) (F + 1)
        (some t.nodes.length) = [k] := by
      rw [keysOf, hgnew]
      dsimp only
      simp [keysOf_none]
    have hocc : occp (graftT t parent true (k, v)) (F + 2) (some parent) =
        parent :: ([t.nodes.length] ++ occp t F nd.right) := by
      rw [occp, hgpar]
      dsimp only
      rw [hleafocc, hRocc.1]
    refine ⟨?_, ?_, ?_, ?_, hfr, graftT_root t parent true (k, v), by
      rw [hocc]
      exact List.mem_cons_of_mem _ (List.mem_append_left _
        (List.mem_singleton.mpr rfl))⟩
    · rw [chk, hgpar]
      dsimp only
      simp only [Bool.and_eq_true]
      exact ⟨⟨⟨⟨hchk.1.1.1.1, hchk.1.1.1.2⟩, hchk.1.1.2⟩, hleafchk⟩,
        chk_mono F (F + 1) nd.right (some nd.value.1) hi (some parent)
          hR.1 (by omega)⟩
    · intro x hx
      rw [hocc] at hx
      rcases List.mem_cons.mp hx with hx1 | hx2
      · exact Or.inr (by rw [hoccold, hx1]; exact List.mem_cons_self _ _)
      · rcases List.mem_append.mp hx2 with hx3 | hx4
        · exact Or.inl (List.mem_singleton.mp hx3)
        · exact Or.inr (by
            rw [hoccold]
            exact List.mem_cons_of_mem _ (List.mem_append_right _ hx4))
    · rw [hocc]
      refine List.nodup_cons.mpr ⟨?_, ?_⟩
      · intro hmem
        rcases List.mem_append.mp hmem with h1 | h2
        · have := List.mem_singleton.mp h1
          omega
        · exact hnpr h2
      · refine List.nodup_append.mpr ⟨List.nodup_singleton _, hndr, ?_⟩
        intro a ha har
        have haL := List.mem_singleton.mp ha
        have := hliveR a har
        omega
    · rw [keysOf, hgpar]
      dsimp only
      rw [hleafkeys]
      exact List.mem_cons_of_mem _ (List.mem_append_left _
        (List.mem_singleton.mpr rfl))
  | false =>
    simp only [Bool.false_eq_true, if_false] at hgpar hslot hk
    have hchkL := hchk.1.2
    have hliveL := occp_live F nd.left lo (some nd.value.1) (some parent)
      hchkL
    have hfrL : ∀ x ∈ occp t F nd.left,
        (getNode (graftT t parent false (k, v)) x).map core =
        (getNode t x).map core := by
      intro x hx
      rw [graftT_getNode_old t parent false (k, v)
        (fun he => hnpl (he ▸ hx))
        (by have := hliveL x hx; omega)]
    have hL := chk_frame F nd.left lo (some nd.value.1) (some parent)
      hchkL hfrL
    have hLocc : occp (graftT t parent false (k, v)) (F + 1) nd.left =
        occp t F nd.left ∧
        keysOf (graftT t parent false (k, v)) (F + 1) nd.left =
        keysOf t F nd.left := by
      have := occp_keysOf_mono F (F + 1) nd.left lo (some nd.value.1)
        (some parent) hL.1 (by omega)
      exact ⟨this.1.trans hL.2.1, this.2.trans hL.2.2⟩
    have hleafchk : chk (graftT t parent false (k, v)) (F + 1)
        (some t.nodes.length) (some nd.value.1) hi (some parent) = true := by
      rw [chk, hgnew]
      dsimp only
      simp only [Bool.and_eq_true]
      exact ⟨⟨⟨⟨by simpa [inLo] using hk.1, hk.2⟩, by simp⟩,
        chk_none _ _ _ _ _⟩, chk_none _ _ _ _ _⟩
    have hleafocc : occp (graftT t parent false (k, v)) (F + 1)
        (some t.nodes.length) = [t.nodes.length] := by
      rw [occp, hgnew]
      dsimp only
      simp [occp_none]
    have hleafkeys : keysOf (graftT t parent false (k, v)) (F + 1)
        (some t.nodes.length) = [k] := by
      rw [keysOf, hgnew]
      dsimp only
      simp [keysOf_none]
    have hocc : occp (graftT t parent false (k, v)) (F + 2) (some parent) =
        parent :: (occp t F nd.left ++ [t.nodes.length]) := by
      rw [occp, hgpar]
      dsimp only
      rw [hleafocc, hLocc.1]
    refine ⟨?_, ?_, ?_, ?_, hfr, graftT_root t parent false (k, v), by
      rw [hocc]
      exact List.mem_cons_of_mem _ (List.mem_append_right _
        (List.mem_singleton.mpr rfl))⟩
    · rw [chk, hgpar]
      dsimp only
      simp only [Bool.and_eq_true]
      exact ⟨⟨⟨⟨hchk.1.1.1.1, hchk.1.1.1.2⟩, hchk.1.1.2⟩,
        chk_mono F (F + 1) nd.left lo (some nd.value.1) (some parent)
          hL.1 (by omega)⟩, hleafchk⟩
    · intro x hx
      rw [hocc] at hx
      rcases List.mem_cons.mp hx with hx1 | hx2
      · exact Or.inr (by rw [hoccold, hx1]; exact List.mem_cons_self _ _)
      · rcases List.mem_append.mp hx2 with hx3 | hx4
        · exact Or.inr (by
            rw [hoccold]
            exact List.mem_cons_of_mem _ (List.mem_append_left _ hx3))
        · exact Or.inl (List.mem_singleton.mp hx4)
    · rw [hocc]
      refine List.nodup_cons.mpr ⟨?_, ?_⟩
      · intro hmem
        rcases List.mem_append.mp hmem with h1 | h2
        · exact hnpl h1
        · have := List.mem_singleton.mp h2
          omega
      · refine List.nodup_append.mpr ⟨hndl, List.nodup_singleton _, ?_⟩
        intro a ha har
        have haL := List.mem_singleton.mp har
        have := hliveL a ha
        omega
    · rw [keysOf, hgpar]
      dsimp only
      rw [hleafkeys]
      exact List.mem_cons_of_mem _ (List.mem_append_right _
        (List.mem_singleton.mpr rfl))

/-- A key stored in a child subtree is stored in the parent's subtree. -/
theorem keys_lift {t : MapNN} {parent : Nat} {nd : TNode (Nat × Nat)}
    {ci : Nat} (childSide : Bool) {F : Nat} {k : Nat}
    (hnd : getNode t parent = some nd)
    (hci : (if childSide then nd.left else nd.right) = some ci)
    (hk : k ∈ keysOf t F (some ci)) :
    k ∈ keysOf t (F + 1) (some parent) := by
  rw [keysOf, hnd]
  dsimp only
  cases childSide with
  | true =>
    simp only [if_true] at hci
    rw [← hci] at hk
    exact List.mem_cons_of_mem _ (List.mem_append_left _ hk)
  | false =>
    simp only [Bool.false_eq_true, if_false] at hci
    rw [← hci] at hk
    exact List.mem_cons_of_mem _ (List.mem_append_right _ hk)

/-- Lift the grafting-walk invariant from the child subtree the walk
descended into back to the parent's subtree. -/
theorem graft_lift {t g : MapNN} {parent ci : Nat} {nd : TNode (Nat × Nat)}
    (childSide : Bool) {F : Nat} {lo hi pa : Option Nat} {k : Nat}
    (hnd : getNode t parent = some nd)
    (hchk : chk t (F + 1) (some parent) lo hi pa = true)
    (hndp : (occp t (F + 1) (some parent)).Nodup)
    (hci : (if childSide then nd.left else nd.right) = some ci)
    (hsub : GraftProps t g F (some ci)
      (if childSide then lo else some nd.value.1)
      (if childSide then some nd.value.1 else hi) (some parent) k) :
    GraftProps t g (F + 1) (some parent) lo hi pa k := by
  have hp : parent < t.nodes.length := getNode_lt_length hnd
  rw [chk, hnd] at hchk
  dsimp only at hchk
  simp only [Bool.and_eq_true] at hchk
  have hoccold : occp t (F + 1) (some parent) =
      parent :: (occp t F nd.left ++ occp t F nd.right) := by
    rw [occp, hnd]
  rw [hoccold] at hndp
  have hnp := (List.nodup_cons.mp hndp).1
  have hnd2 := (List.nodup_cons.mp hndp).2
  have hnpl : parent ∉ occp t F nd.left :=
    fun h => hnp (List.mem_append_left _ h)
  have hnpr : parent ∉ occp t F nd.right :=
    fun h => hnp (List.mem_append_right _ h)
  have hndl : (occp t F nd.left).Nodup := (List.nodup_append.mp hnd2).1
  have hndr : (occp t F nd.right).Nodup := (List.nodup_append.mp hnd2).2.1
  have hdisj := (List.nodup_append.mp hnd2).2.2
  obtain ⟨hschk, hsocc, hsnodup, hskeys, hsfr, hsroot, hsmem⟩ := hsub
  unfold GraftProps
  cases childSide with
  | true =>
    simp only [if_true] at hci hschk hsocc hsnodup hskeys hsfr hsmem
    rw [← hci] at hschk hsocc hsnodup hskeys hsfr hsmem
    -- the parent's record is outside the descended subtree
    have hgpar : getNode g parent = some nd := by
      rw [hsfr parent hnpl (by omega)]
      exact hnd
    -- the sibling subtree is outside it too
    have hfrR : ∀ x ∈ occp t F nd.right,
        (getNode g x).map core = (getNode t x).map core := by
      intro x hx
      have hlive := occp_live F nd.right (some nd.value.1) hi
        (some parent) hchk.2 x hx
      rw [hsfr x (fun hmem => hdisj hmem hx) (by omega)]
    have hR := chk_frame F nd.right (some nd.value.1) hi (some parent)
      hchk.2 hfrR
    have hRocc : occp g (F + 1) nd.right = occp t F nd.right ∧
        keysOf g (F + 1) nd.right = keysOf t F nd.right := by
      have := occp_keysOf_mono F (F + 1) nd.right (some nd.value.1) hi
        (some parent) hR.1 (by omega)
      exact ⟨this.1.trans hR.2.1, this.2.trans hR.2.2⟩
    have hocc : occp g (F + 2) (some parent) =
        parent :: (occp g (F + 1) nd.left ++ occp t F nd.right) := by
      rw [occp, hgpar]
      dsimp only
      rw [hRocc.1]
    refine ⟨?_, ?_, ?_, ?_, ?_, hsroot, by
      rw [hocc]
      exact List.mem_cons_of_mem _ (List.mem_append_left _ hsmem)⟩
    · rw [chk, hgpar]
      dsimp only
      simp only [Bool.and_eq_true]
      exact ⟨⟨⟨⟨hchk.1.1.1.1, hchk.1.1.1.2⟩, hchk.1.1.2⟩, hschk⟩,
        chk_mono F (F + 1) nd.right (some nd.value.1) hi (some parent)
          hR.1 (by omega)⟩
    · intro x hx
      rw [hocc] at hx
      rcases List.mem_cons.mp hx with hx1 | hx2
      · exact Or.inr (by rw [hoccold, hx1]; exact List.mem_cons_self _ _)
      · rcases List.mem_append.mp hx2 with hx3 | hx4
        · rcases hsocc x hx3 with hL | hmem
          · exact Or.inl hL
          · exact Or.inr (by
              rw [hoccold]
              exact List.mem_cons_of_mem _ (List.mem_append_left _ hmem))
        · exact Or.inr (by
            rw [hoccold]
            exact List.mem_cons_of_mem _ (List.mem_append_right _ hx4))
    · rw [hocc]
      refine List.nodup_cons.mpr ⟨?_, ?_⟩
      · intro hmem
        rcases List.mem_append.mp hmem with h1 | h2
        · rcases hsocc parent h1 with hL | hmem2
          · omega
          · exact hnpl hmem2
        · exact hnpr h2
      · refine List.nodup_append.mpr ⟨hsnodup, hndr, ?_⟩
        intro a ha har
        rcases hsocc a ha with hL | hmem2
        · have := occp_live F nd.right (some nd.value.1) hi (some parent)
            hchk.2 a har
          omega
        · exact hdisj hmem2 har
    · rw [keysOf, hgpar]
      dsimp only
      exact List.mem_cons_of_mem _ (List.mem_append_left _ hskeys)
    · intro x hx hxl
      have hxp : x ≠ parent := by
        intro he
        rw [hoccold] at hx
        exact hx (he ▸ List.mem_cons_self _ _)
      refine hsfr x ?_ hxl
      intro hmem
      rw [hoccold] at hx
      exact hx (List.mem_cons_of_mem _ (List.mem_append_left _
        (hci ▸ hmem)))
  | false =>
    simp only [Bool.false_eq_true, if_false] at hci hschk hsocc hsnodup hskeys hsfr hsmem
    rw [← hci] at hschk hsocc hsnodup hskeys hsfr hsmem
    have hgpar : getNode g parent = some nd := by
      rw [hsfr parent hnpr (by omega)]
      exact hnd
    have hfrL : ∀ x ∈ occp t F nd.left,
        (getNode g x).map core = (getNode t x).map core := by
      intro x hx
      have hlive := occp_live F nd.left lo (some nd.value.1)
        (some parent) hchk.1.2 x hx
      rw [hsfr x (fun hmem => hdisj hx hmem) (by omega)]
    have hL := chk_frame F nd.left lo (some nd.value.1) (some parent)
      hchk.1.2 hfrL
    have hLocc : occp g (F + 1) nd.left = occp t F nd.left ∧
        keysOf g (F + 1) nd.left = keysOf t F nd.left := by
      have := occp_keysOf_mono F (F + 1) nd.left lo (some nd.value.1)
        (some parent) hL.1 (by omega)
      exact ⟨this.1.trans hL.2.1, this.2.trans hL.2.2⟩
    have hocc : occp g (F + 2) (some parent) =
        parent :: (occp t F nd.left ++ occp g (F + 1) nd.right) := by
      rw [occp, hgpar]
      dsimp only
      rw [hLocc.1]
    refine ⟨?_, ?_, ?_, ?_, ?_, hsroot, by
      rw [hocc]
      exact List.mem_cons_of_mem _ (List.mem_append_right _ hsmem)⟩
    · rw [chk, hgpar]
      dsimp only
      simp only [Bool.and_eq_true]
      exact ⟨⟨⟨⟨hchk.1.1.1.1, hchk.1.1.1.2⟩, hchk.1.1.2⟩,
        chk_mono F (F + 1) nd.left lo (some nd.value.1) (some parent)
          hL.1 (by omega)⟩, hschk⟩
    · intro x hx
      rw [hocc] at hx
      rcases List.mem_cons.mp hx with hx1 | hx2
      · exact Or.inr (by rw [hoccold, hx1]; exact List.mem_cons_self _ _)
      · rcases List.mem_append.mp hx2 with hx3 | hx4
        · exact Or.inr (by
            rw [hoccold]
            exact List.mem_cons_of_mem _ (List.mem_append_left _ hx3))
        · rcases hsocc x hx4 with hL2 | hmem
          · exact Or.inl hL2
          · exact Or.inr (by
              rw [hoccold]
              exact List.mem_cons_of_mem _ (List.mem_append_right _ hmem))
    · rw [hocc]
      refine List.nodup_cons.mpr ⟨?_, ?_⟩
      · intro hmem
        rcases List.mem_append.mp hmem with h1 | h2
        · exact hnpl h1
        · rcases hsocc parent h2 with hL2 | hmem2
          · omega
          · exact hnpr hmem2
      · refine List.nodup_append.mpr ⟨hndl, hsnodup, ?_⟩
        intro a ha har
        rcases hsocc a har with hL2 | hmem2
        · have := occp_live F nd.left lo (some nd.value.1) (some parent)
            hchk.1.2 a ha
          omega
        · exact hdisj ha hmem2
    · rw [keysOf, hgpar]
      dsimp only
      exact List.mem_cons_of_mem _ (List.mem_append_right _ hskeys)
    · intro x hx hxl
      refine hsfr x ?_ hxl
      intro hmem
      rw [hoccold] at hx
      exact hx (List.mem_cons_of_mem _ (List.mem_append_right _
        (hci ▸ hmem)))

/-- One-step reduction of `insertGo` when the examined child slot is empty:
the walk grafts the fresh RED leaf there and runs `FixInsert`. -/
theorem insertGo_none_step (fl : Nat) (t : MapNN) (parent : Nat)
    (side : Bool) (kv : Nat × Nat)
    (h : (if side then leftOf t (some parent) else rightOf t (some parent)) =
      none) :
    insertGo pairLess pairEqual (fl + 1) t parent side kv =
      (fixInsert (graftT t parent side kv) t.nodes.length,
        some t.nodes.length) := by
  unfold insertGo
  rw [h]
  rfl

/-- One-step reduction of `insertGo` when the examined child slot holds a
live node: the walk compares and descends. -/
theorem insertGo_some_step (fl : Nat) (t : MapNN) (parent : Nat)
    (side : Bool) (kv : Nat × Nat) (ci : Nat) (cnd : TNode (Nat × Nat))
    (h : (if side then leftOf t (some parent) else rightOf t (some parent)) =
      some ci)
    (hc : getNode t ci = some cnd) :
    insertGo pairLess pairEqual (fl + 1) t parent side kv =
      (if pairEqual cnd.value kv then (t, some ci)
        else if pairLess kv cnd.value then
          insertGo pairLess pairEqual fl t ci true kv
        else insertGo pairLess pairEqual fl t ci false kv) := by
  conv_lhs => unfold insertGo
  rw [h]
  dsimp only
  rw [hc]

/-- The `Insert` walk on a checked subtree with an absent key `k` that fits
the examined child slot's window: it always ends in the empty-slot graft,
returning the fix-up of the grafted tree and the fresh index, with the
grafting invariant relating the grafted tree to the original. -/
theorem insertGo_walk {t : MapNN} {k : Nat} (v : Nat) :
    ∀ (F : Nat) (fuel parent : Nat) (side : Bool) (lo hi pa : Option Nat)
      (nd : TNode (Nat × Nat)),
      getNode t parent = some nd →
      chk t (F + 1) (some parent) lo hi pa = true →
      (occp t (F + 1) (some parent)).Nodup →
      k ∉ keysOf t (F + 1) (some parent) →
      (if side then inLo lo k = true ∧ k < nd.value.1
        else nd.value.1 < k ∧ inHi hi k = true) →
      F + 1 ≤ fuel →
      ∃ g, insertGo pairLess pairEqual fuel t parent side (k, v) =
          (fixInsert g t.nodes.length, some t.nodes.length) ∧
        GraftProps t g (F + 1) (some parent) lo hi pa k := by
  intro F
  induction F with
  | zero =>
    intro fuel parent side lo hi pa nd hnd hchk hnodup habs hk hfuel
    obtain ⟨fl, rfl⟩ : ∃ fl, fuel = fl + 1 := ⟨fuel - 1, by omega⟩
    rw [chk, hnd] at hchk
    dsimp only at hchk
    simp only [Bool.and_eq_true] at hchk
    have hslot : (if side then nd.left else nd.right) = none := by
      cases side with
      | true =>
        simp only [if_true]
        cases hl : nd.left with
        | none => rfl
        | some x =>
          rw [hl] at hchk
          exact absurd hchk.1.2 (by unfold chk; simp)
      | false =>
        simp only [Bool.false_eq_true, if_false]
        cases hr : nd.right with
        | none => rfl
        | some x =>
          rw [hr] at hchk
          exact absurd hchk.2 (by unfold chk; simp)
    have hsl : (if side then leftOf t (some parent)
        else rightOf t (some parent)) = none := by
      cases side with
      | true => simpa [leftOf_eq hnd] using hslot
      | false => simpa [rightOf_eq hnd] using hslot
    refine ⟨graftT t parent side (k, v), ?_, ?_⟩
    · exact insertGo_none_step fl t parent side (k, v) hsl
    · exact graft_spec side k v 0 lo hi pa hnd
        (by rw [chk, hnd]; dsimp only; simp only [Bool.and_eq_true]
            exact hchk)
        hnodup hslot hk
  | succ m ih =>
    intro fuel parent side lo hi pa nd hnd hchk hnodup habs hk hfuel
    obtain ⟨fl, rfl⟩ : ∃ fl, fuel = fl + 1 := ⟨fuel - 1, by omega⟩
    have hchk' := hchk
    rw [chk, hnd] at hchk'
    dsimp only at hchk'
    simp only [Bool.and_eq_true] at hchk'
    have hsl : (if side then leftOf t (some parent)
        else rightOf t (some parent)) = (if side then nd.left
        else nd.right) := by
      cases side with
      | true => simp [leftOf_eq hnd]
      | false => simp [rightOf_eq hnd]
    cases hcc : (if side then nd.left else nd.right) with
    | none =>
      refine ⟨graftT t parent side (k, v), ?_, ?_⟩
      · exact insertGo_none_step fl t parent side (k, v) (hsl.trans hcc)
      · exact graft_spec side k v (m + 1) lo hi pa hnd hchk hnodup hcc hk
    | some ci =>
      -- the examined child is live and checked at fuel m + 1
      have hcw : chk t (m + 1) (some ci)
          (if side then lo else some nd.value.1)
          (if side then some nd.value.1 else hi) (some parent) = true := by
        cases side with
        | true => simp only [if_true] at hcc ⊢; rw [← hcc]; exact hchk'.1.2
        | false =>
          simp only [Bool.false_eq_true, if_false] at hcc ⊢
          rw [← hcc]; exact hchk'.2
      have hcnd : ∃ cnd, getNode t ci = some cnd := by
        rw [chk] at hcw
        cases hg : getNode t ci with
        | none => rw [hg] at hcw; exact absurd hcw (by simp)
        | some cnd => exact ⟨cnd, rfl⟩
      obtain ⟨cnd, hcnd⟩ := hcnd
      have hoccp : occp t (m + 2) (some parent) =
          parent :: (occp t (m + 1) nd.left ++ occp t (m + 1) nd.right) := by
        rw [occp, hnd]
      have hkeysp : keysOf t (m + 2) (some parent) =
          nd.value.1 :: (keysOf t (m + 1) nd.left ++
            keysOf t (m + 1) nd.right) := by
        rw [keysOf, hnd]
      have hcnodup : (occp t (m + 1) (some ci)).Nodup := by
        rw [hoccp] at hnodup
        have h2 := (List.nodup_cons.mp hnodup).2
        cases side with
        | true =>
          simp only [if_true] at hcc
          rw [← hcc]; exact (List.nodup_append.mp h2).1
        | false =>
          simp only [Bool.false_eq_true, if_false] at hcc
          rw [← hcc]; exact (List.nodup_append.mp h2).2.1
      have hcabs : k ∉ keysOf t (m + 1) (some ci) := by
        intro hmem
        refine habs ?_
        rw [hkeysp]
        cases side with
        | true =>
          simp only [if_true] at hcc
          exact List.mem_cons_of_mem _ (List.mem_append_left _ (hcc ▸ hmem))
        | false =>
          simp only [Bool.false_eq_true, if_false] at hcc
          exact List.mem_cons_of_mem _ (List.mem_append_right _ (hcc ▸ hmem))
      have hckmem : cnd.value.1 ∈ keysOf t (m + 1) (some ci) := by
        rw [keysOf, hcnd]
        exact List.mem_cons_self _ _
      have hckne : cnd.value.1 ≠ k := fun he => hcabs (he ▸ hckmem)
      have hkin : inLo (if side then lo else some nd.value.1) k = true ∧
          inHi (if side then some nd.value.1 else hi) k = true := by
        cases side with
        | true =>
          simp only [if_true] at hk ⊢
          exact ⟨hk.1, by simpa [inHi] using hk.2⟩
        | false =>
          simp only [Bool.false_eq_true, if_false] at hk ⊢
          exact ⟨by simpa [inLo] using hk.1, hk.2⟩
      have heq0 : pairEqual cnd.value (k, v) = false := by
        simp [pairEqual]
        exact fun he => hckne he
      have hstep := insertGo_some_step fl t parent side (k, v) ci cnd
        (hsl.trans hcc) hcnd
      rw [heq0] at hstep
      simp only [Bool.false_eq_true, if_false] at hstep
      by_cases hlt : k < cnd.value.1
      · have hless : pairLess (k, v) cnd.value = true := by
          simp [pairLess, hlt]
        rw [hless] at hstep
        simp only [if_true] at hstep
        obtain ⟨g, heq, hgp⟩ := ih fl ci true
          (if side then lo else some nd.value.1)
          (if side then some nd.value.1 else hi)
          (some parent) cnd hcnd hcw hcnodup hcabs
          (by simp only [if_true]; exact ⟨hkin.1, hlt⟩)
          (by omega)
        exact ⟨g, hstep.trans heq,
          graft_lift side hnd hchk hnodup hcc hgp⟩
      · have hgt : cnd.value.1 < k := by
          rcases Nat.lt_or_ge k cnd.value.1 with h | h
          · exact absurd h hlt
          · rcases Nat.eq_or_lt_of_le h with h2 | h2
            · exact absurd h2 hckne
            · exact h2
        have hless : pairLess (k, v) cnd.value = false := by
          simp [pairLess]; omega
        rw [hless] at hstep
        simp only [Bool.false_eq_true, if_false] at hstep
        obtain ⟨g, heq, hgp⟩ := ih fl ci false
          (if side then lo else some nd.value.1)
          (if side then some nd.value.1 else hi)
          (some parent) cnd hcnd hcw hcnodup hcabs
          (by simp only [Bool.false_eq_true, if_false]
              exact ⟨hgt, hkin.2⟩)
          (by omega)
        exact ⟨g, hstep.trans heq,
          graft_lift side hnd hchk hnodup hcc hgp⟩

/-- Recoloring never touches key, children or parent. -/
theorem setColorOpt_core (t : MapNN) (oi : Option Nat) (c : RBColor) :
    ∀ i, (getNode (setColorOpt t oi c) i).map core =
      (getNode t i).map core := by
  intro i
  cases oi with
  | none => rfl
  | some j =>
    unfold setColorOpt
    dsimp only
    by_cases hij : j = i
    · subst hij
      cases hg : getNode t j with
      | none =>
        have hu : updNode t j (fun nd => { nd with color := c }) = t := by
          unfold updNode; rw [hg]
        rw [hu, hg]
      | some nd =>
        have h1 := getNode_updNode_self hg (fun nd => { nd with color := c })
        rw [h1]
        rfl
    · rw [getNode_updNode_ne t j i _ hij]

theorem setColorOpt_root (t : MapNN) (oi : Option Nat) (c : RBColor) :
    (setColorOpt t oi c).root = t.root := by
  cases oi with
  | none => rfl
  | some j => unfold setColorOpt; rw [updNode_root]

/-- Every visited index holds a live record whose parent pointer is the
window's parent or another visited index. -/
theorem parent_in_occ {t : MapNN} :
    ∀ (F : Nat) (oi lo hi pa : Option Nat), chk t F oi lo hi pa = true →
      ∀ x ∈ occp t F oi, ∃ nd, getNode t x = some nd ∧
        (nd.parent = pa ∨ ∃ q ∈ occp t F oi, nd.parent = some q) := by
  intro F
  induction F with
  | zero =>
    intro oi lo hi pa hchk x hx
    cases oi with
    | none => simp [occp] at hx
    | some i => exact absurd hchk (by unfold chk; simp)
  | succ n ih =>
    intro oi lo hi pa hchk x hx
    cases oi with
    | none => simp [occp] at hx
    | some i =>
      cases hg : getNode t i with
      | none => rw [chk, hg] at hchk; exact absurd hchk (by simp)
      | some nd =>
        rw [chk, hg] at hchk
        dsimp only at hchk
        simp only [Bool.and_eq_true] at hchk
        have hocc : occp t (n + 1) (some i) =
            i :: (occp t n nd.left ++ occp t n nd.right) := by
          rw [occp, hg]
        rw [hocc] at hx
        rcases List.mem_cons.mp hx with hxi | hx2
        · subst hxi
          exact ⟨nd, hg, Or.inl (by
            have := hchk.1.1.2
            simpa using this)⟩
        · rcases List.mem_append.mp hx2 with hxl | hxr
          · obtain ⟨ndx, hndx, hpar⟩ := ih nd.left lo (some nd.value.1)
              (some i) hchk.1.2 x hxl
            refine ⟨ndx, hndx, Or.inr ?_⟩
            rcases hpar with hpi | ⟨q, hq, hqe⟩
            · exact ⟨i, by rw [hocc]; exact List.mem_cons_self _ _, hpi⟩
            · exact ⟨q, by
                rw [hocc]
                exact List.mem_cons_of_mem _ (List.mem_append_left _ hq), hqe⟩
          · obtain ⟨ndx, hndx, hpar⟩ := ih nd.right (some nd.value.1) hi
              (some i) hchk.2 x hxr
            refine ⟨ndx, hndx, Or.inr ?_⟩
            rcases hpar with hpi | ⟨q, hq, hqe⟩
            · exact ⟨i, by rw [hocc]; exact List.mem_cons_self _ _, hpi⟩
            · exact ⟨q, by
                rw [hocc]
                exact List.mem_cons_of_mem _ (List.mem_append_right _ hq), hqe⟩

/-- The checker needs no more fuel than the number of indices it visits. -/
theorem chk_shrink {t : MapNN} :
    ∀ (F : Nat) (oi lo hi pa : Option Nat), chk t F oi lo hi pa = true →
      chk t (occp t F oi).length oi lo hi pa = true := by
  intro F
  induction F with
  | zero =>
    intro oi lo hi pa hchk
    cases oi with
    | none => simp [occp, chk_none]
    | some i => exact absurd hchk (by unfold chk; simp)
  | succ n ih =>
    intro oi lo hi pa hchk
    cases oi with
    | none => simp [occp, chk_none]
    | some i =>
      cases hg : getNode t i with
      | none => rw [chk, hg] at hchk; exact absurd hchk (by simp)
      | some nd =>
        rw [chk, hg] at hchk
        dsimp only at hchk
        simp only [Bool.and_eq_true] at hchk
        have hocc : occp t (n + 1) (some i) =
            i :: (occp t n nd.left ++ occp t n nd.right) := by
          rw [occp, hg]
        rw [hocc]
        simp only [List.length_cons, List.length_append]
        rw [chk, hg]
        dsimp only
        simp only [Bool.and_eq_true]
        have hL := ih nd.left lo (some nd.value.1) (some i) hchk.1.2
        have hR := ih nd.right (some nd.value.1) hi (some i) hchk.2
        exact ⟨⟨⟨⟨hchk.1.1.1.1, hchk.1.1.1.2⟩, hchk.1.1.2⟩,
          chk_mono _ _ nd.left lo (some nd.value.1) (some i) hL
            (by omega)⟩,
          chk_mono _ _ nd.right (some nd.value.1) hi (some i) hR
            (by omega)⟩

/-- Duplicate-free visited indices are at most as many as the slots. -/
theorem occ_length_le {t : MapNN} {F : Nat} {oi lo hi pa : Option Nat}
    (hchk : chk t F oi lo hi pa = true) (hnd : (occp t F oi).Nodup) :
    (occp t F oi).length ≤ t.nodes.length := by
  have hcard : (occp t F oi).toFinset.card = (occp t F oi).length :=
    List.toFinset_card_of_nodup hnd
  have hsub : (occp t F oi).toFinset ⊆ Finset.range t.nodes.length := by
    intro a ha
    rw [List.mem_toFinset] at ha
    exact Finset.mem_range.mpr (occp_live F oi lo hi pa hchk a ha)
  have := Finset.card_le_card hsub
  rw [hcard, Finset.card_range] at this
  exact this

/-- The whole-tree invariant carried through `FixInsert`: the root passes
the checker, no index is visited twice, and the key `k` is stored. -/
def TreeInv (t : MapNN) (F : Nat) (k : Nat) : Prop :=
  chk t F t.root none none none = true ∧
  (occp t F t.root).Nodup ∧
  k ∈ keysOf t F t.root

/-- A checked subtree root is a live slot. -/
theorem chk_node {t : MapNN} {F : Nat} {i : Nat} {lo hi pa : Option Nat}
    (h : chk t (F + 1) (some i) lo hi pa = true) :
    ∃ nd, getNode t i = some nd := by
  rw [chk] at h
  cases hg : getNode t i with
  | none => rw [hg] at h; exact absurd h (by simp)
  | some nd => exact ⟨nd, rfl⟩

/-- A checked subtree root is among its own visited indices. -/
theorem mem_occ_self {t : MapNN} {F : Nat} {i : Nat} {lo hi pa : Option Nat}
    (h : chk t F (some i) lo hi pa = true) : i ∈ occp t F (some i) := by
  cases F with
  | zero => exact absurd h (by unfold chk; simp)
  | succ m =>
    obtain ⟨nd, hnd⟩ := chk_node h
    rw [occp, hnd]
    exact List.mem_cons_self _ _

/-- Rebuilding lemma for a LEFT rotation at the root `n` of a checked
subtree with right child `pp`: given the pointwise description of the
rotated arena `t'`, the subtree rooted at `pp` checks one fuel higher in
the same window, visiting a permutation of the same indices and storing a
permutation of the same keys. -/
theorem rebuildL {t t' : MapNN} {n pp : Nat} {nnd pnd : TNode (Nat × Nat)}
    {F : Nat} {lo hi pa : Option Nat}
    (hn : getNode t n = some nnd) (hr : nnd.right = some pp)
    (hp : getNode t pp = some pnd)
    (hchk : chk t (F + 2) (some n) lo hi pa = true)
    (hnodup : (occp t (F + 2) (some n)).Nodup)
    (h1 : getNode t' n = some { nnd with parent := some pp, right := pnd.left })
    (h2 : getNode t' pp = some { pnd with parent := pa, left := some n })
    (h3 : ∀ pli plnd, pnd.left = some pli → getNode t pli = some plnd →
      getNode t' pli = some { plnd with parent := some n })
    (h4 : ∀ x ∈ occp t (F + 2) (some n), x ≠ n → x ≠ pp →
      pnd.left ≠ some x → getNode t' x = getNode t x) :
    chk t' (F + 3) (some pp) lo hi pa = true ∧
    (occp t' (F + 3) (some pp)).Perm (occp t (F + 2) (some n)) ∧
    (keysOf t' (F + 3) (some pp)).Perm (keysOf t (F + 2) (some n)) := by
  have hchk1 := hchk
  rw [chk, hn] at hchk1
  dsimp only at hchk1
  simp only [Bool.and_eq_true] at hchk1
  obtain ⟨⟨⟨⟨hlon, hhin⟩, hpan⟩, hchkA⟩, hchkP0⟩ := hchk1
  rw [hr] at hchkP0
  have hchkP := hchkP0
  rw [chk, hp] at hchkP
  dsimp only at hchkP
  simp only [Bool.and_eq_true] at hchkP
  obtain ⟨⟨⟨⟨hlop, hhip⟩, hppar⟩, hchkB⟩, hchkC⟩ := hchkP
  have hknp : nnd.value.1 < pnd.value.1 := by simpa [inLo] using hlop
  -- occurrence decomposition of the original subtree
  have hoccn : occp t (F + 2) (some n) =
      n :: (occp t (F + 1) nnd.left ++ occp t (F + 1) nnd.right) := by
    rw [occp, hn]
  have hoccpp : occp t (F + 1) (some pp) =
      pp :: (occp t F pnd.left ++ occp t F pnd.right) := by
    rw [occp, hp]
  have hoccn' : occp t (F + 2) (some n) =
      n :: (occp t (F + 1) nnd.left ++
        (pp :: (occp t F pnd.left ++ occp t F pnd.right))) := by
    rw [hoccn, hr, hoccpp]
  have hnodup' := hnodup
  rw [hoccn'] at hnodup'
  have hnA : n ∉ occp t (F + 1) nnd.left := fun h =>
    (List.nodup_cons.mp hnodup').1 (List.mem_append_left _ h)
  have hnpp : n ≠ pp := fun h =>
    (List.nodup_cons.mp hnodup').1 (List.mem_append_right _
      (h ▸ List.mem_cons_self _ _))
  have hnB : n ∉ occp t F pnd.left := fun h =>
    (List.nodup_cons.mp hnodup').1 (List.mem_append_right _
      (List.mem_cons_of_mem _ (List.mem_append_left _ h)))
  have hnC : n ∉ occp t F pnd.right := fun h =>
    (List.nodup_cons.mp hnodup').1 (List.mem_append_right _
      (List.mem_cons_of_mem _ (List.mem_append_right _ h)))
  have htail := (List.nodup_cons.mp hnodup').2
  have hAnodup : (occp t (F + 1) nnd.left).Nodup :=
    (List.nodup_append.mp htail).1
  have hPnodup : (pp :: (occp t F pnd.left ++ occp t F pnd.right)).Nodup :=
    (List.nodup_append.mp htail).2.1
  have hAdisj := (List.nodup_append.mp htail).2.2
  have hppA : pp ∉ occp t (F + 1) nnd.left := fun h =>
    hAdisj h (List.mem_cons_self _ _)
  have hAB : ∀ x ∈ occp t (F + 1) nnd.left, x ∉ occp t F pnd.left := by
    intro x hx hx2
    exact hAdisj hx (List.mem_cons_of_mem _ (List.mem_append_left _ hx2))
  have hAC : ∀ x ∈ occp t (F + 1) nnd.left, x ∉ occp t F pnd.right := by
    intro x hx hx2
    exact hAdisj hx (List.mem_cons_of_mem _ (List.mem_append_right _ hx2))
  have hppBC := (List.nodup_cons.mp hPnodup).1
  have hppB : pp ∉ occp t F pnd.left := fun h =>
    hppBC (List.mem_append_left _ h)
  have hppC : pp ∉ occp t F pnd.right := fun h =>
    hppBC (List.mem_append_right _ h)
  have hBCnodup := (List.nodup_cons.mp hPnodup).2
  have hBnodup : (occp t F pnd.left).Nodup :=
    (List.nodup_append.mp hBCnodup).1
  have hCnodup : (occp t F pnd.right).Nodup :=
    (List.nodup_append.mp hBCnodup).2.1
  have hBC := (List.nodup_append.mp hBCnodup).2.2
  -- membership of B's root, when B is nonempty
  have hplB : ∀ pli, pnd.left = some pli → pli ∈ occp t F pnd.left := by
    intro pli hpl
    rw [hpl]
    rw [hpl] at hchkB
    exact mem_occ_self hchkB
  -- the left subtree A is untouched
  have hfrA : ∀ x ∈ occp t (F + 1) nnd.left,
      (getNode t' x).map core = (getNode t x).map core := by
    intro x hx
    rw [h4 x (by
        rw [hoccn]
        exact List.mem_cons_of_mem _ (List.mem_append_left _ hx))
      (fun he => hnA (he ▸ hx)) (fun he => hppA (he ▸ hx))
      (fun he => hAB x hx (hplB x he))]
  have hA := chk_frame (F + 1) nnd.left lo (some nnd.value.1) (some n)
    hchkA hfrA
  -- the far subtree C is untouched
  have hfrC : ∀ x ∈ occp t F pnd.right,
      (getNode t' x).map core = (getNode t x).map core := by
    intro x hx
    rw [h4 x (by
        rw [hoccn']
        exact List.mem_cons_of_mem _ (List.mem_append_right _
          (List.mem_cons_of_mem _ (List.mem_append_right _ hx))))
      (fun he => hnC (he ▸ hx)) (fun he => hppC (he ▸ hx))
      (fun he => hBC (hplB x he) hx)]
  have hC := chk_frame F pnd.right (some pnd.value.1) hi (some pp)
    hchkC hfrC
  -- the near subtree B keeps its shape; only its root is reparented
  have hBres : chk t' (F + 1) pnd.left (some nnd.value.1)
      (some pnd.value.1) (some n) = true ∧
      occp t' (F + 1) pnd.left = occp t F pnd.left ∧
      keysOf t' (F + 1) pnd.left = keysOf t F pnd.left := by
    cases hpl : pnd.left with
    | none =>
      exact ⟨chk_none _ _ _ _ _, by simp [occp_none], by simp [keysOf_none]⟩
    | some pli =>
      rw [hpl] at hchkB
      cases F with
      | zero => exact absurd hchkB (by unfold chk; simp)
      | succ m =>
        obtain ⟨plnd, hplnd⟩ := chk_node hchkB
        have hchkB' := hchkB
        rw [chk, hplnd] at hchkB'
        dsimp only at hchkB'
        simp only [Bool.and_eq_true] at hchkB'
        obtain ⟨⟨⟨⟨hlopl, hhipl⟩, hplpar⟩, hchkBL⟩, hchkBR⟩ := hchkB'
        have hoccB : occp t (m + 1) (some pli) =
            pli :: (occp t m plnd.left ++ occp t m plnd.right) := by
          rw [occp, hplnd]
        have hBint : ∀ x, (x ∈ occp t m plnd.left ∨
            x ∈ occp t m plnd.right) →
            (getNode t' x).map core = (getNode t x).map core := by
          intro x hx
          have hxB : x ∈ occp t (m + 1) (some pli) := by
            rw [hoccB]
            rcases hx with h | h
            · exact List.mem_cons_of_mem _ (List.mem_append_left _ h)
            · exact List.mem_cons_of_mem _ (List.mem_append_right _ h)
          have hxB' : x ∈ occp t (m + 1) pnd.left := by rw [hpl]; exact hxB
          have hxpli : x ≠ pli := by
            intro he
            subst he
            rw [hoccB] at hxB
            have := List.nodup_cons.mp (by rw [hpl] at hBnodup; rw [hoccB] at hBnodup; exact hBnodup)
            rcases hx with h | h
            · exact this.1 (List.mem_append_left _ h)
            · exact this.1 (List.mem_append_right _ h)
          rw [h4 x (by
              rw [hoccn']
              exact List.mem_cons_of_mem _ (List.mem_append_right _
                (List.mem_cons_of_mem _ (List.mem_append_left _ hxB')))
              )
            (fun he => hnB (he ▸ hxB')) (fun he => hppB (he ▸ hxB'))
            (by rw [hpl]; intro he; exact hxpli (Option.some_inj.mp he.symm))]
        have hBL := chk_frame m plnd.left (some nnd.value.1)
          (some plnd.value.1) (some pli) hchkBL
          (fun x hx => hBint x (Or.inl hx))
        have hBR := chk_frame m plnd.right (some plnd.value.1)
          (some pnd.value.1) (some pli) hchkBR
          (fun x hx => hBint x (Or.inr hx))
        have hpli' := h3 pli plnd hpl hplnd
        refine ⟨?_, ?_, ?_⟩
        · rw [chk, hpli']
          dsimp only
          simp only [Bool.and_eq_true]
          exact ⟨⟨⟨⟨hlopl, hhipl⟩, by simp⟩,
            chk_mono m (m + 1) plnd.left (some nnd.value.1)
              (some plnd.value.1) (some pli) hBL.1 (by omega)⟩,
            chk_mono m (m + 1) plnd.right (some plnd.value.1)
              (some pnd.value.1) (some pli) hBR.1 (by omega)⟩
        · rw [occp, hpli']
          dsimp only
          rw [hoccB]
          have hmL := occp_keysOf_mono m (m + 1) plnd.left
            (some nnd.value.1) (some plnd.value.1) (some pli) hBL.1
            (by omega)
          have hmR := occp_keysOf_mono m (m + 1) plnd.right
            (some plnd.value.1) (some pnd.value.1) (some pli) hBR.1
            (by omega)
          rw [hmL.1, hmR.1, hBL.2.1, hBR.2.1]
        · rw [keysOf, hpli']
          dsimp only
          rw [show keysOf t (m + 1) (some pli) =
            plnd.value.1 :: (keysOf t m plnd.left ++ keysOf t m plnd.right)
            from by rw [keysOf, hplnd]]
          have hmL := occp_keysOf_mono m (m + 1) plnd.left
            (some nnd.value.1) (some plnd.value.1) (some pli) hBL.1
            (by omega)
          have hmR := occp_keysOf_mono m (m + 1) plnd.right
            (some plnd.value.1) (some pnd.value.1) (some pli) hBR.1
            (by omega)
          rw [hmL.2, hmR.2, hBL.2.2, hBR.2.2]
  -- the rebuilt node n
  have hnchk : chk t' (F + 2) (some n) lo (some pnd.value.1)
      (some pp) = true := by
    rw [chk, h1]
    dsimp only
    simp only [Bool.and_eq_true]
    exact ⟨⟨⟨⟨hlon, by simp [inHi]; omega⟩, by simp⟩, hA.1⟩, hBres.1⟩
  -- the rebuilt root pp
  refine ⟨?_, ?_, ?_⟩
  · rw [chk, h2]
    dsimp only
    simp only [Bool.and_eq_true]
    exact ⟨⟨⟨⟨inLo_trans hknp hlon, hhip⟩, by simp⟩,
      chk_mono (F + 2) (F + 2) (some n) lo (some pnd.value.1) (some pp)
        hnchk (by omega)⟩,
      chk_mono F (F + 2) pnd.right (some pnd.value.1) hi (some pp)
        hC.1 (by omega)⟩
  · have hoccA' : occp t' (F + 1) nnd.left = occp t (F + 1) nnd.left :=
      hA.2.1
    have hoccC' : occp t' (F + 2) pnd.right = occp t F pnd.right := by
      have := occp_keysOf_mono F (F + 2) pnd.right (some pnd.value.1) hi
        (some pp) hC.1 (by omega)
      exact this.1.trans hC.2.1
    have hoccn2 : occp t' (F + 2) (some n) =
        n :: (occp t (F + 1) nnd.left ++ occp t F pnd.left) := by
      rw [occp, h1]
      dsimp only
      rw [hoccA', hBres.2.1]
    have hocc' : occp t' (F + 3) (some pp) =
        pp :: n :: ((occp t (F + 1) nnd.left ++ occp t F pnd.left) ++
          occp t F pnd.right) := by
      rw [occp, h2]
      dsimp only
      rw [hoccn2, hoccC']
      rfl
    rw [hocc', hoccn']
    rw [List.append_assoc]
    refine List.Perm.symm ?_
    refine List.Perm.trans (List.Perm.cons n List.perm_middle) ?_
    exact List.Perm.swap pp n _
  · have hkeyA' : keysOf t' (F + 1) nnd.left = keysOf t (F + 1) nnd.left :=
      hA.2.2
    have hkeyC' : keysOf t' (F + 2) pnd.right = keysOf t F pnd.right := by
      have := occp_keysOf_mono F (F + 2) pnd.right (some pnd.value.1) hi
        (some pp) hC.1 (by omega)
      exact this.2.trans hC.2.2
    have hkeyn2 : keysOf t' (F + 2) (some n) =
        nnd.value.1 :: (keysOf t (F + 1) nnd.left ++
          keysOf t F pnd.left) := by
      rw [keysOf, h1]
      dsimp only
      rw [hkeyA', hBres.2.2]
    have hkey' : keysOf t' (F + 3) (some pp) =
        pnd.value.1 :: nnd.value.1 :: ((keysOf t (F + 1) nnd.left ++
          keysOf t F pnd.left) ++ keysOf t F pnd.right) := by
      rw [keysOf, h2]
      dsimp only
      rw [hkeyn2, hkeyC']
      rfl
    have hkeyn' : keysOf t (F + 2) (some n) =
        nnd.value.1 :: (keysOf t (F + 1) nnd.left ++
          (pnd.value.1 :: (keysOf t F pnd.left ++
            keysOf t F pnd.right))) := by
      rw [keysOf, hn]
      dsimp only
      rw [hr]
      rw [show keysOf t (F + 1) (some pp) =
        pnd.value.1 :: (keysOf t F pnd.left ++ keysOf t F pnd.right)
        from by rw [keysOf, hp]]
    rw [hkey', hkeyn']
    rw [List.append_assoc]
    refine List.Perm.symm ?_
    refine List.Perm.trans (List.Perm.cons nnd.value.1 List.perm_middle) ?_
    exact List.Perm.swap pnd.value.1 nnd.value.1 _

/-- Mirror of `rebuildL`: rebuilding lemma for a RIGHT rotation at the root
`n` of a checked subtree with left child `pp`. -/
theorem rebuildR {t t' : MapNN} {n pp : Nat} {nnd pnd : TNode (Nat × Nat)}
    {F : Nat} {lo hi pa : Option Nat}
    (hn : getNode t n = some nnd) (hr : nnd.left = some pp)
    (hp : getNode t pp = some pnd)
    (hchk : chk t (F + 2) (some n) lo hi pa = true)
    (hnodup : (occp t (F + 2) (some n)).Nodup)
    (h1 : getNode t' n = some { nnd with parent := some pp, left := pnd.right })
    (h2 : getNode t' pp = some { pnd with parent := pa, right := some n })
    (h3 : ∀ pri prnd, pnd.right = some pri → getNode t pri = some prnd →
      getNode t' pri = some { prnd with parent := some n })
    (h4 : ∀ x ∈ occp t (F + 2) (some n), x ≠ n → x ≠ pp →
      pnd.right ≠ some x → getNode t' x = getNode t x) :
    chk t' (F + 3) (some pp) lo hi pa = true ∧
    (occp t' (F + 3) (some pp)).Perm (occp t (F + 2) (some n)) ∧
    (keysOf t' (F + 3) (some pp)).Perm (keysOf t (F + 2) (some n)) := by
  have hchk1 := hchk
  rw [chk, hn] at hchk1
  dsimp only at hchk1
  simp only [Bool.and_eq_true] at hchk1
  obtain ⟨⟨⟨⟨hlon, hhin⟩, hpan⟩, hchkP0⟩, hchkA⟩ := hchk1
  rw [hr] at hchkP0
  have hchkP := hchkP0
  rw [chk, hp] at hchkP
  dsimp only at hchkP
  simp only [Bool.and_eq_true] at hchkP
  obtain ⟨⟨⟨⟨hlop, hhip⟩, hppar⟩, hchkC⟩, hchkB⟩ := hchkP
  have hknp : pnd.value.1 < nnd.value.1 := by simpa [inHi] using hhip
  -- occurrence decomposition of the original subtree
  have hoccn : occp t (F + 2) (some n) =
      n :: (occp t (F + 1) nnd.left ++ occp t (F + 1) nnd.right) := by
    rw [occp, hn]
  have hoccpp : occp t (F + 1) (some pp) =
      pp :: (occp t F pnd.left ++ occp t F pnd.right) := by
    rw [occp, hp]
  have hoccn' : occp t (F + 2) (some n) =
      n :: ((pp :: (occp t F pnd.left ++ occp t F pnd.right)) ++
        occp t (F + 1) nnd.right) := by
    rw [hoccn, hr, hoccpp]
  have hnodup' := hnodup
  rw [hoccn'] at hnodup'
  have hnA : n ∉ occp t (F + 1) nnd.right := fun h =>
    (List.nodup_cons.mp hnodup').1 (List.mem_append_right _ h)
  have hnpp : n ≠ pp := fun h =>
    (List.nodup_cons.mp hnodup').1 (List.mem_append_left _
      (h ▸ List.mem_cons_self _ _))
  have hnC : n ∉ occp t F pnd.left := fun h =>
    (List.nodup_cons.mp hnodup').1 (List.mem_append_left _
      (List.mem_cons_of_mem _ (List.mem_append_left _ h)))
  have hnB : n ∉ occp t F pnd.right := fun h =>
    (List.nodup_cons.mp hnodup').1 (List.mem_append_left _
      (List.mem_cons_of_mem _ (List.mem_append_right _ h)))
  have htail := (List.nodup_cons.mp hnodup').2
  have hPnodup : (pp :: (occp t F pnd.left ++ occp t F pnd.right)).Nodup :=
    (List.nodup_append.mp htail).1
  have hAnodup : (occp t (F + 1) nnd.right).Nodup :=
    (List.nodup_append.mp htail).2.1
  have hPdisj := (List.nodup_append.mp htail).2.2
  have hppA : pp ∉ occp t (F + 1) nnd.right :=
    hPdisj (List.mem_cons_self _ _)
  have hCA : ∀ x ∈ occp t F pnd.left, x ∉ occp t (F + 1) nnd.right := by
    intro x hx
    exact hPdisj (List.mem_cons_of_mem _ (List.mem_append_left _ hx))
  have hBA : ∀ x ∈ occp t F pnd.right, x ∉ occp t (F + 1) nnd.right := by
    intro x hx
    exact hPdisj (List.mem_cons_of_mem _ (List.mem_append_right _ hx))
  have hppCB := (List.nodup_cons.mp hPnodup).1
  have hppC : pp ∉ occp t F pnd.left := fun h =>
    hppCB (List.mem_append_left _ h)
  have hppB : pp ∉ occp t F pnd.right := fun h =>
    hppCB (List.mem_append_right _ h)
  have hCBnodup := (List.nodup_cons.mp hPnodup).2
  have hCnodup : (occp t F pnd.left).Nodup :=
    (List.nodup_append.mp hCBnodup).1
  have hBnodup : (occp t F pnd.right).Nodup :=
    (List.nodup_append.mp hCBnodup).2.1
  have hCB := (List.nodup_append.mp hCBnodup).2.2
  -- membership of B's root, when B is nonempty
  have hprB : ∀ pri, pnd.right = some pri → pri ∈ occp t F pnd.right := by
    intro pri hpr
    rw [hpr]
    rw [hpr] at hchkB
    exact mem_occ_self hchkB
  -- the right subtree A is untouched
  have hfrA : ∀ x ∈ occp t (F + 1) nnd.right,
      (getNode t' x).map core = (getNode t x).map core := by
    intro x hx
    rw [h4 x (by
        rw [hoccn]
        exact List.mem_cons_of_mem _ (List.mem_append_right _ hx))
      (fun he => hnA (he ▸ hx)) (fun he => hppA (he ▸ hx))
      (fun he => hBA x (hprB x he) hx)]
  have hA := chk_frame (F + 1) nnd.right (some nnd.value.1) hi (some n)
    hchkA hfrA
  -- the far subtree C is untouched
  have hfrC : ∀ x ∈ occp t F pnd.left,
      (getNode t' x).map core = (getNode t x).map core := by
    intro x hx
    rw [h4 x (by
        rw [hoccn']
        exact List.mem_cons_of_mem _ (List.mem_append_left _
          (List.mem_cons_of_mem _ (List.mem_append_left _ hx))))
      (fun he => hnC (he ▸ hx)) (fun he => hppC (he ▸ hx))
      (fun he => hCB hx (hprB x he))]
  have hC := chk_frame F pnd.left lo (some pnd.value.1) (some pp)
    hchkC hfrC
  -- the near subtree B keeps its shape; only its root is reparented
  have hBres : chk t' (F + 1) pnd.right (some pnd.value.1)
      (some nnd.value.1) (some n) = true ∧
      occp t' (F + 1) pnd.right = occp t F pnd.right ∧
      keysOf t' (F + 1) pnd.right = keysOf t F pnd.right := by
    cases hpr : pnd.right with
    | none =>
      exact ⟨chk_none _ _ _ _ _, by simp [occp_none], by simp [keysOf_none]⟩
    | some pri =>
      rw [hpr] at hchkB
      cases F with
      | zero => exact absurd hchkB (by unfold chk; simp)
      | succ m =>
        obtain ⟨prnd, hprnd⟩ := chk_node hchkB
        have hchkB' := hchkB
        rw [chk, hprnd] at hchkB'
        dsimp only at hchkB'
        simp only [Bool.and_eq_true] at hchkB'
        obtain ⟨⟨⟨⟨hlopl, hhipl⟩, hplpar⟩, hchkBL⟩, hchkBR⟩ := hchkB'
        have hoccB : occp t (m + 1) (some pri) =
            pri :: (occp t m prnd.left ++ occp t m prnd.right) := by
          rw [occp, hprnd]
        have hBint : ∀ x, (x ∈ occp t m prnd.left ∨
            x ∈ occp t m prnd.right) →
            (getNode t' x).map core = (getNode t x).map core := by
          intro x hx
          have hxB : x ∈ occp t (m + 1) (some pri) := by
            rw [hoccB]
            rcases hx with h | h
            · exact List.mem_cons_of_mem _ (List.mem_append_left _ h)
            · exact List.mem_cons_of_mem _ (List.mem_append_right _ h)
          have hxB' : x ∈ occp t (m + 1) pnd.right := by rw [hpr]; exact hxB
          have hxpri : x ≠ pri := by
            intro he
            subst he
            rw [hoccB] at hxB
            have := List.nodup_cons.mp (by rw [hpr] at hBnodup; rw [hoccB] at hBnodup; exact hBnodup)
            rcases hx with h | h
            · exact this.1 (List.mem_append_left _ h)
            · exact this.1 (List.mem_append_right _ h)
          rw [h4 x (by
              rw [hoccn']
              exact List.mem_cons_of_mem _ (List.mem_append_left _
                (List.mem_cons_of_mem _ (List.mem_append_right _ hxB')))
              )
            (fun he => hnB (he ▸ hxB')) (fun he => hppB (he ▸ hxB'))
            (by rw [hpr]; intro he; exact hxpri (Option.some_inj.mp he.symm))]
        have hBL := chk_frame m prnd.left (some pnd.value.1)
          (some prnd.value.1) (some pri) hchkBL
          (fun x hx => hBint x (Or.inl hx))
        have hBR := chk_frame m prnd.right (some prnd.value.1)
          (some nnd.value.1) (some pri) hchkBR
          (fun x hx => hBint x (Or.inr hx))
        have hpri' := h3 pri prnd hpr hprnd
        refine ⟨?_, ?_, ?_⟩
        · rw [chk, hpri']
          dsimp only
          simp only [Bool.and_eq_true]
          exact ⟨⟨⟨⟨hlopl, hhipl⟩, by simp⟩,
            chk_mono m (m + 1) prnd.left (some pnd.value.1)
              (some prnd.value.1) (some pri) hBL.1 (by omega)⟩,
            chk_mono m (m + 1) prnd.right (some prnd.value.1)
              (some nnd.value.1) (some pri) hBR.1 (by omega)⟩
        · rw [occp, hpri']
          dsimp only
          rw [hoccB]
          have hmL := occp_keysOf_mono m (m + 1) prnd.left
            (some pnd.value.1) (some prnd.value.1) (some pri) hBL.1
            (by omega)
          have hmR := occp_keysOf_mono m (m + 1) prnd.right
            (some prnd.value.1) (some nnd.value.1) (some pri) hBR.1
            (by omega)
          rw [hmL.1, hmR.1, hBL.2.1, hBR.2.1]
        · rw [keysOf, hpri']
          dsimp only
          rw [show keysOf t (m + 1) (some pri) =
            prnd.value.1 :: (keysOf t m prnd.left ++ keysOf t m prnd.right)
            from by rw [keysOf, hprnd]]
          have hmL := occp_keysOf_mono m (m + 1) prnd.left
            (some pnd.value.1) (some prnd.value.1) (some pri) hBL.1
            (by omega)
          have hmR := occp_keysOf_mono m (m + 1) prnd.right
            (some prnd.value.1) (some nnd.value.1) (some pri) hBR.1
            (by omega)
          rw [hmL.2, hmR.2, hBL.2.2, hBR.2.2]
  -- the rebuilt node n
  have hnchk : chk t' (F + 2) (some n) (some pnd.value.1) hi
      (some pp) = true := by
    rw [chk, h1]
    dsimp only
    simp only [Bool.and_eq_true]
    exact ⟨⟨⟨⟨by simp [inLo]; omega, hhin⟩, by simp⟩, hBres.1⟩, hA.1⟩
  -- the rebuilt root pp
  refine ⟨?_, ?_, ?_⟩
  · rw [chk, h2]
    dsimp only
    simp only [Bool.and_eq_true]
    exact ⟨⟨⟨⟨hlop, inHi_trans hknp hhin⟩, by simp⟩,
      chk_mono F (F + 2) pnd.left lo (some pnd.value.1) (some pp)
        hC.1 (by omega)⟩,
      chk_mono (F + 2) (F + 2) (some n) (some pnd.value.1) hi (some pp)
        hnchk (by omega)⟩
  · have hoccA' : occp t' (F + 1) nnd.right = occp t (F + 1) nnd.right :=
      hA.2.1
    have hoccC' : occp t' (F + 2) pnd.left = occp t F pnd.left := by
      have := occp_keysOf_mono F (F + 2) pnd.left lo (some pnd.value.1)
        (some pp) hC.1 (by omega)
      exact this.1.trans hC.2.1
    have hoccn2 : occp t' (F + 2) (some n) =
        n :: (occp t F pnd.right ++ occp t (F + 1) nnd.right) := by
      rw [occp, h1]
      dsimp only
      rw [hoccA', hBres.2.1]
    have hocc' : occp t' (F + 3) (some pp) =
        pp :: (occp t F pnd.left ++
          n :: (occp t F pnd.right ++ occp t (F + 1) nnd.right)) := by
      rw [occp, h2]
      dsimp only
      rw [hoccn2, hoccC']
    rw [hocc', hoccn']
    rw [List.cons_append, List.append_assoc]
    refine List.Perm.symm ?_
    refine List.Perm.trans (List.Perm.swap pp n _) ?_
    exact List.Perm.cons pp (List.Perm.symm List.perm_middle)
  · have hkeyA' : keysOf t' (F + 1) nnd.right = keysOf t (F + 1) nnd.right :=
      hA.2.2
    have hkeyC' : keysOf t' (F + 2) pnd.left = keysOf t F pnd.left := by
      have := occp_keysOf_mono F (F + 2) pnd.left lo (some pnd.value.1)
        (some pp) hC.1 (by omega)
      exact this.2.trans hC.2.2
    have hkeyn2 : keysOf t' (F + 2) (some n) =
        nnd.value.1 :: (keysOf t F pnd.right ++
          keysOf t (F + 1) nnd.right) := by
      rw [keysOf, h1]
      dsimp only
      rw [hkeyA', hBres.2.2]
    have hkey' : keysOf t' (F + 3) (some pp) =
        pnd.value.1 :: (keysOf t F pnd.left ++
          nnd.value.1 :: (keysOf t F pnd.right ++
            keysOf t (F + 1) nnd.right)) := by
      rw [keysOf, h2]
      dsimp only
      rw [hkeyn2, hkeyC']
    have hkeyn' : keysOf t (F + 2) (some n) =
        nnd.value.1 :: ((pnd.value.1 :: (keysOf t F pnd.left ++
          keysOf t F pnd.right)) ++ keysOf t (F + 1) nnd.right) := by
      rw [keysOf, hn]
      dsimp only
      rw [hr]
      rw [show keysOf t (F + 1) (some pp) =
        pnd.value.1 :: (keysOf t F pnd.left ++ keysOf t F pnd.right)
        from by rw [keysOf, hp]]
    rw [hkey', hkeyn']
    rw [List.cons_append, List.append_assoc]
    refine List.Perm.symm ?_
    refine List.Perm.trans (List.Perm.swap pnd.value.1 nnd.value.1 _) ?_
    exact List.Perm.cons pnd.value.1 (List.Perm.symm List.perm_middle)

theorem parentOf_eq {t : MapNN} {i : Nat} {nd : TNode (Nat × Nat)}
    (h : getNode t i = some nd) : parentOf t (some i) = nd.parent := by
  simp [parentOf, getNodeOpt, h]

/-- `RotateLeft` at a live node with a live right child, reduced to its
explicit sequence of slot rewrites. -/
theorem rotateLeft_reduce {t : MapNN} {n pp : Nat}
    {nnd pnd : TNode (Nat × Nat)}
    (hn : getNode t n = some nnd) (hr : nnd.right = some pp)
    (hp : getNode t pp = some pnd) :
    rotateLeft t (some n) =
      (let t1 := updNode t n (fun nd => { nd with right := pnd.left });
       let t2 := match pnd.left with
         | some pli => updNode t1 pli (fun nd => { nd with parent := some n })
         | none => t1;
       let t3 := updNode t2 pp (fun nd => { nd with parent := nnd.parent });
       let t4 := match nnd.parent with
         | none => { t3 with root := some pp }
         | some npi =>
           if leftOf t3 (some npi) = some n then
             updNode t3 npi (fun nd => { nd with left := some pp })
           else updNode t3 npi (fun nd => { nd with right := some pp });
       let t5 := updNode t4 pp (fun nd => { nd with left := some n });
       let t6 := updNode t5 n (fun nd => { nd with parent := some pp });
       (t6, some pp)) := by
  unfold rotateLeft
  dsimp only
  rw [show rightOf t (some n) = some pp from by rw [rightOf_eq hn, hr]]
  dsimp only
  rw [show leftOf t (some pp) = pnd.left from leftOf_eq hp]
  rw [show parentOf t (some n) = nnd.parent from parentOf_eq hn]

/-- Mirror: `RotateRight` at a live node with a live left child. -/
theorem rotateRight_reduce {t : MapNN} {n pp : Nat}
    {nnd pnd : TNode (Nat × Nat)}
    (hn : getNode t n = some nnd) (hr : nnd.left = some pp)
    (hp : getNode t pp = some pnd) :
    rotateRight t (some n) =
      (let t1 := updNode t n (fun nd => { nd with left := pnd.right });
       let t2 := match pnd.right with
         | some pri => updNode t1 pri (fun nd => { nd with parent := some n })
         | none => t1;
       let t3 := updNode t2 pp (fun nd => { nd with parent := nnd.parent });
       let t4 := match nnd.parent with
         | none => { t3 with root := some pp }
         | some npi =>
           if leftOf t3 (some npi) = some n then
             updNode t3 npi (fun nd => { nd with left := some pp })
           else updNode t3 npi (fun nd => { nd with right := some pp });
       let t5 := updNode t4 pp (fun nd => { nd with right := some n });
       let t6 := updNode t5 n (fun nd => { nd with parent := some pp });
       (t6, some pp)) := by
  unfold rotateRight
  dsimp only
  rw [show leftOf t (some n) = some pp from by rw [leftOf_eq hn, hr]]
  dsimp only
  rw [show rightOf t (some pp) = pnd.right from rightOf_eq hp]
  rw [show parentOf t (some n) = nnd.parent from parentOf_eq hn]

/-- Membership facts shared by the rotation wrappers: the rotated node, its
lifted child and that child's near grandchild are all visited indices, and
are pairwise distinct. -/
theorem rotL_mem {t : MapNN} {n pp : Nat} {nnd pnd : TNode (Nat × Nat)}
    {F : Nat} {lo hi pa : Option Nat}
    (hn : getNode t n = some nnd) (hr : nnd.right = some pp)
    (hp : getNode t pp = some pnd)
    (hchk : chk t (F + 2) (some n) lo hi pa = true)
    (hnodup : (occp t (F + 2) (some n)).Nodup) :
    n ∈ occp t (F + 2) (some n) ∧ pp ∈ occp t (F + 2) (some n) ∧
    n ≠ pp ∧
    (∀ pli, pnd.left = some pli → pli ∈ occp t (F + 2) (some n) ∧
      pli ≠ n ∧ pli ≠ pp) := by
  have hchk1 := hchk
  rw [chk, hn] at hchk1
  dsimp only at hchk1
  simp only [Bool.and_eq_true] at hchk1
  have hchkP0 := hchk1.2
  rw [hr] at hchkP0
  have hchkP := hchkP0
  rw [chk, hp] at hchkP
  dsimp only at hchkP
  simp only [Bool.and_eq_true] at hchkP
  have hchkB := hchkP.1.2
  have hoccn : occp t (F + 2) (some n) =
      n :: (occp t (F + 1) nnd.left ++ occp t (F + 1) nnd.right) := by
    rw [occp, hn]
  have hoccpp : occp t (F + 1) (some pp) =
      pp :: (occp t F pnd.left ++ occp t F pnd.right) := by
    rw [occp, hp]
  have hppocc : pp ∈ occp t (F + 1) nnd.right := by
    rw [hr]
    exact mem_occ_self hchkP0
  have hnodup' := hnodup
  rw [hoccn] at hnodup'
  refine ⟨mem_occ_self hchk, by
      rw [hoccn]
      exact List.mem_cons_of_mem _ (List.mem_append_right _ hppocc),
    fun he => (List.nodup_cons.mp hnodup').1
      (he ▸ List.mem_append_right _ hppocc), ?_⟩
  intro pli hpl
  have hchkB' := hchkB
  rw [hpl] at hchkB'
  have hpliB : pli ∈ occp t F pnd.left := hpl ▸ mem_occ_self hchkB'
  have hpliR : pli ∈ occp t (F + 1) nnd.right := by
    rw [hr, hoccpp]
    exact List.mem_cons_of_mem _ (List.mem_append_left _ hpliB)
  refine ⟨by
      rw [hoccn]
      exact List.mem_cons_of_mem _ (List.mem_append_right _ hpliR),
    fun he => (List.nodup_cons.mp hnodup').1
      (he ▸ List.mem_append_right _ hpliR), ?_⟩
  -- pli ≠ pp: the subtree under pp is duplicate-free
  have hPnodup : (occp t (F + 1) nnd.right).Nodup := by
    have := (List.nodup_cons.mp hnodup').2
    exact (List.nodup_append.mp this).2.1
  rw [hr, hoccpp] at hPnodup
  intro he
  exact (List.nodup_cons.mp hPnodup).1 (he ▸ List.mem_append_left _ hpliB)

/-- The first three slot rewrites of `RotateLeft` at `n` with right child
`pp` (whose left pointer is `pnl`): clip `n`'s right to `pnl`, reparent
`pnl`'s node to `n`, reparent `pp` to `pa`. -/
def rotLmid (t : MapNN) (n pp : Nat) (pnl pa : Option Nat) : MapNN :=
  updNode (match pnl with
    | some pli => updNode (updNode t n (fun nd => { nd with right := pnl }))
        pli (fun nd => { nd with parent := some n })
    | none => updNode t n (fun nd => { nd with right := pnl }))
    pp (fun nd => { nd with parent := pa })

/-- The last two slot rewrites of `RotateLeft`: hook `n` under `pp`. -/
def rotLfin (t4 : MapNN) (n pp : Nat) : MapNN :=
  updNode (updNode t4 pp (fun nd => { nd with left := some n })) n
    (fun nd => { nd with parent := some pp })

/-- Mirror of `rotLmid` for `RotateRight`. -/
def rotRmid (t : MapNN) (n pp : Nat) (pnr pa : Option Nat) : MapNN :=
  updNode (match pnr with
    | some pri => updNode (updNode t n (fun nd => { nd with left := pnr }))
        pri (fun nd => { nd with parent := some n })
    | none => updNode t n (fun nd => { nd with left := pnr }))
    pp (fun nd => { nd with parent := pa })

/-- Mirror of `rotLfin` for `RotateRight`. -/
def rotRfin (t4 : MapNN) (n pp : Nat) : MapNN :=
  updNode (updNode t4 pp (fun nd => { nd with right := some n })) n
    (fun nd => { nd with parent := some pp })

/-- The last two slot rewrites of `RotateLeft`, applied to any arena `t4`
agreeing on the rotated subtree with the first three rewrites, rebuild the
subtree rooted at the lifted child `pp`. -/
theorem rotL_chase {t t4 : MapNN} {n pp : Nat} {nnd pnd : TNode (Nat × Nat)}
    {F : Nat} {lo hi pa : Option Nat}
    (hn : getNode t n = some nnd) (hr : nnd.right = some pp)
    (hp : getNode t pp = some pnd)
    (hchk : chk t (F + 2) (some n) lo hi pa = true)
    (hnodup : (occp t (F + 2) (some n)).Nodup)
    (h4eq : ∀ x ∈ occp t (F + 2) (some n), getNode t4 x =
      getNode (rotLmid t n pp pnd.left pa) x) :
    chk (rotLfin t4 n pp) (F + 3) (some pp) lo hi pa = true ∧
    (occp (rotLfin t4 n pp) (F + 3) (some pp)).Perm
      (occp t (F + 2) (some n)) ∧
    (keysOf (rotLfin t4 n pp) (F + 3) (some pp)).Perm
      (keysOf t (F + 2) (some n)) ∧
    (∀ x, x ∉ occp t (F + 2) (some n) →
      getNode (rotLfin t4 n pp) x = getNode t4 x) := by
  unfold rotLmid at h4eq
  unfold rotLfin
  obtain ⟨hnmem, hppmem, hnpp, hpli⟩ :=
    rotL_mem hn hr hp hchk hnodup
  -- the first three rewrites, named
  have ht1n : getNode (updNode t n
      (fun nd => { nd with right := pnd.left })) n =
      some { nnd with right := pnd.left } :=
    getNode_updNode_self hn _
  have ht1o : ∀ x, x ≠ n → getNode (updNode t n
      (fun nd => { nd with right := pnd.left })) x = getNode t x :=
    fun x hx => getNode_updNode_ne t n x _ (fun he => hx he.symm)
  have ht2n : getNode (match pnd.left with
      | some pli => updNode (updNode t n
          (fun nd => { nd with right := pnd.left })) pli
          (fun nd => { nd with parent := some n })
      | none => updNode t n (fun nd => { nd with right := pnd.left })) n =
      some { nnd with right := pnd.left } := by
    cases hpl : pnd.left with
    | none =>
      rw [hpl] at ht1n
      dsimp only
      exact ht1n
    | some pli =>
      rw [hpl] at ht1n
      dsimp only
      rw [getNode_updNode_ne _ pli n _
        (fun he => (hpli pli hpl).2.1 he)]
      exact ht1n
  have ht2o : ∀ x, x ≠ n → (∀ pli, pnd.left = some pli → x ≠ pli) →
      getNode (match pnd.left with
      | some pli => updNode (updNode t n
          (fun nd => { nd with right := pnd.left })) pli
          (fun nd => { nd with parent := some n })
      | none => updNode t n (fun nd => { nd with right := pnd.left })) x =
      getNode t x := by
    intro x hxn hxpl
    cases hpl : pnd.left with
    | none =>
      rw [hpl] at ht1o
      dsimp only
      exact ht1o x hxn
    | some pli =>
      rw [hpl] at ht1o
      dsimp only
      rw [getNode_updNode_ne _ pli x _
        (fun he => hxpl pli hpl he.symm)]
      exact ht1o x hxn
  have ht2pli : ∀ pli plnd, pnd.left = some pli → getNode t pli = some plnd →
      getNode (match pnd.left with
      | some pli => updNode (updNode t n
          (fun nd => { nd with right := pnd.left })) pli
          (fun nd => { nd with parent := some n })
      | none => updNode t n (fun nd => { nd with right := pnd.left })) pli =
      some { plnd with parent := some n } := by
    intro pli plnd hpl hplnd
    rw [hpl]
    dsimp only
    have hbase : getNode (updNode t n
        (fun nd => { nd with right := some pli })) pli = some plnd := by
      rw [getNode_updNode_ne t n pli _
        (fun he => (hpli pli hpl).2.1 he.symm)]
      exact hplnd
    exact getNode_updNode_self hbase _
  -- t3 := the parent rewrite of pp
  have ht2pp : getNode (match pnd.left with
      | some pli => updNode (updNode t n
          (fun nd => { nd with right := pnd.left })) pli
          (fun nd => { nd with parent := some n })
      | none => updNode t n (fun nd => { nd with right := pnd.left })) pp =
      some pnd := by
    rw [ht2o pp (fun he => hnpp he.symm)
      (fun pli hpl he => (hpli pli hpl).2.2 he.symm)]
    exact hp
  have ht3pp : getNode (updNode (match pnd.left with
      | some pli => updNode (updNode t n
          (fun nd => { nd with right := pnd.left })) pli
          (fun nd => { nd with parent := some n })
      | none => updNode t n (fun nd => { nd with right := pnd.left }))
      pp (fun nd => { nd with parent := pa })) pp =
      some { pnd with parent := pa } :=
    getNode_updNode_self ht2pp _
  have ht3o : ∀ x, x ≠ pp → getNode (updNode (match pnd.left with
      | some pli => updNode (updNode t n
          (fun nd => { nd with right := pnd.left })) pli
          (fun nd => { nd with parent := some n })
      | none => updNode t n (fun nd => { nd with right := pnd.left }))
      pp (fun nd => { nd with parent := pa })) x =
      getNode (match pnd.left with
      | some pli => updNode (updNode t n
          (fun nd => { nd with right := pnd.left })) pli
          (fun nd => { nd with parent := some n })
      | none => updNode t n (fun nd => { nd with right := pnd.left })) x :=
    fun x hx => getNode_updNode_ne _ pp x _ (fun he => hx he.symm)
  -- pointwise description of t4 on the subtree
  have h4n : getNode t4 n = some { nnd with right := pnd.left } := by
    rw [h4eq n hnmem, ht3o n hnpp, ht2n]
  have h4pp : getNode t4 pp = some { pnd with parent := pa } := by
    rw [h4eq pp hppmem, ht3pp]
  have h4pli : ∀ pli plnd, pnd.left = some pli →
      getNode t pli = some plnd →
      getNode t4 pli = some { plnd with parent := some n } := by
    intro pli plnd hpl hplnd
    rw [h4eq pli (hpli pli hpl).1,
      ht3o pli (hpli pli hpl).2.2, ht2pli pli plnd hpl hplnd]
  have h4o : ∀ x ∈ occp t (F + 2) (some n), x ≠ n → x ≠ pp →
      (∀ pli, pnd.left = some pli → x ≠ pli) →
      getNode t4 x = getNode t x := by
    intro x hx hxn hxpp hxpl
    rw [h4eq x hx, ht3o x hxpp, ht2o x hxn hxpl]
  -- the last two rewrites
  have h5pp : getNode (updNode t4 pp
      (fun nd => { nd with left := some n })) pp =
      some { pnd with parent := pa, left := some n } := by
    have := getNode_updNode_self h4pp (fun nd => { nd with left := some n })
    exact this
  have h5o : ∀ x, x ≠ pp → getNode (updNode t4 pp
      (fun nd => { nd with left := some n })) x = getNode t4 x :=
    fun x hx => getNode_updNode_ne _ pp x _ (fun he => hx he.symm)
  have h6n : getNode (updNode (updNode t4 pp
      (fun nd => { nd with left := some n })) n
      (fun nd => { nd with parent := some pp })) n =
      some { nnd with parent := some pp, right := pnd.left } := by
    have hb : getNode (updNode t4 pp
        (fun nd => { nd with left := some n })) n =
        some { nnd with right := pnd.left } := by
      rw [h5o n hnpp]
      exact h4n
    have := getNode_updNode_self hb (fun nd => { nd with parent := some pp })
    exact this
  have h6o : ∀ x, x ≠ n → getNode (updNode (updNode t4 pp
      (fun nd => { nd with left := some n })) n
      (fun nd => { nd with parent := some pp })) x =
      getNode (updNode t4 pp (fun nd => { nd with left := some n })) x :=
    fun x hx => getNode_updNode_ne _ n x _ (fun he => hx he.symm)
  have h6pp : getNode (updNode (updNode t4 pp
      (fun nd => { nd with left := some n })) n
      (fun nd => { nd with parent := some pp })) pp =
      some { pnd with parent := pa, left := some n } := by
    rw [h6o pp (fun he => hnpp he.symm)]
    exact h5pp
  have h6pli : ∀ pli plnd, pnd.left = some pli →
      getNode t pli = some plnd →
      getNode (updNode (updNode t4 pp
        (fun nd => { nd with left := some n })) n
        (fun nd => { nd with parent := some pp })) pli =
      some { plnd with parent := some n } := by
    intro pli plnd hpl hplnd
    rw [h6o pli (hpli pli hpl).2.1, h5o pli (hpli pli hpl).2.2]
    exact h4pli pli plnd hpl hplnd
  have h6other : ∀ x ∈ occp t (F + 2) (some n), x ≠ n → x ≠ pp →
      pnd.left ≠ some x →
      getNode (updNode (updNode t4 pp
        (fun nd => { nd with left := some n })) n
        (fun nd => { nd with parent := some pp })) x = getNode t x := by
    intro x hx hxn hxpp hxpl
    rw [h6o x hxn, h5o x hxpp]
    exact h4o x hx hxn hxpp
      (fun pli hpl he => hxpl (he ▸ hpl))
  have hreb := rebuildL hn hr hp hchk hnodup h6n h6pp h6pli h6other
  refine ⟨hreb.1, hreb.2.1, hreb.2.2, ?_⟩
  intro x hx
  have hxn : x ≠ n := fun he => hx (he ▸ hnmem)
  have hxpp : x ≠ pp := fun he => hx (he ▸ hppmem)
  rw [h6o x hxn, h5o x hxpp]

/-- Slots outside the rotated subtree are untouched by the first three
rewrites of `RotateLeft`. -/
theorem rotLmid_outside {t : MapNN} {n pp : Nat}
    {nnd pnd : TNode (Nat × Nat)} {F : Nat} {lo hi pa : Option Nat}
    (hn : getNode t n = some nnd) (hr : nnd.right = some pp)
    (hp : getNode t pp = some pnd)
    (hchk : chk t (F + 2) (some n) lo hi pa = true)
    (hnodup : (occp t (F + 2) (some n)).Nodup) :
    ∀ x, x ∉ occp t (F + 2) (some n) →
      getNode (rotLmid t n pp pnd.left pa) x = getNode t x := by
  obtain ⟨hnmem, hppmem, hnpp, hpli⟩ := rotL_mem hn hr hp hchk hnodup
  intro x hx
  have hxn : x ≠ n := fun he => hx (he ▸ hnmem)
  have hxpp : x ≠ pp := fun he => hx (he ▸ hppmem)
  unfold rotLmid
  rw [getNode_updNode_ne _ pp x _ (fun he => hxpp he.symm)]
  cases hpl : pnd.left with
  | none =>
    dsimp only
    exact getNode_updNode_ne t n x _ (fun he => hxn he.symm)
  | some pli =>
    dsimp only
    have hxpli : x ≠ pli := fun he => hx (he ▸ (hpli pli hpl).1)
    rw [getNode_updNode_ne _ pli x _ (fun he => hxpli he.symm)]
    exact getNode_updNode_ne t n x _ (fun he => hxn he.symm)

/-- `RotateLeft` at a node strictly below the root: the parent slot `q`
(outside the subtree) has the child pointer that aimed at `n` redirected to
`pp`; everything else outside the subtree is untouched, and the root
pointer survives. -/
theorem rotL_at_deep {t : MapNN} {n pp q : Nat}
    {nnd qnd : TNode (Nat × Nat)} {F : Nat} {lo hi : Option Nat}
    (hn : getNode t n = some nnd) (hr : nnd.right = some pp)
    (hchk : chk t (F + 2) (some n) lo hi (some q) = true)
    (hnodup : (occp t (F + 2) (some n)).Nodup)
    (hq : getNode t q = some qnd)
    (hqocc : q ∉ occp t (F + 2) (some n)) :
    chk (rotateLeft t (some n)).1 (F + 3) (some pp) lo hi (some q) = true ∧
    (occp (rotateLeft t (some n)).1 (F + 3) (some pp)).Perm
      (occp t (F + 2) (some n)) ∧
    (keysOf (rotateLeft t (some n)).1 (F + 3) (some pp)).Perm
      (keysOf t (F + 2) (some n)) ∧
    getNode (rotateLeft t (some n)).1 q =
      some (if qnd.left = some n then { qnd with left := some pp }
        else { qnd with right := some pp }) ∧
    (∀ x, x ∉ occp t (F + 2) (some n) → x ≠ q →
      getNode (rotateLeft t (some n)).1 x = getNode t x) ∧
    (rotateLeft t (some n)).1.root = t.root := by
  have hchk1 := hchk
  rw [chk, hn] at hchk1
  dsimp only at hchk1
  simp only [Bool.and_eq_true] at hchk1
  have hpan : nnd.parent = some q := by simpa using hchk1.1.1.2
  have hchkP0 := hchk1.2
  rw [hr] at hchkP0
  obtain ⟨pnd, hp⟩ := chk_node hchkP0
  obtain ⟨hnmem, hppmem, hnpp, hpli⟩ := rotL_mem hn hr hp hchk hnodup
  have hqn : q ≠ n := fun he => hqocc (he ▸ hnmem)
  have hqpp : q ≠ pp := fun he => hqocc (he ▸ hppmem)
  have hqpli : ∀ pli, pnd.left = some pli → q ≠ pli :=
    fun pli hpl he => hqocc (he ▸ (hpli pli hpl).1)
  -- the untouched record of q after the first three rewrites
  have hT3q : getNode (rotLmid t n pp pnd.left (some q)) q = some qnd := by
    rw [rotLmid_outside hn hr hp hchk hnodup q hqocc]
    exact hq
  -- reduce the rotation to the named composite
  have heq : (rotateLeft t (some n)).1 =
      rotLfin (if leftOf (rotLmid t n pp pnd.left (some q)) (some q) =
          some n then
        updNode (rotLmid t n pp pnd.left (some q)) q
          (fun nd => { nd with left := some pp })
      else
        updNode (rotLmid t n pp pnd.left (some q)) q
          (fun nd => { nd with right := some pp })) n pp := by
    rw [rotateLeft_reduce hn hr hp, hpan]
    unfold rotLfin rotLmid
    rfl
  rw [heq]
  have h4eq : ∀ x ∈ occp t (F + 2) (some n),
      getNode (if leftOf (rotLmid t n pp pnd.left (some q)) (some q) =
          some n then
        updNode (rotLmid t n pp pnd.left (some q)) q
          (fun nd => { nd with left := some pp })
      else
        updNode (rotLmid t n pp pnd.left (some q)) q
          (fun nd => { nd with right := some pp })) x =
      getNode (rotLmid t n pp pnd.left (some q)) x := by
    intro x hx
    have hxq : x ≠ q := fun he => hqocc (he ▸ hx)
    split
    · exact getNode_updNode_ne _ q x _ (fun he => hxq he.symm)
    · exact getNode_updNode_ne _ q x _ (fun he => hxq he.symm)
  have hchase := rotL_chase hn hr hp hchk hnodup h4eq
  have hcond : leftOf (rotLmid t n pp pnd.left (some q)) (some q) =
      qnd.left := leftOf_eq hT3q
  refine ⟨hchase.1, hchase.2.1, hchase.2.2.1, ?_, ?_, ?_⟩
  · -- the record of q in the rotated tree
    unfold rotLfin
    rw [getNode_updNode_ne _ n q _ (fun he => hqn he.symm),
      getNode_updNode_ne _ pp q _ (fun he => hqpp he.symm)]
    by_cases hql : qnd.left = some n
    · rw [if_pos (by rw [hcond]; exact hql), if_pos hql]
      exact getNode_updNode_self hT3q _
    · rw [if_neg (by rw [hcond]; exact hql), if_neg hql]
      exact getNode_updNode_self hT3q _
  · -- the outside frame
    intro x hx hxq
    rw [hchase.2.2.2 x hx]
    have hmid := rotLmid_outside hn hr hp hchk hnodup x hx
    split
    · rw [getNode_updNode_ne _ q x _ (fun he => hxq he.symm)]
      exact hmid
    · rw [getNode_updNode_ne _ q x _ (fun he => hxq he.symm)]
      exact hmid
  · -- the root pointer survives
    unfold rotLfin
    rw [updNode_root, updNode_root]
    have hmidroot : (rotLmid t n pp pnd.left (some q)).root = t.root := by
      unfold rotLmid
      rw [updNode_root]
      cases pnd.left with
      | none => rw [updNode_root]
      | some pli => rw [updNode_root, updNode_root]
    split
    · rw [updNode_root, hmidroot]
    · rw [updNode_root, hmidroot]

/-- `RotateLeft` at the tree root: afterwards the lifted child `pp` is the
root, and everything outside the old subtree is untouched. -/
theorem rotL_at_root {t : MapNN} {n pp : Nat} {nnd : TNode (Nat × Nat)}
    {F : Nat} {lo hi : Option Nat}
    (hn : getNode t n = some nnd) (hr : nnd.right = some pp)
    (hchk : chk t (F + 2) (some n) lo hi none = true)
    (hnodup : (occp t (F + 2) (some n)).Nodup) :
    chk (rotateLeft t (some n)).1 (F + 3) (some pp) lo hi none = true ∧
    (occp (rotateLeft t (some n)).1 (F + 3) (some pp)).Perm
      (occp t (F + 2) (some n)) ∧
    (keysOf (rotateLeft t (some n)).1 (F + 3) (some pp)).Perm
      (keysOf t (F + 2) (some n)) ∧
    (∀ x, x ∉ occp t (F + 2) (some n) →
      getNode (rotateLeft t (some n)).1 x = getNode t x) ∧
    (rotateLeft t (some n)).1.root = some pp := by
  have hchk1 := hchk
  rw [chk, hn] at hchk1
  dsimp only at hchk1
  simp only [Bool.and_eq_true] at hchk1
  have hpan : nnd.parent = none := by simpa using hchk1.1.1.2
  have hchkP0 := hchk1.2
  rw [hr] at hchkP0
  obtain ⟨pnd, hp⟩ := chk_node hchkP0
  have heq : (rotateLeft t (some n)).1 =
      rotLfin { rotLmid t n pp pnd.left none with root := some pp }
        n pp := by
    rw [rotateLeft_reduce hn hr hp, hpan]
    unfold rotLfin rotLmid
    rfl
  rw [heq]
  have h4eq : ∀ x ∈ occp t (F + 2) (some n),
      getNode { rotLmid t n pp pnd.left none with root := some pp } x =
      getNode (rotLmid t n pp pnd.left none) x := fun x _ => rfl
  have hchase := rotL_chase hn hr hp hchk hnodup h4eq
  refine ⟨hchase.1, hchase.2.1, hchase.2.2.1, ?_, ?_⟩
  · intro x hx
    rw [hchase.2.2.2 x hx]
    exact rotLmid_outside hn hr hp hchk hnodup x hx
  · unfold rotLfin
    rw [updNode_root, updNode_root]

/-- Mirror of `rotL_mem` for `RotateRight`. -/
theorem rotR_mem {t : MapNN} {n pp : Nat} {nnd pnd : TNode (Nat × Nat)}
    {F : Nat} {lo hi pa : Option Nat}
    (hn : getNode t n = some nnd) (hr : nnd.left = some pp)
    (hp : getNode t pp = some pnd)
    (hchk : chk t (F + 2) (some n) lo hi pa = true)
    (hnodup : (occp t (F + 2) (some n)).Nodup) :
    n ∈ occp t (F + 2) (some n) ∧ pp ∈ occp t (F + 2) (some n) ∧
    n ≠ pp ∧
    (∀ pri, pnd.right = some pri → pri ∈ occp t (F + 2) (some n) ∧
      pri ≠ n ∧ pri ≠ pp) := by
  have hchk1 := hchk
  rw [chk, hn] at hchk1
  dsimp only at hchk1
  simp only [Bool.and_eq_true] at hchk1
  have hchkP0 := hchk1.1.2
  rw [hr] at hchkP0
  have hchkP := hchkP0
  rw [chk, hp] at hchkP
  dsimp only at hchkP
  simp only [Bool.and_eq_true] at hchkP
  have hchkB := hchkP.2
  have hoccn : occp t (F + 2) (some n) =
      n :: (occp t (F + 1) nnd.left ++ occp t (F + 1) nnd.right) := by
    rw [occp, hn]
  have hoccpp : occp t (F + 1) (some pp) =
      pp :: (occp t F pnd.left ++ occp t F pnd.right) := by
    rw [occp, hp]
  have hppocc : pp ∈ occp t (F + 1) nnd.left := by
    rw [hr]
    exact mem_occ_self hchkP0
  have hnodup' := hnodup
  rw [hoccn] at hnodup'
  refine ⟨mem_occ_self hchk, by
      rw [hoccn]
      exact List.mem_cons_of_mem _ (List.mem_append_left _ hppocc),
    fun he => (List.nodup_cons.mp hnodup').1
      (he ▸ List.mem_append_left _ hppocc), ?_⟩
  intro pri hpr
  have hchkB' := hchkB
  rw [hpr] at hchkB'
  have hpriB : pri ∈ occp t F pnd.right := hpr ▸ mem_occ_self hchkB'
  have hpriL : pri ∈ occp t (F + 1) nnd.left := by
    rw [hr, hoccpp]
    exact List.mem_cons_of_mem _ (List.mem_append_right _ hpriB)
  refine ⟨by
      rw [hoccn]
      exact List.mem_cons_of_mem _ (List.mem_append_left _ hpriL),
    fun he => (List.nodup_cons.mp hnodup').1
      (he ▸ List.mem_append_left _ hpriL), ?_⟩
  have hPnodup : (occp t (F + 1) nnd.left).Nodup := by
    have := (List.nodup_cons.mp hnodup').2
    exact (List.nodup_append.mp this).1
  rw [hr, hoccpp] at hPnodup
  intro he
  exact (List.nodup_cons.mp hPnodup).1 (he ▸ List.mem_append_right _ hpriB)

/-- Mirror of `rotL_chase` for `RotateRight`. -/
theorem rotR_chase {t t4 : MapNN} {n pp : Nat} {nnd pnd : TNode (Nat × Nat)}
    {F : Nat} {lo hi pa : Option Nat}
    (hn : getNode t n = some nnd) (hr : nnd.left = some pp)
    (hp : getNode t pp = some pnd)
    (hchk : chk t (F + 2) (some n) lo hi pa = true)
    (hnodup : (occp t (F + 2) (some n)).Nodup)
    (h4eq : ∀ x ∈ occp t (F + 2) (some n), getNode t4 x =
      getNode (rotRmid t n pp pnd.right pa) x) :
    chk (rotRfin t4 n pp) (F + 3) (some pp) lo hi pa = true ∧
    (occp (rotRfin t4 n pp) (F + 3) (some pp)).Perm
      (occp t (F + 2) (some n)) ∧
    (keysOf (rotRfin t4 n pp) (F + 3) (some pp)).Perm
      (keysOf t (F + 2) (some n)) ∧
    (∀ x, x ∉ occp t (F + 2) (some n) →
      getNode (rotRfin t4 n pp) x = getNode t4 x) := by
  unfold rotRmid at h4eq
  unfold rotRfin
  obtain ⟨hnmem, hppmem, hnpp, hpri⟩ :=
    rotR_mem hn hr hp hchk hnodup
  have ht1n : getNode (updNode t n
      (fun nd => { nd with left := pnd.right })) n =
      some { nnd with left := pnd.right } :=
    getNode_updNode_self hn _
  have ht1o : ∀ x, x ≠ n → getNode (updNode t n
      (fun nd => { nd with left := pnd.right })) x = getNode t x :=
    fun x hx => getNode_updNode_ne t n x _ (fun he => hx he.symm)
  have ht2n : getNode (match pnd.right with
      | some pri => updNode (updNode t n
          (fun nd => { nd with left := pnd.right })) pri
          (fun nd => { nd with parent := some n })
      | none => updNode t n (fun nd => { nd with left := pnd.right })) n =
      some { nnd with left := pnd.right } := by
    cases hpr : pnd.right with
    | none =>
      rw [hpr] at ht1n
      dsimp only
      exact ht1n
    | some pri =>
      rw [hpr] at ht1n
      dsimp only
      rw [getNode_updNode_ne _ pri n _
        (fun he => (hpri pri hpr).2.1 he)]
      exact ht1n
  have ht2o : ∀ x, x ≠ n → (∀ pri, pnd.right = some pri → x ≠ pri) →
      getNode (match pnd.right with
      | some pri => updNode (updNode t n
          (fun nd => { nd with left := pnd.right })) pri
          (fun nd => { nd with parent := some n })
      | none => updNode t n (fun nd => { nd with left := pnd.right })) x =
      getNode t x := by
    intro x hxn hxpr
    cases hpr : pnd.right with
    | none =>
      rw [hpr] at ht1o
      dsimp only
      exact ht1o x hxn
    | some pri =>
      rw [hpr] at ht1o
      dsimp only
      rw [getNode_updNode_ne _ pri x _
        (fun he => hxpr pri hpr he.symm)]
      exact ht1o x hxn
  have ht2pri : ∀ pri prnd, pnd.right = some pri →
      getNode t pri = some prnd →
      getNode (match pnd.right with
      | some pri => updNode (updNode t n
          (fun nd => { nd with left := pnd.right })) pri
          (fun nd => { nd with parent := some n })
      | none => updNode t n (fun nd => { nd with left := pnd.right })) pri =
      some { prnd with parent := some n } := by
    intro pri prnd hpr hprnd
    rw [hpr]
    dsimp only
    have hbase : getNode (updNode t n
        (fun nd => { nd with left := some pri })) pri = some prnd := by
      rw [getNode_updNode_ne t n pri _
        (fun he => (hpri pri hpr).2.1 he.symm)]
      exact hprnd
    exact getNode_updNode_self hbase _
  have ht2pp : getNode (match pnd.right with
      | some pri => updNode (updNode t n
          (fun nd => { nd with left := pnd.right })) pri
          (fun nd => { nd with parent := some n })
      | none => updNode t n (fun nd => { nd with left := pnd.right })) pp =
      some pnd := by
    rw [ht2o pp (fun he => hnpp he.symm)
      (fun pri hpr he => (hpri pri hpr).2.2 he.symm)]
    exact hp
  have ht3pp : getNode (updNode (match pnd.right with
      | some pri => updNode (updNode t n
          (fun nd => { nd with left := pnd.right })) pri
          (fun nd => { nd with parent := some n })
      | none => updNode t n (fun nd => { nd with left := pnd.right }))
      pp (fun nd => { nd with parent := pa })) pp =
      some { pnd with parent := pa } :=
    getNode_updNode_self ht2pp _
  have ht3o : ∀ x, x ≠ pp → getNode (updNode (match pnd.right with
      | some pri => updNode (updNode t n
          (fun nd => { nd with left := pnd.right })) pri
          (fun nd => { nd with parent := some n })
      | none => updNode t n (fun nd => { nd with left := pnd.right }))
      pp (fun nd => { nd with parent := pa })) x =
      getNode (match pnd.right with
      | some pri => updNode (updNode t n
          (fun nd => { nd with left := pnd.right })) pri
          (fun nd => { nd with parent := some n })
      | none => updNode t n (fun nd => { nd with left := pnd.right })) x :=
    fun x hx => getNode_updNode_ne _ pp x _ (fun he => hx he.symm)
  have h4n : getNode t4 n = some { nnd with left := pnd.right } := by
    rw [h4eq n hnmem, ht3o n hnpp, ht2n]
  have h4pp : getNode t4 pp = some { pnd with parent := pa } := by
    rw [h4eq pp hppmem, ht3pp]
  have h4pri : ∀ pri prnd, pnd.right = some pri →
      getNode t pri = some prnd →
      getNode t4 pri = some { prnd with parent := some n } := by
    intro pri prnd hpr hprnd
    rw [h4eq pri (hpri pri hpr).1,
      ht3o pri (hpri pri hpr).2.2, ht2pri pri prnd hpr hprnd]
  have h4o : ∀ x ∈ occp t (F + 2) (some n), x ≠ n → x ≠ pp →
      (∀ pri, pnd.right = some pri → x ≠ pri) →
      getNode t4 x = getNode t x := by
    intro x hx hxn hxpp hxpr
    rw [h4eq x hx, ht3o x hxpp, ht2o x hxn hxpr]
  have h5pp : getNode (updNode t4 pp
      (fun nd => { nd with right := some n })) pp =
      some { pnd with parent := pa, right := some n } := by
    have := getNode_updNode_self h4pp (fun nd => { nd with right := some n })
    exact this
  have h5o : ∀ x, x ≠ pp → getNode (updNode t4 pp
      (fun nd => { nd with right := some n })) x = getNode t4 x :=
    fun x hx => getNode_updNode_ne _ pp x _ (fun he => hx he.symm)
  have h6n : getNode (updNode (updNode t4 pp
      (fun nd => { nd with right := some n })) n
      (fun nd => { nd with parent := some pp })) n =
      some { nnd with parent := some pp, left := pnd.right } := by
    have hb : getNode (updNode t4 pp
        (fun nd => { nd with right := some n })) n =
        some { nnd with left := pnd.right } := by
      rw [h5o n hnpp]
      exact h4n
    have := getNode_updNode_self hb (fun nd => { nd with parent := some pp })
    exact this
  have h6o : ∀ x, x ≠ n → getNode (updNode (updNode t4 pp
      (fun nd => { nd with right := some n })) n
      (fun nd => { nd with parent := some pp })) x =
      getNode (updNode t4 pp (fun nd => { nd with right := some n })) x :=
    fun x hx => getNode_updNode_ne _ n x _ (fun he => hx he.symm)
  have h6pp : getNode (updNode (updNode t4 pp
      (fun nd => { nd with right := some n })) n
      (fun nd => { nd with parent := some pp })) pp =
      some { pnd with parent := pa, right := some n } := by
    rw [h6o pp (fun he => hnpp he.symm)]
    exact h5pp
  have h6pri : ∀ pri prnd, pnd.right = some pri →
      getNode t pri = some prnd →
      getNode (updNode (updNode t4 pp
        (fun nd => { nd with right := some n })) n
        (fun nd => { nd with parent := some pp })) pri =
      some { prnd with parent := some n } := by
    intro pri prnd hpr hprnd
    rw [h6o pri (hpri pri hpr).2.1, h5o pri (hpri pri hpr).2.2]
    exact h4pri pri prnd hpr hprnd
  have h6other : ∀ x ∈ occp t (F + 2) (some n), x ≠ n → x ≠ pp →
      pnd.right ≠ some x →
      getNode (updNode (updNode t4 pp
        (fun nd => { nd with right := some n })) n
        (fun nd => { nd with parent := some pp })) x = getNode t x := by
    intro x hx hxn hxpp hxpr
    rw [h6o x hxn, h5o x hxpp]
    exact h4o x hx hxn hxpp
      (fun pri hpr he => hxpr (he ▸ hpr))
  have hreb := rebuildR hn hr hp hchk hnodup h6n h6pp h6pri h6other
  refine ⟨hreb.1, hreb.2.1, hreb.2.2, ?_⟩
  intro x hx
  have hxn : x ≠ n := fun he => hx (he ▸ hnmem)
  have hxpp : x ≠ pp := fun he => hx (he ▸ hppmem)
  rw [h6o x hxn, h5o x hxpp]

/-- Mirror of `rotLmid_outside` for `RotateRight`. -/
theorem rotRmid_outside {t : MapNN} {n pp : Nat}
    {nnd pnd : TNode (Nat × Nat)} {F : Nat} {lo hi pa : Option Nat}
    (hn : getNode t n = some nnd) (hr : nnd.left = some pp)
    (hp : getNode t pp = some pnd)
    (hchk : chk t (F + 2) (some n) lo hi pa = true)
    (hnodup : (occp t (F + 2) (some n)).Nodup) :
    ∀ x, x ∉ occp t (F + 2) (some n) →
      getNode (rotRmid t n pp pnd.right pa) x = getNode t x := by
  obtain ⟨hnmem, hppmem, hnpp, hpri⟩ := rotR_mem hn hr hp hchk hnodup
  intro x hx
  have hxn : x ≠ n := fun he => hx (he ▸ hnmem)
  have hxpp : x ≠ pp := fun he => hx (he ▸ hppmem)
  unfold rotRmid
  rw [getNode_updNode_ne _ pp x _ (fun he => hxpp he.symm)]
  cases hpr : pnd.right with
  | none =>
    dsimp only
    exact getNode_updNode_ne t n x _ (fun he => hxn he.symm)
  | some pri =>
    dsimp only
    have hxpri : x ≠ pri := fun he => hx (he ▸ (hpri pri hpr).1)
    rw [getNode_updNode_ne _ pri x _ (fun he => hxpri he.symm)]
    exact getNode_updNode_ne t n x _ (fun he => hxn he.symm)

/-- Mirror of `rotL_at_deep` for `RotateRight`. -/
theorem rotR_at_deep {t : MapNN} {n pp q : Nat}
    {nnd qnd : TNode (Nat × Nat)} {F : Nat} {lo hi : Option Nat}
    (hn : getNode t n = some nnd) (hr : nnd.left = some pp)
    (hchk : chk t (F + 2) (some n) lo hi (some q) = true)
    (hnodup : (occp t (F + 2) (some n)).Nodup)
    (hq : getNode t q = some qnd)
    (hqocc : q ∉ occp t (F + 2) (some n)) :
    chk (rotateRight t (some n)).1 (F + 3) (some pp) lo hi (some q) = true ∧
    (occp (rotateRight t (some n)).1 (F + 3) (some pp)).Perm
      (occp t (F + 2) (some n)) ∧
    (keysOf (rotateRight t (some n)).1 (F + 3) (some pp)).Perm
      (keysOf t (F + 2) (some n)) ∧
    getNode (rotateRight t (some n)).1 q =
      some (if qnd.left = some n then { qnd with left := some pp }
        else { qnd with right := some pp }) ∧
    (∀ x, x ∉ occp t (F + 2) (some n) → x ≠ q →
      getNode (rotateRight t (some n)).1 x = getNode t x) ∧
    (rotateRight t (some n)).1.root = t.root := by
  have hchk1 := hchk
  rw [chk, hn] at hchk1
  dsimp only at hchk1
  simp only [Bool.and_eq_true] at hchk1
  have hpan : nnd.parent = some q := by simpa using hchk1.1.1.2
  have hchkP0 := hchk1.1.2
  rw [hr] at hchkP0
  obtain ⟨pnd, hp⟩ := chk_node hchkP0
  obtain ⟨hnmem, hppmem, hnpp, hpri⟩ := rotR_mem hn hr hp hchk hnodup
  have hqn : q ≠ n := fun he => hqocc (he ▸ hnmem)
  have hqpp : q ≠ pp := fun he => hqocc (he ▸ hppmem)
  have hT3q : getNode (rotRmid t n pp pnd.right (some q)) q = some qnd := by
    rw [rotRmid_outside hn hr hp hchk hnodup q hqocc]
    exact hq
  have heq : (rotateRight t (some n)).1 =
      rotRfin (if leftOf (rotRmid t n pp pnd.right (some q)) (some q) =
          some n then
        updNode (rotRmid t n pp pnd.right (some q)) q
          (fun nd => { nd with left := some pp })
      else
        updNode (rotRmid t n pp pnd.right (some q)) q
          (fun nd => { nd with right := some pp })) n pp := by
    rw [rotateRight_reduce hn hr hp, hpan]
    unfold rotRfin rotRmid
    rfl
  rw [heq]
  have h4eq : ∀ x ∈ occp t (F + 2) (some n),
      getNode (if leftOf (rotRmid t n pp pnd.right (some q)) (some q) =
          some n then
        updNode (rotRmid t n pp pnd.right (some q)) q
          (fun nd => { nd with left := some pp })
      else
        updNode (rotRmid t n pp pnd.right (some q)) q
          (fun nd => { nd with right := some pp })) x =
      getNode (rotRmid t n pp pnd.right (some q)) x := by
    intro x hx
    have hxq : x ≠ q := fun he => hqocc (he ▸ hx)
    split
    · exact getNode_updNode_ne _ q x _ (fun he => hxq he.symm)
    · exact getNode_updNode_ne _ q x _ (fun he => hxq he.symm)
  have hchase := rotR_chase hn hr hp hchk hnodup h4eq
  have hcond : leftOf (rotRmid t n pp pnd.right (some q)) (some q) =
      qnd.left := leftOf_eq hT3q
  refine ⟨hchase.1, hchase.2.1, hchase.2.2.1, ?_, ?_, ?_⟩
  · unfold rotRfin
    rw [getNode_updNode_ne _ n q _ (fun he => hqn he.symm),
      getNode_updNode_ne _ pp q _ (fun he => hqpp he.symm)]
    by_cases hql : qnd.left = some n
    · rw [if_pos (by rw [hcond]; exact hql), if_pos hql]
      exact getNode_updNode_self hT3q _
    · rw [if_neg (by rw [hcond]; exact hql), if_neg hql]
      exact getNode_updNode_self hT3q _
  · intro x hx hxq
    rw [hchase.2.2.2 x hx]
    have hmid := rotRmid_outside hn hr hp hchk hnodup x hx
    split
    · rw [getNode_updNode_ne _ q x _ (fun he => hxq he.symm)]
      exact hmid
    · rw [getNode_updNode_ne _ q x _ (fun he => hxq he.symm)]
      exact hmid
  · unfold rotRfin
    rw [updNode_root, updNode_root]
    have hmidroot : (rotRmid t n pp pnd.right (some q)).root = t.root := by
      unfold rotRmid
      rw [updNode_root]
      cases pnd.right with
      | none => rw [updNode_root]
      | some pri => rw [updNode_root, updNode_root]
    split
    · rw [updNode_root, hmidroot]
    · rw [updNode_root, hmidroot]

/-- Mirror of `rotL_at_root` for `RotateRight`. -/
theorem rotR_at_root {t : MapNN} {n pp : Nat} {nnd : TNode (Nat × Nat)}
    {F : Nat} {lo hi : Option Nat}
    (hn : getNode t n = some nnd) (hr : nnd.left = some pp)
    (hchk : chk t (F + 2) (some n) lo hi none = true)
    (hnodup : (occp t (F + 2) (some n)).Nodup) :
    chk (rotateRight t (some n)).1 (F + 3) (some pp) lo hi none = true ∧
    (occp (rotateRight t (some n)).1 (F + 3) (some pp)).Perm
      (occp t (F + 2) (some n)) ∧
    (keysOf (rotateRight t (some n)).1 (F + 3) (some pp)).Perm
      (keysOf t (F + 2) (some n)) ∧
    (∀ x, x ∉ occp t (F + 2) (some n) →
      getNode (rotateRight t (some n)).1 x = getNode t x) ∧
    (rotateRight t (some n)).1.root = some pp := by
  have hchk1 := hchk
  rw [chk, hn] at hchk1
  dsimp only at hchk1
  simp only [Bool.and_eq_true] at hchk1
  have hpan : nnd.parent = none := by simpa using hchk1.1.1.2
  have hchkP0 := hchk1.1.2
  rw [hr] at hchkP0
  obtain ⟨pnd, hp⟩ := chk_node hchkP0
  have heq : (rotateRight t (some n)).1 =
      rotRfin { rotRmid t n pp pnd.right none with root := some pp }
        n pp := by
    rw [rotateRight_reduce hn hr hp, hpan]
    unfold rotRfin rotRmid
    rfl
  rw [heq]
  have h4eq : ∀ x ∈ occp t (F + 2) (some n),
      getNode { rotRmid t n pp pnd.right none with root := some pp } x =
      getNode (rotRmid t n pp pnd.right none) x := fun x _ => rfl
  have hchase := rotR_chase hn hr hp hchk hnodup h4eq
  refine ⟨hchase.1, hchase.2.1, hchase.2.2.1, ?_, ?_⟩
  · intro x hx
    rw [hchase.2.2.2 x hx]
    exact rotRmid_outside hn hr hp hchk hnodup x hx
  · unfold rotRfin
    rw [updNode_root, updNode_root]

/-- A live node with a live right child sits in a subtree checked with at
least two units of fuel. -/
theorem chk_two_of_child {t : MapNN} {ni pp : Nat}
    {nnd : TNode (Nat × Nat)} {m : Nat} {lo hi pa : Option Nat}
    (hn : getNode t ni = some nnd) (hr : nnd.right = some pp)
    (hchild : chk t m (some ni) lo hi pa = true) :
    ∃ F2, m = F2 + 2 := by
  cases m with
  | zero => exact absurd hchild (by unfold chk; simp)
  | succ m1 =>
    cases m1 with
    | zero =>
      rw [chk, hn] at hchild
      dsimp only at hchild
      simp only [Bool.and_eq_true] at hchild
      have h0 := hchild.2
      rw [hr] at h0
      exact absurd h0 (by unfold chk; simp)
    | succ F2 => exact ⟨F2, rfl⟩

/-- Mirror of `chk_two_of_child` for a live left child. -/
theorem chk_two_of_left_child {t : MapNN} {ni pp : Nat}
    {nnd : TNode (Nat × Nat)} {m : Nat} {lo hi pa : Option Nat}
    (hn : getNode t ni = some nnd) (hr : nnd.left = some pp)
    (hchild : chk t m (some ni) lo hi pa = true) :
    ∃ F2, m = F2 + 2 := by
  cases m with
  | zero => exact absurd hchild (by unfold chk; simp)
  | succ m1 =>
    cases m1 with
    | zero =>
      rw [chk, hn] at hchild
      dsimp only at hchild
      simp only [Bool.and_eq_true] at hchild
      have h0 := hchild.1.2
      rw [hr] at h0
      exact absurd h0 (by unfold chk; simp)
    | succ F2 => exact ⟨F2, rfl⟩

/-- `RotateLeft` at a node strictly inside a checked subtree: the subtree
keeps its root, checks one fuel higher, and visits / stores a permutation
of the same indices / keys; everything outside is untouched, including the
tree's root pointer. -/
theorem rotL_glob {t : MapNN} {ni pp : Nat} {nnd : TNode (Nat × Nat)}
    (hn : getNode t ni = some nnd) (hr : nnd.right = some pp) :
    ∀ (F : Nat) (i : Nat) (lo hi pa : Option Nat),
      chk t F (some i) lo hi pa = true →
      (occp t F (some i)).Nodup →
      ni ∈ occp t F (some i) → ni ≠ i →
      chk (rotateLeft t (some ni)).1 (F + 1) (some i) lo hi pa = true ∧
      (occp (rotateLeft t (some ni)).1 (F + 1) (some i)).Perm
        (occp t F (some i)) ∧
      (keysOf (rotateLeft t (some ni)).1 (F + 1) (some i)).Perm
        (keysOf t F (some i)) ∧
      (∀ x, x ∉ occp t F (some i) →
        getNode (rotateLeft t (some ni)).1 x = getNode t x) ∧
      (rotateLeft t (some ni)).1.root = t.root := by
  intro F
  induction F with
  | zero =>
    intro i lo hi pa hchk _ _ _
    exact absurd hchk (by unfold chk; simp)
  | succ m ih =>
    intro i lo hi pa hchk hnodup hmem hne
    cases hg : getNode t i with
    | none => rw [chk, hg] at hchk; exact absurd hchk (by simp)
    | some ind =>
      have hchk' := hchk
      rw [chk, hg] at hchk'
      dsimp only at hchk'
      simp only [Bool.and_eq_true] at hchk'
      have hocc : occp t (m + 1) (some i) =
          i :: (occp t m ind.left ++ occp t m ind.right) := by
        rw [occp, hg]
      have hnodup2 := hnodup
      rw [hocc] at hnodup2
      have hiL : i ∉ occp t m ind.left := fun h =>
        (List.nodup_cons.mp hnodup2).1 (List.mem_append_left _ h)
      have hiR : i ∉ occp t m ind.right := fun h =>
        (List.nodup_cons.mp hnodup2).1 (List.mem_append_right _ h)
      have hLnodup : (occp t m ind.left).Nodup :=
        (List.nodup_append.mp (List.nodup_cons.mp hnodup2).2).1
      have hRnodup : (occp t m ind.right).Nodup :=
        (List.nodup_append.mp (List.nodup_cons.mp hnodup2).2).2.1
      have hLR := (List.nodup_append.mp (List.nodup_cons.mp hnodup2).2).2.2
      rw [hocc] at hmem
      rcases List.mem_cons.mp hmem with hni | hmem2
      · exact absurd hni hne
      rcases List.mem_append.mp hmem2 with hniL | hniR
      · -- the rotated node sits in the left subtree
        cases hcl : ind.left with
        | none => rw [hcl] at hniL; simp [occp_none] at hniL
        | some cl =>
          rw [hcl] at hniL
          by_cases hclni : cl = ni
          · -- rotation exactly at the left child
            subst hclni
            have hchild := hchk'.1.2
            rw [hcl] at hchild
            obtain ⟨F2, rfl⟩ := chk_two_of_child hn hr hchild
            have hchildnd : (occp t (F2 + 2) (some cl)).Nodup := by
              rw [hcl] at hLnodup
              exact hLnodup
            have hdeep := rotL_at_deep hn hr hchild hchildnd hg
              (fun h => hiL (by rw [hcl]; exact h))
            have hcli : getNode (rotateLeft t (some cl)).1 i =
                some { ind with left := some pp } := by
              rw [hdeep.2.2.2.1]
              rw [if_pos hcl]
            -- the right subtree is untouched
            have hfrR : ∀ x ∈ occp t (F2 + 2) ind.right,
                (getNode (rotateLeft t (some cl)).1 x).map core =
                (getNode t x).map core := by
              intro x hx
              rw [hdeep.2.2.2.2.1 x
                (fun h => hLR (by rw [hcl]; exact h) hx)
                (fun he => hiR (he ▸ hx))]
            have hR := chk_frame (F2 + 2) ind.right (some ind.value.1) hi
              (some i) hchk'.2 hfrR
            have hRocc : occp (rotateLeft t (some cl)).1 (F2 + 3)
                ind.right = occp t (F2 + 2) ind.right ∧
                keysOf (rotateLeft t (some cl)).1 (F2 + 3) ind.right =
                keysOf t (F2 + 2) ind.right := by
              have := occp_keysOf_mono (F2 + 2) (F2 + 3) ind.right
                (some ind.value.1) hi (some i) hR.1 (by omega)
              exact ⟨this.1.trans hR.2.1, this.2.trans hR.2.2⟩
            refine ⟨?_, ?_, ?_, ?_, hdeep.2.2.2.2.2⟩
            · rw [chk, hcli]
              dsimp only
              simp only [Bool.and_eq_true]
              exact ⟨⟨⟨⟨hchk'.1.1.1.1, hchk'.1.1.1.2⟩, hchk'.1.1.2⟩,
                hdeep.1⟩,
                chk_mono (F2 + 2) (F2 + 3) ind.right (some ind.value.1) hi
                  (some i) hR.1 (by omega)⟩
            · rw [show occp (rotateLeft t (some cl)).1 (F2 + 4) (some i) =
                  i :: (occp (rotateLeft t (some cl)).1 (F2 + 3) (some pp) ++
                    occp (rotateLeft t (some cl)).1 (F2 + 3) ind.right)
                  from by rw [occp, hcli], hocc, hcl, hRocc.1]
              exact List.Perm.cons i (List.Perm.append hdeep.2.1
                (List.Perm.refl _))
            · rw [show keysOf (rotateLeft t (some cl)).1 (F2 + 4) (some i) =
                  ind.value.1 ::
                    (keysOf (rotateLeft t (some cl)).1 (F2 + 3) (some pp) ++
                    keysOf (rotateLeft t (some cl)).1 (F2 + 3) ind.right)
                  from by rw [keysOf, hcli],
                show keysOf t (F2 + 3) (some i) =
                  ind.value.1 :: (keysOf t (F2 + 2) ind.left ++
                    keysOf t (F2 + 2) ind.right)
                  from by rw [keysOf, hg], hcl, hRocc.2]
              exact List.Perm.cons _ (List.Perm.append hdeep.2.2.1
                (List.Perm.refl _))
            · intro x hx
              rw [hocc] at hx
              refine hdeep.2.2.2.2.1 x ?_ ?_
              · intro h
                exact hx (List.mem_cons_of_mem _ (List.mem_append_left _
                  (by rw [hcl]; exact h)))
              · intro he
                exact hx (he ▸ List.mem_cons_self _ _)
          · -- descend into the left subtree
            have hchild := hchk'.1.2
            rw [hcl] at hchild
            have hchildnd : (occp t m (some cl)).Nodup := by
              rw [hcl] at hLnodup
              exact hLnodup
            have hrec := ih cl lo (some ind.value.1) (some i) hchild
              hchildnd hniL (fun he => hclni he.symm)
            have hgi : getNode (rotateLeft t (some ni)).1 i =
                some ind := by
              rw [hrec.2.2.2.1 i (fun h => hiL (by rw [hcl]; exact h))]
              exact hg
            have hfrR : ∀ x ∈ occp t m ind.right,
                (getNode (rotateLeft t (some ni)).1 x).map core =
                (getNode t x).map core := by
              intro x hx
              rw [hrec.2.2.2.1 x
                (fun h => hLR (by rw [hcl]; exact h) hx)]
            have hR := chk_frame m ind.right (some ind.value.1) hi
              (some i) hchk'.2 hfrR
            have hRocc : occp (rotateLeft t (some ni)).1 (m + 1)
                ind.right = occp t m ind.right ∧
                keysOf (rotateLeft t (some ni)).1 (m + 1) ind.right =
                keysOf t m ind.right := by
              have := occp_keysOf_mono m (m + 1) ind.right
                (some ind.value.1) hi (some i) hR.1 (by omega)
              exact ⟨this.1.trans hR.2.1, this.2.trans hR.2.2⟩
            refine ⟨?_, ?_, ?_, ?_, hrec.2.2.2.2⟩
            · rw [chk, hgi]
              dsimp only
              simp only [Bool.and_eq_true]
              refine ⟨⟨⟨⟨hchk'.1.1.1.1, hchk'.1.1.1.2⟩, hchk'.1.1.2⟩, ?_⟩,
                chk_mono m (m + 1) ind.right (some ind.value.1) hi
                  (some i) hR.1 (by omega)⟩
              rw [hcl]
              exact hrec.1
            · rw [show occp (rotateLeft t (some ni)).1 (m + 2) (some i) =
                  i :: (occp (rotateLeft t (some ni)).1 (m + 1) ind.left ++
                    occp (rotateLeft t (some ni)).1 (m + 1) ind.right)
                  from by rw [occp, hgi], hocc, hcl, hRocc.1]
              exact List.Perm.cons i (List.Perm.append hrec.2.1
                (List.Perm.refl _))
            · rw [show keysOf (rotateLeft t (some ni)).1 (m + 2) (some i) =
                  ind.value.1 ::
                    (keysOf (rotateLeft t (some ni)).1 (m + 1) ind.left ++
                    keysOf (rotateLeft t (some ni)).1 (m + 1) ind.right)
                  from by rw [keysOf, hgi],
                show keysOf t (m + 1) (some i) =
                  ind.value.1 :: (keysOf t m ind.left ++
                    keysOf t m ind.right)
                  from by rw [keysOf, hg], hcl, hRocc.2]
              exact List.Perm.cons _ (List.Perm.append hrec.2.2.1
                (List.Perm.refl _))
            · intro x hx
              rw [hocc] at hx
              refine hrec.2.2.2.1 x ?_
              intro h
              exact hx (List.mem_cons_of_mem _ (List.mem_append_left _
                (by rw [hcl]; exact h)))
      · -- the rotated node sits in the right subtree
        cases hcr : ind.right with
        | none => rw [hcr] at hniR; simp [occp_none] at hniR
        | some cr =>
          rw [hcr] at hniR
          have hcrR : cr ∈ occp t m ind.right := by
            rw [hcr]
            have h0 := hchk'.2
            rw [hcr] at h0
            exact hcr ▸ mem_occ_self h0
          have hindleft : ind.left ≠ some cr := by
            intro he
            have hcrL : cr ∈ occp t m ind.left := by
              have h0 := hchk'.1.2
              rw [he] at h0
              exact he ▸ mem_occ_self h0
            exact hLR hcrL hcrR
          by_cases hcrni : cr = ni
          · -- rotation exactly at the right child
            subst hcrni
            have hchild := hchk'.2
            rw [hcr] at hchild
            obtain ⟨F2, rfl⟩ := chk_two_of_child hn hr hchild
            have hchildnd : (occp t (F2 + 2) (some cr)).Nodup := by
              rw [hcr] at hRnodup
              exact hRnodup
            have hdeep := rotL_at_deep hn hr hchild hchildnd hg
              (fun h => hiR (by rw [hcr]; exact h))
            have hcri : getNode (rotateLeft t (some cr)).1 i =
                some { ind with right := some pp } := by
              rw [hdeep.2.2.2.1, if_neg hindleft]
            have hfrL : ∀ x ∈ occp t (F2 + 2) ind.left,
                (getNode (rotateLeft t (some cr)).1 x).map core =
                (getNode t x).map core := by
              intro x hx
              rw [hdeep.2.2.2.2.1 x
                (fun h => hLR hx (by rw [hcr]; exact h))
                (fun he => hiL (he ▸ hx))]
            have hL := chk_frame (F2 + 2) ind.left lo (some ind.value.1)
              (some i) hchk'.1.2 hfrL
            have hLocc : occp (rotateLeft t (some cr)).1 (F2 + 3)
                ind.left = occp t (F2 + 2) ind.left ∧
                keysOf (rotateLeft t (some cr)).1 (F2 + 3) ind.left =
                keysOf t (F2 + 2) ind.left := by
              have := occp_keysOf_mono (F2 + 2) (F2 + 3) ind.left lo
                (some ind.value.1) (some i) hL.1 (by omega)
              exact ⟨this.1.trans hL.2.1, this.2.trans hL.2.2⟩
            refine ⟨?_, ?_, ?_, ?_, hdeep.2.2.2.2.2⟩
            · rw [chk, hcri]
              dsimp only
              simp only [Bool.and_eq_true]
              exact ⟨⟨⟨⟨hchk'.1.1.1.1, hchk'.1.1.1.2⟩, hchk'.1.1.2⟩,
                chk_mono (F2 + 2) (F2 + 3) ind.left lo (some ind.value.1)
                  (some i) hL.1 (by omega)⟩, hdeep.1⟩
            · rw [show occp (rotateLeft t (some cr)).1 (F2 + 4) (some i) =
                  i :: (occp (rotateLeft t (some cr)).1 (F2 + 3) ind.left ++
                    occp (rotateLeft t (some cr)).1 (F2 + 3) (some pp))
                  from by rw [occp, hcri], hocc, hcr, hLocc.1]
              exact List.Perm.cons i (List.Perm.append (List.Perm.refl _)
                hdeep.2.1)
            · rw [show keysOf (rotateLeft t (some cr)).1 (F2 + 4) (some i) =
                  ind.value.1 ::
                    (keysOf (rotateLeft t (some cr)).1 (F2 + 3) ind.left ++
                    keysOf (rotateLeft t (some cr)).1 (F2 + 3) (some pp))
                  from by rw [keysOf, hcri],
                show keysOf t (F2 + 3) (some i) =
                  ind.value.1 :: (keysOf t (F2 + 2) ind.left ++
                    keysOf t (F2 + 2) ind.right)
                  from by rw [keysOf, hg], hcr, hLocc.2]
              exact List.Perm.cons _ (List.Perm.append (List.Perm.refl _)
                hdeep.2.2.1)
            · intro x hx
              rw [hocc] at hx
              refine hdeep.2.2.2.2.1 x ?_ ?_
              · intro h
                exact hx (List.mem_cons_of_mem _ (List.mem_append_right _
                  (by rw [hcr]; exact h)))
              · intro he
                exact hx (he ▸ List.mem_cons_self _ _)
          · -- descend into the right subtree
            have hchild := hchk'.2
            rw [hcr] at hchild
            have hchildnd : (occp t m (some cr)).Nodup := by
              rw [hcr] at hRnodup
              exact hRnodup
            have hrec := ih cr (some ind.value.1) hi (some i) hchild
              hchildnd hniR (fun he => hcrni he.symm)
            have hgi : getNode (rotateLeft t (some ni)).1 i =
                some ind := by
              rw [hrec.2.2.2.1 i (fun h => hiR (by rw [hcr]; exact h))]
              exact hg
            have hfrL : ∀ x ∈ occp t m ind.left,
                (getNode (rotateLeft t (some ni)).1 x).map core =
                (getNode t x).map core := by
              intro x hx
              rw [hrec.2.2.2.1 x
                (fun h => hLR hx (by rw [hcr]; exact h))]
            have hL := chk_frame m ind.left lo (some ind.value.1)
              (some i) hchk'.1.2 hfrL
            have hLocc : occp (rotateLeft t (some ni)).1 (m + 1)
                ind.left = occp t m ind.left ∧
                keysOf (rotateLeft t (some ni)).1 (m + 1) ind.left =
                keysOf t m ind.left := by
              have := occp_keysOf_mono m (m + 1) ind.left lo
                (some ind.value.1) (some i) hL.1 (by omega)
              exact ⟨this.1.trans hL.2.1, this.2.trans hL.2.2⟩
            refine ⟨?_, ?_, ?_, ?_, hrec.2.2.2.2⟩
            · rw [chk, hgi]
              dsimp only
              simp only [Bool.and_eq_true]
              refine ⟨⟨⟨⟨hchk'.1.1.1.1, hchk'.1.1.1.2⟩, hchk'.1.1.2⟩,
                chk_mono m (m + 1) ind.left lo (some ind.value.1)
                  (some i) hL.1 (by omega)⟩, ?_⟩
              rw [hcr]
              exact hrec.1
            · rw [show occp (rotateLeft t (some ni)).1 (m + 2) (some i) =
                  i :: (occp (rotateLeft t (some ni)).1 (m + 1) ind.left ++
                    occp (rotateLeft t (some ni)).1 (m + 1) ind.right)
                  from by rw [occp, hgi], hocc, hcr, hLocc.1]
              exact List.Perm.cons i (List.Perm.append (List.Perm.refl _)
                hrec.2.1)
            · rw [show keysOf (rotateLeft t (some ni)).1 (m + 2) (some i) =
                  ind.value.1 ::
                    (keysOf (rotateLeft t (some ni)).1 (m + 1) ind.left ++
                    keysOf (rotateLeft t (some ni)).1 (m + 1) ind.right)
                  from by rw [keysOf, hgi],
                show keysOf t (m + 1) (some i) =
                  ind.value.1 :: (keysOf t m ind.left ++
                    keysOf t m ind.right)
                  from by rw [keysOf, hg], hcr, hLocc.2]
              exact List.Perm.cons _ (List.Perm.append (List.Perm.refl _)
                hrec.2.2.1)
            · intro x hx
              rw [hocc] at hx
              refine hrec.2.2.2.1 x ?_
              intro h
              exact hx (List.mem_cons_of_mem _ (List.mem_append_right _
                (by rw [hcr]; exact h)))

/-- Mirror of `rotL_glob`: `RotateRight` strictly inside a checked subtree;
same conclusions. -/
theorem rotR_glob {t : MapNN} {ni pp : Nat} {nnd : TNode (Nat × Nat)}
    (hn : getNode t ni = some nnd) (hr : nnd.left = some pp) :
    ∀ (F : Nat) (i : Nat) (lo hi pa : Option Nat),
      chk t F (some i) lo hi pa = true →
      (occp t F (some i)).Nodup →
      ni ∈ occp t F (some i) → ni ≠ i →
      chk (rotateRight t (some ni)).1 (F + 1) (some i) lo hi pa = true ∧
      (occp (rotateRight t (some ni)).1 (F + 1) (some i)).Perm
        (occp t F (some i)) ∧
      (keysOf (rotateRight t (some ni)).1 (F + 1) (some i)).Perm
        (keysOf t F (some i)) ∧
      (∀ x, x ∉ occp t F (some i) →
        getNode (rotateRight t (some ni)).1 x = getNode t x) ∧
      (rotateRight t (some ni)).1.root = t.root := by
  intro F
  induction F with
  | zero =>
    intro i lo hi pa hchk _ _ _
    exact absurd hchk (by unfold chk; simp)
  | succ m ih =>
    intro i lo hi pa hchk hnodup hmem hne
    cases hg : getNode t i with
    | none => rw [chk, hg] at hchk; exact absurd hchk (by simp)
    | some ind =>
      have hchk' := hchk
      rw [chk, hg] at hchk'
      dsimp only at hchk'
      simp only [Bool.and_eq_true] at hchk'
      have hocc : occp t (m + 1) (some i) =
          i :: (occp t m ind.left ++ occp t m ind.right) := by
        rw [occp, hg]
      have hnodup2 := hnodup
      rw [hocc] at hnodup2
      have hiL : i ∉ occp t m ind.left := fun h =>
        (List.nodup_cons.mp hnodup2).1 (List.mem_append_left _ h)
      have hiR : i ∉ occp t m ind.right := fun h =>
        (List.nodup_cons.mp hnodup2).1 (List.mem_append_right _ h)
      have hLnodup : (occp t m ind.left).Nodup :=
        (List.nodup_append.mp (List.nodup_cons.mp hnodup2).2).1
      have hRnodup : (occp t m ind.right).Nodup :=
        (List.nodup_append.mp (List.nodup_cons.mp hnodup2).2).2.1
      have hLR := (List.nodup_append.mp (List.nodup_cons.mp hnodup2).2).2.2
      rw [hocc] at hmem
      rcases List.mem_cons.mp hmem with hni | hmem2
      · exact absurd hni hne
      rcases List.mem_append.mp hmem2 with hniL | hniR
      · -- the rotated node sits in the left subtree
        cases hcl : ind.left with
        | none => rw [hcl] at hniL; simp [occp_none] at hniL
        | some cl =>
          rw [hcl] at hniL
          by_cases hclni : cl = ni
          · -- rotation exactly at the left child
            subst hclni
            have hchild := hchk'.1.2
            rw [hcl] at hchild
            obtain ⟨F2, rfl⟩ := chk_two_of_left_child hn hr hchild
            have hchildnd : (occp t (F2 + 2) (some cl)).Nodup := by
              rw [hcl] at hLnodup
              exact hLnodup
            have hdeep := rotR_at_deep hn hr hchild hchildnd hg
              (fun h => hiL (by rw [hcl]; exact h))
            have hcli : getNode (rotateRight t (some cl)).1 i =
                some { ind with left := some pp } := by
              rw [hdeep.2.2.2.1]
              rw [if_pos hcl]
            -- the right subtree is untouched
            have hfrR : ∀ x ∈ occp t (F2 + 2) ind.right,
                (getNode (rotateRight t (some cl)).1 x).map core =
                (getNode t x).map core := by
              intro x hx
              rw [hdeep.2.2.2.2.1 x
                (fun h => hLR (by rw [hcl]; exact h) hx)
                (fun he => hiR (he ▸ hx))]
            have hR := chk_frame (F2 + 2) ind.right (some ind.value.1) hi
              (some i) hchk'.2 hfrR
            have hRocc : occp (rotateRight t (some cl)).1 (F2 + 3)
                ind.right = occp t (F2 + 2) ind.right ∧
                keysOf (rotateRight t (some cl)).1 (F2 + 3) ind.right =
                keysOf t (F2 + 2) ind.right := by
              have := occp_keysOf_mono (F2 + 2) (F2 + 3) ind.right
                (some ind.value.1) hi (some i) hR.1 (by omega)
              exact ⟨this.1.trans hR.2.1, this.2.trans hR.2.2⟩
            refine ⟨?_, ?_, ?_, ?_, hdeep.2.2.2.2.2⟩
            · rw [chk, hcli]
              dsimp only
              simp only [Bool.and_eq_true]
              exact ⟨⟨⟨⟨hchk'.1.1.1.1, hchk'.1.1.1.2⟩, hchk'.1.1.2⟩,
                hdeep.1⟩,
                chk_mono (F2 + 2) (F2 + 3) ind.right (some ind.value.1) hi
                  (some i) hR.1 (by omega)⟩
            · rw [show occp (rotateRight t (some cl)).1 (F2 + 4) (some i) =
                  i :: (occp (rotateRight t (some cl)).1 (F2 + 3) (some pp) ++
                    occp (rotateRight t (some cl)).1 (F2 + 3) ind.right)
                  from by rw [occp, hcli], hocc, hcl, hRocc.1]
              exact List.Perm.cons i (List.Perm.append hdeep.2.1
                (List.Perm.refl _))
            · rw [show keysOf (rotateRight t (some cl)).1 (F2 + 4) (some i) =
                  ind.value.1 ::
                    (keysOf (rotateRight t (some cl)).1 (F2 + 3) (some pp) ++
                    keysOf (rotateRight t (some cl)).1 (F2 + 3) ind.right)
                  from by rw [keysOf, hcli],
                show keysOf t (F2 + 3) (some i) =
                  ind.value.1 :: (keysOf t (F2 + 2) ind.left ++
                    keysOf t (F2 + 2) ind.right)
                  from by rw [keysOf, hg], hcl, hRocc.2]
              exact List.Perm.cons _ (List.Perm.append hdeep.2.2.1
                (List.Perm.refl _))
            · intro x hx
              rw [hocc] at hx
              refine hdeep.2.2.2.2.1 x ?_ ?_
              · intro h
                exact hx (List.mem_cons_of_mem _ (List.mem_append_left _
                  (by rw [hcl]; exact h)))
              · intro he
                exact hx (he ▸ List.mem_cons_self _ _)
          · -- descend into the left subtree
            have hchild := hchk'.1.2
            rw [hcl] at hchild
            have hchildnd : (occp t m (some cl)).Nodup := by
              rw [hcl] at hLnodup
              exact hLnodup
            have hrec := ih cl lo (some ind.value.1) (some i) hchild
              hchildnd hniL (fun he => hclni he.symm)
            have hgi : getNode (rotateRight t (some ni)).1 i =
                some ind := by
              rw [hrec.2.2.2.1 i (fun h => hiL (by rw [hcl]; exact h))]
              exact hg
            have hfrR : ∀ x ∈ occp t m ind.right,
                (getNode (rotateRight t (some ni)).1 x).map core =
                (getNode t x).map core := by
              intro x hx
              rw [hrec.2.2.2.1 x
                (fun h => hLR (by rw [hcl]; exact h) hx)]
            have hR := chk_frame m ind.right (some ind.value.1) hi
              (some i) hchk'.2 hfrR
            have hRocc : occp (rotateRight t (some ni)).1 (m + 1)
                ind.right = occp t m ind.right ∧
                keysOf (rotateRight t (some ni)).1 (m + 1) ind.right =
                keysOf t m ind.right := by
              have := occp_keysOf_mono m (m + 1) ind.right
                (some ind.value.1) hi (some i) hR.1 (by omega)
              exact ⟨this.1.trans hR.2.1, this.2.trans hR.2.2⟩
            refine ⟨?_, ?_, ?_, ?_, hrec.2.2.2.2⟩
            · rw [chk, hgi]
              dsimp only
              simp only [Bool.and_eq_true]
              refine ⟨⟨⟨⟨hchk'.1.1.1.1, hchk'.1.1.1.2⟩, hchk'.1.1.2⟩, ?_⟩,
                chk_mono m (m + 1) ind.right (some ind.value.1) hi
                  (some i) hR.1 (by omega)⟩
              rw [hcl]
              exact hrec.1
            · rw [show occp (rotateRight t (some ni)).1 (m + 2) (some i) =
                  i :: (occp (rotateRight t (some ni)).1 (m + 1) ind.left ++
                    occp (rotateRight t (some ni)).1 (m + 1) ind.right)
                  from by rw [occp, hgi], hocc, hcl, hRocc.1]
              exact List.Perm.cons i (List.Perm.append hrec.2.1
                (List.Perm.refl _))
            · rw [show keysOf (rotateRight t (some ni)).1 (m + 2) (some i) =
                  ind.value.1 ::
                    (keysOf (rotateRight t (some ni)).1 (m + 1) ind.left ++
                    keysOf (rotateRight t (some ni)).1 (m + 1) ind.right)
                  from by rw [keysOf, hgi],
                show keysOf t (m + 1) (some i) =
                  ind.value.1 :: (keysOf t m ind.left ++
                    keysOf t m ind.right)
                  from by rw [keysOf, hg], hcl, hRocc.2]
              exact List.Perm.cons _ (List.Perm.append hrec.2.2.1
                (List.Perm.refl _))
            · intro x hx
              rw [hocc] at hx
              refine hrec.2.2.2.1 x ?_
              intro h
              exact hx (List.mem_cons_of_mem _ (List.mem_append_left _
                (by rw [hcl]; exact h)))
      · -- the rotated node sits in the right subtree
        cases hcr : ind.right with
        | none => rw [hcr] at hniR; simp [occp_none] at hniR
        | some cr =>
          rw [hcr] at hniR
          have hcrR : cr ∈ occp t m ind.right := by
            rw [hcr]
            have h0 := hchk'.2
            rw [hcr] at h0
            exact hcr ▸ mem_occ_self h0
          have hindleft : ind.left ≠ some cr := by
            intro he
            have hcrL : cr ∈ occp t m ind.left := by
              have h0 := hchk'.1.2
              rw [he] at h0
              exact he ▸ mem_occ_self h0
            exact hLR hcrL hcrR
          by_cases hcrni : cr = ni
          · -- rotation exactly at the right child
            subst hcrni
            have hchild := hchk'.2
            rw [hcr] at hchild
            obtain ⟨F2, rfl⟩ := chk_two_of_left_child hn hr hchild
            have hchildnd : (occp t (F2 + 2) (some cr)).Nodup := by
              rw [hcr] at hRnodup
              exact hRnodup
            have hdeep := rotR_at_deep hn hr hchild hchildnd hg
              (fun h => hiR (by rw [hcr]; exact h))
            have hcri : getNode (rotateRight t (some cr)).1 i =
                some { ind with right := some pp } := by
              rw [hdeep.2.2.2.1, if_neg hindleft]
            have hfrL : ∀ x ∈ occp t (F2 + 2) ind.left,
                (getNode (rotateRight t (some cr)).1 x).map core =
                (getNode t x).map core := by
              intro x hx
              rw [hdeep.2.2.2.2.1 x
                (fun h => hLR hx (by rw [hcr]; exact h))
                (fun he => hiL (he ▸ hx))]
            have hL := chk_frame (F2 + 2) ind.left lo (some ind.value.1)
              (some i) hchk'.1.2 hfrL
            have hLocc : occp (rotateRight t (some cr)).1 (F2 + 3)
                ind.left = occp t (F2 + 2) ind.left ∧
                keysOf (rotateRight t (some cr)).1 (F2 + 3) ind.left =
                keysOf t (F2 + 2) ind.left := by
              have := occp_keysOf_mono (F2 + 2) (F2 + 3) ind.left lo
                (some ind.value.1) (some i) hL.1 (by omega)
              exact ⟨this.1.trans hL.2.1, this.2.trans hL.2.2⟩
            refine ⟨?_, ?_, ?_, ?_, hdeep.2.2.2.2.2⟩
            · rw [chk, hcri]
              dsimp only
              simp only [Bool.and_eq_true]
              exact ⟨⟨⟨⟨hchk'.1.1.1.1, hchk'.1.1.1.2⟩, hchk'.1.1.2⟩,
                chk_mono (F2 + 2) (F2 + 3) ind.left lo (some ind.value.1)
                  (some i) hL.1 (by omega)⟩, hdeep.1⟩
            · rw [show occp (rotateRight t (some cr)).1 (F2 + 4) (some i) =
                  i :: (occp (rotateRight t (some cr)).1 (F2 + 3) ind.left ++
                    occp (rotateRight t (some cr)).1 (F2 + 3) (some pp))
                  from by rw [occp, hcri], hocc, hcr, hLocc.1]
              exact List.Perm.cons i (List.Perm.append (List.Perm.refl _)
                hdeep.2.1)
            · rw [show keysOf (rotateRight t (some cr)).1 (F2 + 4) (some i) =
                  ind.value.1 ::
                    (keysOf (rotateRight t (some cr)).1 (F2 + 3) ind.left ++
                    keysOf (rotateRight t (some cr)).1 (F2 + 3) (some pp))
                  from by rw [keysOf, hcri],
                show keysOf t (F2 + 3) (some i) =
                  ind.value.1 :: (keysOf t (F2 + 2) ind.left ++
                    keysOf t (F2 + 2) ind.right)
                  from by rw [keysOf, hg], hcr, hLocc.2]
              exact List.Perm.cons _ (List.Perm.append (List.Perm.refl _)
                hdeep.2.2.1)
            · intro x hx
              rw [hocc] at hx
              refine hdeep.2.2.2.2.1 x ?_ ?_
              · intro h
                exact hx (List.mem_cons_of_mem _ (List.mem_append_right _
                  (by rw [hcr]; exact h)))
              · intro he
                exact hx (he ▸ List.mem_cons_self _ _)
          · -- descend into the right subtree
            have hchild := hchk'.2
            rw [hcr] at hchild
            have hchildnd : (occp t m (some cr)).Nodup := by
              rw [hcr] at hRnodup
              exact hRnodup
            have hrec := ih cr (some ind.value.1) hi (some i) hchild
              hchildnd hniR (fun he => hcrni he.symm)
            have hgi : getNode (rotateRight t (some ni)).1 i =
                some ind := by
              rw [hrec.2.2.2.1 i (fun h => hiR (by rw [hcr]; exact h))]
              exact hg
            have hfrL : ∀ x ∈ occp t m ind.left,
                (getNode (rotateRight t (some ni)).1 x).map core =
                (getNode t x).map core := by
              intro x hx
              rw [hrec.2.2.2.1 x
                (fun h => hLR hx (by rw [hcr]; exact h))]
            have hL := chk_frame m ind.left lo (some ind.value.1)
              (some i) hchk'.1.2 hfrL
            have hLocc : occp (rotateRight t (some ni)).1 (m + 1)
                ind.left = occp t m ind.left ∧
                keysOf (rotateRight t (some ni)).1 (m + 1) ind.left =
                keysOf t m ind.left := by
              have := occp_keysOf_mono m (m + 1) ind.left lo
                (some ind.value.1) (some i) hL.1 (by omega)
              exact ⟨this.1.trans hL.2.1, this.2.trans hL.2.2⟩
            refine ⟨?_, ?_, ?_, ?_, hrec.2.2.2.2⟩
            · rw [chk, hgi]
              dsimp only
              simp only [Bool.and_eq_true]
              refine ⟨⟨⟨⟨hchk'.1.1.1.1, hchk'.1.1.1.2⟩, hchk'.1.1.2⟩,
                chk_mono m (m + 1) ind.left lo (some ind.value.1)
                  (some i) hL.1 (by omega)⟩, ?_⟩
              rw [hcr]
              exact hrec.1
            · rw [show occp (rotateRight t (some ni)).1 (m + 2) (some i) =
                  i :: (occp (rotateRight t (some ni)).1 (m + 1) ind.left ++
                    occp (rotateRight t (some ni)).1 (m + 1) ind.right)
                  from by rw [occp, hgi], hocc, hcr, hLocc.1]
              exact List.Perm.cons i (List.Perm.append (List.Perm.refl _)
                hrec.2.1)
            · rw [show keysOf (rotateRight t (some ni)).1 (m + 2) (some i) =
                  ind.value.1 ::
                    (keysOf (rotateRight t (some ni)).1 (m + 1) ind.left ++
                    keysOf (rotateRight t (some ni)).1 (m + 1) ind.right)
                  from by rw [keysOf, hgi],
                show keysOf t (m + 1) (some i) =
                  ind.value.1 :: (keysOf t m ind.left ++
                    keysOf t m ind.right)
                  from by rw [keysOf, hg], hcr, hLocc.2]
              exact List.Perm.cons _ (List.Perm.append (List.Perm.refl _)
                hrec.2.2.1)
            · intro x hx
              rw [hocc] at hx
              refine hrec.2.2.2.1 x ?_
              intro h
              exact hx (List.mem_cons_of_mem _ (List.mem_append_right _
                (by rw [hcr]; exact h)))


/-- `RotateLeft` anywhere in a well-formed tree preserves the root
invariant: same key multiset, same visited-index multiset, checked one
fuel higher at the (possibly reseated) root. -/
theorem rotL_whole {t : MapNN} {F : Nat} {ni pp : Nat}
    {nnd : TNode (Nat × Nat)}
    (hchk : chk t F t.root none none none = true)
    (hnodup : (occp t F t.root).Nodup)
    (hmem : ni ∈ occp t F t.root)
    (hn : getNode t ni = some nnd) (hr : nnd.right = some pp) :
    chk (rotateLeft t (some ni)).1 (F + 1)
      (rotateLeft t (some ni)).1.root none none none = true ∧
    (occp (rotateLeft t (some ni)).1 (F + 1)
      (rotateLeft t (some ni)).1.root).Perm (occp t F t.root) ∧
    (keysOf (rotateLeft t (some ni)).1 (F + 1)
      (rotateLeft t (some ni)).1.root).Perm (keysOf t F t.root) := by
  cases hroot : t.root with
  | none =>
    rw [hroot] at hmem
    simp [occp_none] at hmem
  | some r =>
    rw [hroot] at hchk hnodup hmem
    by_cases hnir : ni = r
    · subst hnir
      obtain ⟨F2, rfl⟩ := chk_two_of_child hn hr hchk
      have hres := rotL_at_root hn hr hchk hnodup
      rw [hres.2.2.2.2]
      exact ⟨hres.1, hres.2.1, hres.2.2.1⟩
    · have hres := rotL_glob hn hr F r none none none hchk hnodup
        hmem hnir
      rw [hres.2.2.2.2, hroot]
      exact ⟨hres.1, hres.2.1, hres.2.2.1⟩

/-- Mirror of `rotL_whole` for `RotateRight`. -/
theorem rotR_whole {t : MapNN} {F : Nat} {ni pp : Nat}
    {nnd : TNode (Nat × Nat)}
    (hchk : chk t F t.root none none none = true)
    (hnodup : (occp t F t.root).Nodup)
    (hmem : ni ∈ occp t F t.root)
    (hn : getNode t ni = some nnd) (hr : nnd.left = some pp) :
    chk (rotateRight t (some ni)).1 (F + 1)
      (rotateRight t (some ni)).1.root none none none = true ∧
    (occp (rotateRight t (some ni)).1 (F + 1)
      (rotateRight t (some ni)).1.root).Perm (occp t F t.root) ∧
    (keysOf (rotateRight t (some ni)).1 (F + 1)
      (rotateRight t (some ni)).1.root).Perm (keysOf t F t.root) := by
  cases hroot : t.root with
  | none =>
    rw [hroot] at hmem
    simp [occp_none] at hmem
  | some r =>
    rw [hroot] at hchk hnodup hmem
    by_cases hnir : ni = r
    · subst hnir
      obtain ⟨F2, rfl⟩ := chk_two_of_left_child hn hr hchk
      have hres := rotR_at_root hn hr hchk hnodup
      rw [hres.2.2.2.2]
      exact ⟨hres.1, hres.2.1, hres.2.2.1⟩
    · have hres := rotR_glob hn hr F r none none none hchk hnodup
        hmem hnir
      rw [hres.2.2.2.2, hroot]
      exact ⟨hres.1, hres.2.1, hres.2.2.1⟩

theorem rotateLeft_noop {t : MapNN} {m : Nat}
    (h : rightOf t (some m) = none) : (rotateLeft t (some m)).1 = t := by
  unfold rotateLeft
  dsimp only
  rw [h]

theorem rotateRight_noop {t : MapNN} {m : Nat}
    (h : leftOf t (some m) = none) : (rotateRight t (some m)).1 = t := by
  unfold rotateRight
  dsimp only
  rw [h]

/-- One `RotateLeft` call as `FixInsert` issues it: whatever the (possibly
null) argument, the root invariant survives with the same keys and visited
indices. -/
theorem rotL_step {t : MapNN} {F : Nat} (z : Option Nat)
    (hchk : chk t F t.root none none none = true)
    (hnodup : (occp t F t.root).Nodup)
    (hz : ∀ m, z = some m → m ∈ occp t F t.root) :
    ∃ F', chk (rotateLeft t z).1 F'
        (rotateLeft t z).1.root none none none = true ∧
      (occp (rotateLeft t z).1 F'
        (rotateLeft t z).1.root).Perm (occp t F t.root) ∧
      (keysOf (rotateLeft t z).1 F'
        (rotateLeft t z).1.root).Perm (keysOf t F t.root) := by
  cases z with
  | none =>
    exact ⟨F, hchk, List.Perm.refl _, List.Perm.refl _⟩
  | some m =>
    have hm := hz m rfl
    obtain ⟨mnd, hmn, _⟩ := parent_in_occ F t.root none none none hchk m hm
    cases hmr : mnd.right with
    | none =>
      have hnoop : (rotateLeft t (some m)).1 = t :=
        rotateLeft_noop (by rw [rightOf_eq hmn, hmr])
      rw [hnoop]
      exact ⟨F, hchk, List.Perm.refl _, List.Perm.refl _⟩
    | some pp =>
      have hres := rotL_whole hchk hnodup hm hmn hmr
      exact ⟨F + 1, hres.1, hres.2.1, hres.2.2⟩

/-- Mirror of `rotL_step` for `RotateRight`. -/
theorem rotR_step {t : MapNN} {F : Nat} (z : Option Nat)
    (hchk : chk t F t.root none none none = true)
    (hnodup : (occp t F t.root).Nodup)
    (hz : ∀ m, z = some m → m ∈ occp t F t.root) :
    ∃ F', chk (rotateRight t z).1 F'
        (rotateRight t z).1.root none none none = true ∧
      (occp (rotateRight t z).1 F'
        (rotateRight t z).1.root).Perm (occp t F t.root) ∧
      (keysOf (rotateRight t z).1 F'
        (rotateRight t z).1.root).Perm (keysOf t F t.root) := by
  cases z with
  | none =>
    exact ⟨F, hchk, List.Perm.refl _, List.Perm.refl _⟩
  | some m =>
    have hm := hz m rfl
    obtain ⟨mnd, hmn, _⟩ := parent_in_occ F t.root none none none hchk m hm
    cases hmr : mnd.left with
    | none =>
      have hnoop : (rotateRight t (some m)).1 = t :=
        rotateRight_noop (by rw [leftOf_eq hmn, hmr])
      rw [hnoop]
      exact ⟨F, hchk, List.Perm.refl _, List.Perm.refl _⟩
    | some pp =>
      have hres := rotR_whole hchk hnodup hm hmn hmr
      exact ⟨F + 1, hres.1, hres.2.1, hres.2.2⟩

/-- `parentOf` steps stay among the visited indices (or fall off at the
root). -/
theorem parentOf_in_occ {t : MapNN} {F : Nat}
    (hchk : chk t F t.root none none none = true)
    (z : Option Nat) (hz : ∀ m, z = some m → m ∈ occp t F t.root) :
    ∀ m, parentOf t z = some m → m ∈ occp t F t.root := by
  intro m hpm
  cases z with
  | none => simp [parentOf, getNodeOpt] at hpm
  | some ni =>
    have hni := hz ni rfl
    obtain ⟨nd, hnd, hpar⟩ := parent_in_occ F t.root none none none hchk
      ni hni
    rw [parentOf_eq hnd] at hpm
    rcases hpar with hnone | ⟨q, hq, hqe⟩
    · rw [hnone] at hpm
      cases hpm
    · rw [hqe] at hpm
      cases hpm
      exact hq

/-- Transport the root invariant along a pointwise `core`-preserving,
root-preserving rewrite of the arena (recoloring). -/
theorem inv_congr {t t2 : MapNN} {F : Nat}
    (hcore : ∀ i, (getNode t2 i).map core = (getNode t i).map core)
    (hroot : t2.root = t.root)
    (hchk : chk t F t.root none none none = true) :
    chk t2 F t2.root none none none = true ∧
    occp t2 F t2.root = occp t F t.root ∧
    keysOf t2 F t2.root = keysOf t F t.root := by
  refine ⟨?_, ?_, ?_⟩
  · rw [hroot, chk_congr hcore]
    exact hchk
  · rw [hroot, occp_congr hcore]
  · rw [hroot, keysOf_congr hcore]

theorem setColor2_core (t' : MapNN) (z1 z2 : Option Nat) :
    (∀ i, (getNode (setColorOpt (setColorOpt t' z1 BLACK) z2 RED) i).map
      core = (getNode t' i).map core) ∧
    (setColorOpt (setColorOpt t' z1 BLACK) z2 RED).root = t'.root := by
  constructor
  · intro i
    rw [setColorOpt_core, setColorOpt_core]
  · rw [setColorOpt_root, setColorOpt_root]

theorem setColor3_core (t' : MapNN) (z0 z1 z2 : Option Nat) :
    (∀ i, (getNode (setColorOpt (setColorOpt (setColorOpt t' z0 BLACK) z1
      BLACK) z2 RED) i).map core = (getNode t' i).map core) ∧
    (setColorOpt (setColorOpt (setColorOpt t' z0 BLACK) z1 BLACK) z2
      RED).root = t'.root := by
  constructor
  · intro i
    rw [setColorOpt_core, setColorOpt_core, setColorOpt_core]
  · rw [setColorOpt_root, setColorOpt_root, setColorOpt_root]

/-- The `FixInsert` while-loop preserves the root invariant: whatever
recoloring and rotations it performs, the tree keeps a duplicate-free
checked arena storing the same keys — in particular `k`. -/
theorem fixInsertGo_pres {k : Nat} :
    ∀ (fuel : Nat) (t : MapNN) (n? : Option Nat) (F : Nat),
      chk t F t.root none none none = true →
      (occp t F t.root).Nodup →
      k ∈ keysOf t F t.root →
      (∀ m, n? = some m → m ∈ occp t F t.root) →
      ∃ F', chk (fixInsertGo fuel t n?) F'
          (fixInsertGo fuel t n?).root none none none = true ∧
        (occp (fixInsertGo fuel t n?) F'
          (fixInsertGo fuel t n?).root).Nodup ∧
        k ∈ keysOf (fixInsertGo fuel t n?) F'
          (fixInsertGo fuel t n?).root := by
  intro fuel
  induction fuel with
  | zero =>
    intro t n? F h1 h2 h3 _
    exact ⟨F, h1, h2, h3⟩
  | succ fl ih =>
    intro t n? F h1 h2 h3 hm
    unfold fixInsertGo
    dsimp only
    split
    case isFalse hcond => exact ⟨F, h1, h2, h3⟩
    case isTrue hcond =>
      have hmp := parentOf_in_occ h1 n? hm
      have hmg := parentOf_in_occ h1 (parentOf t n?) hmp
      split
      case isTrue hpg =>
        split
        case isTrue hunc =>
          -- recolor the uncle, the parent and the grandparent
          obtain ⟨hcore, hroot⟩ := setColor3_core t
            (leftOf t (parentOf t (parentOf t n?)))
            (parentOf (setColorOpt t
              (leftOf t (parentOf t (parentOf t n?))) BLACK) n?)
            (parentOf (setColorOpt (setColorOpt t
              (leftOf t (parentOf t (parentOf t n?))) BLACK)
              (parentOf (setColorOpt t
                (leftOf t (parentOf t (parentOf t n?))) BLACK) n?) BLACK)
              (parentOf (setColorOpt (setColorOpt t
                (leftOf t (parentOf t (parentOf t n?))) BLACK)
                (parentOf (setColorOpt t
                  (leftOf t (parentOf t (parentOf t n?))) BLACK) n?) BLACK)
                n?))
          obtain ⟨hchk3, hocc3, hkeys3⟩ := inv_congr hcore hroot h1
          have hs1 := parentOf_in_occ hchk3 n?
            (fun m hm' => by rw [hocc3]; exact hm m hm')
          have hs2 := parentOf_in_occ hchk3 _ hs1
          exact ih _ _ F hchk3 (by rw [hocc3]; exact h2)
            (by rw [hkeys3]; exact h3) hs2
        case isFalse hunc =>
          split
          case isTrue hstep =>
            dsimp only
            obtain ⟨F1, hchk1, hocc1, hkeys1⟩ := rotR_step
              (parentOf t n?) h1 h2 hmp
            have hnd1 : (occp (rotateRight t (parentOf t n?)).1 F1
                (rotateRight t (parentOf t n?)).1.root).Nodup :=
              hocc1.nodup_iff.mpr h2
            have hk1 : k ∈ keysOf (rotateRight t (parentOf t n?)).1 F1
                (rotateRight t (parentOf t n?)).1.root :=
              hkeys1.mem_iff.mpr h3
            have hm1 : ∀ m, parentOf t n? = some m →
                m ∈ occp (rotateRight t (parentOf t n?)).1 F1
                  (rotateRight t (parentOf t n?)).1.root := by
              intro m hm'
              exact hocc1.mem_iff.mpr (hmp m hm')
            obtain ⟨hcore, hroot⟩ := setColor2_core
              (rotateRight t (parentOf t n?)).1 _ _
            obtain ⟨hchk3, hocc3, hkeys3⟩ := inv_congr hcore hroot hchk1
            have hs1 := parentOf_in_occ hchk3 (parentOf t n?)
              (fun m hm' => by rw [hocc3]; exact hm1 m hm')
            have hs2 := parentOf_in_occ hchk3 _ hs1
            obtain ⟨F4, hchk4, hocc4, hkeys4⟩ := rotL_step _ hchk3
              (by rw [hocc3]; exact hnd1) hs2
            exact ih _ _ F4 hchk4 (hocc4.nodup_iff.mpr
                (by rw [hocc3]; exact hnd1))
              (hkeys4.mem_iff.mpr (by rw [hkeys3]; exact hk1))
              (fun m hm' => hocc4.mem_iff.mpr (by
                rw [hocc3]
                exact hm1 m hm'))
          case isFalse hstep =>
            dsimp only
            obtain ⟨hcore, hroot⟩ := setColor2_core t _ _
            obtain ⟨hchk3, hocc3, hkeys3⟩ := inv_congr hcore hroot h1
            have hs1 := parentOf_in_occ hchk3 n?
              (fun m hm' => by rw [hocc3]; exact hm m hm')
            have hs2 := parentOf_in_occ hchk3 _ hs1
            obtain ⟨F4, hchk4, hocc4, hkeys4⟩ := rotL_step _ hchk3
              (by rw [hocc3]; exact h2) hs2
            exact ih _ _ F4 hchk4 (hocc4.nodup_iff.mpr
                (by rw [hocc3]; exact h2))
              (hkeys4.mem_iff.mpr (by rw [hkeys3]; exact h3))
              (fun m hm' => hocc4.mem_iff.mpr (by
                rw [hocc3]
                exact hm m hm'))
      case isFalse hpg =>
        split
        case isTrue hunc =>
          obtain ⟨hcore, hroot⟩ := setColor3_core t
            (rightOf t (parentOf t (parentOf t n?))) _ _
          obtain ⟨hchk3, hocc3, hkeys3⟩ := inv_congr hcore hroot h1
          have hs1 := parentOf_in_occ hchk3 n?
            (fun m hm' => by rw [hocc3]; exact hm m hm')
          have hs2 := parentOf_in_occ hchk3 _ hs1
          exact ih _ _ F hchk3 (by rw [hocc3]; exact h2)
            (by rw [hkeys3]; exact h3) hs2
        case isFalse hunc =>
          split
          case isTrue hstep =>
            dsimp only
            obtain ⟨F1, hchk1, hocc1, hkeys1⟩ := rotL_step
              (parentOf t n?) h1 h2 hmp
            have hnd1 : (occp (rotateLeft t (parentOf t n?)).1 F1
                (rotateLeft t (parentOf t n?)).1.root).Nodup :=
              hocc1.nodup_iff.mpr h2
            have hk1 : k ∈ keysOf (rotateLeft t (parentOf t n?)).1 F1
                (rotateLeft t (parentOf t n?)).1.root :=
              hkeys1.mem_iff.mpr h3
            have hm1 : ∀ m, parentOf t n? = some m →
                m ∈ occp (rotateLeft t (parentOf t n?)).1 F1
                  (rotateLeft t (parentOf t n?)).1.root := by
              intro m hm'
              exact hocc1.mem_iff.mpr (hmp m hm')
            obtain ⟨hcore, hroot⟩ := setColor2_core
              (rotateLeft t (parentOf t n?)).1 _ _
            obtain ⟨hchk3, hocc3, hkeys3⟩ := inv_congr hcore hroot hchk1
            have hs1 := parentOf_in_occ hchk3 (parentOf t n?)
              (fun m hm' => by rw [hocc3]; exact hm1 m hm')
            have hs2 := parentOf_in_occ hchk3 _ hs1
            obtain ⟨F4, hchk4, hocc4, hkeys4⟩ := rotR_step _ hchk3
              (by rw [hocc3]; exact hnd1) hs2
            exact ih _ _ F4 hchk4 (hocc4.nodup_iff.mpr
                (by rw [hocc3]; exact hnd1))
              (hkeys4.mem_iff.mpr (by rw [hkeys3]; exact hk1))
              (fun m hm' => hocc4.mem_iff.mpr (by
                rw [hocc3]
                exact hm1 m hm'))
          case isFalse hstep =>
            dsimp only
            obtain ⟨hcore, hroot⟩ := setColor2_core t _ _
            obtain ⟨hchk3, hocc3, hkeys3⟩ := inv_congr hcore hroot h1
            have hs1 := parentOf_in_occ hchk3 n?
              (fun m hm' => by rw [hocc3]; exact hm m hm')
            have hs2 := parentOf_in_occ hchk3 _ hs1
            obtain ⟨F4, hchk4, hocc4, hkeys4⟩ := rotR_step _ hchk3
              (by rw [hocc3]; exact h2) hs2
            exact ih _ _ F4 hchk4 (hocc4.nodup_iff.mpr
                (by rw [hocc3]; exact h2))
              (hkeys4.mem_iff.mpr (by rw [hkeys3]; exact h3))
              (fun m hm' => hocc4.mem_iff.mpr (by
                rw [hocc3]
                exact hm m hm'))

/-- `FixInsert` preserves the root invariant (loop plus final root
recoloring). -/
theorem fixInsert_pres {k : Nat} {t : MapNN} {n : Nat} {F : Nat}
    (h1 : chk t F t.root none none none = true)
    (h2 : (occp t F t.root).Nodup)
    (h3 : k ∈ keysOf t F t.root)
    (hn : n ∈ occp t F t.root) :
    ∃ F', chk (fixInsert t n) F' (fixInsert t n).root none none none =
        true ∧
      (occp (fixInsert t n) F' (fixInsert t n).root).Nodup ∧
      k ∈ keysOf (fixInsert t n) F' (fixInsert t n).root := by
  obtain ⟨F', hc, hn', hk'⟩ := fixInsertGo_pres (t.nodes.length + 1) t
    (some n) F h1 h2 h3 (fun m hm => by cases hm; exact hn)
  unfold fixInsert
  have hcore := setColorOpt_core (fixInsertGo (t.nodes.length + 1) t
    (some n)) (fixInsertGo (t.nodes.length + 1) t (some n)).root BLACK
  have hroot := setColorOpt_root (fixInsertGo (t.nodes.length + 1) t
    (some n)) (fixInsertGo (t.nodes.length + 1) t (some n)).root BLACK
  obtain ⟨hc2, ho2, hk2⟩ := inv_congr hcore hroot hc
  exact ⟨F', hc2, by rw [ho2]; exact hn', by rw [hk2]; exact hk'⟩

/-- Any tree satisfying the root invariant at some fuel reports `Contains`
for each stored key: renormalize the fuel below the slot count, then run
the search. -/
theorem contains_of_inv {t : MapNN} {F k : Nat}
    (h1 : chk t F t.root none none none = true)
    (h2 : (occp t F t.root).Nodup)
    (h3 : k ∈ keysOf t F t.root) :
    mapContains t k = true := by
  have hs := chk_shrink F t.root none none none h1
  have hlen := occ_length_le h1 h2
  have hm1 := occp_keysOf_mono F (max F (occp t F t.root).length) t.root
    none none none h1 (Nat.le_max_left _ _)
  have hm2 := occp_keysOf_mono (occp t F t.root).length
    (max F (occp t F t.root).length) t.root none none none hs
    (Nat.le_max_right _ _)
  have hk : k ∈ keysOf t (occp t F t.root).length t.root := by
    rw [← hm2.2, hm1.2]
    exact h3
  obtain ⟨j, hj⟩ := searchGo_found (occp t F t.root).length t.root
    none none none k hs hk (t.nodes.length + 1) (by omega)
  unfold mapContains searchRB
  rw [hj]

/-- `Map::At` on a well-formed map with an absent key yields a map that
`Contains` the key: the walk grafts it and `FixInsert` preserves the
searchable structure. -/
theorem mapAt_contains {m : MapNN} {k : Nat} (hWF : WFrb m)
    (habs : mapContains m k = false) :
    mapContains (mapAt m k).1 k = true := by
  cases hroot : m.root with
  | none =>
    -- empty-tree branch of Insert: a fresh BLACK root
    have hres : (mapAt m k).1 = setColorOpt { m with
        nodes := m.nodes ++ [some ⟨(k, 0), RED, none, none, none⟩],
        root := some m.nodes.length,
        numNodes := m.numNodes + 1 } (some m.nodes.length) BLACK := by
      unfold mapAt insertRB
      rw [hroot]
    rw [hres]
    have hnode : getNode ({ m with
        nodes := m.nodes ++ [some ⟨(k, 0), RED, none, none, none⟩],
        root := some m.nodes.length,
        numNodes := m.numNodes + 1 } : MapNN) m.nodes.length =
        some ⟨(k, 0), RED, none, none, none⟩ := by
      unfold getNode
      dsimp only
      rw [List.getD_append_right _ _ _ _ (Nat.le_refl _), Nat.sub_self]
      rfl
    have hnode2 : getNode (setColorOpt { m with
        nodes := m.nodes ++ [some ⟨(k, 0), RED, none, none, none⟩],
        root := some m.nodes.length,
        numNodes := m.numNodes + 1 } (some m.nodes.length) BLACK)
        m.nodes.length = some ⟨(k, 0), BLACK, none, none, none⟩ := by
      unfold setColorOpt
      dsimp only
      rw [getNode_updNode_self hnode]
    have hroot2 : (setColorOpt { m with
        nodes := m.nodes ++ [some ⟨(k, 0), RED, none, none, none⟩],
        root := some m.nodes.length,
        numNodes := m.numNodes + 1 } (some m.nodes.length) BLACK).root =
        some m.nodes.length := by
      rw [setColorOpt_root]
    have hlen2 : (setColorOpt { m with
        nodes := m.nodes ++ [some ⟨(k, 0), RED, none, none, none⟩],
        root := some m.nodes.length,
        numNodes := m.numNodes + 1 } (some m.nodes.length)
        BLACK).nodes.length = m.nodes.length + 1 := by
      unfold setColorOpt
      dsimp only
      rw [updNode_length]
      dsimp only
      rw [List.length_append]
      rfl
    unfold mapContains searchRB
    rw [hroot2, hlen2]
    rw [show searchGo pairLess pairEqual (m.nodes.length + 1 + 1) _
        (some m.nodes.length) (k, 0) = some (some m.nodes.length) from by
      rw [searchGo, hnode2]
      dsimp only
      rw [show pairEqual (k, 0) (⟨(k, 0), BLACK, none, none,
        none⟩ : TNode (Nat × Nat)).value = true from by simp [pairEqual]]
      rfl]
  | some r =>
    have hWF1 := hWF.1
    have hWF2 := hWF.2
    rw [hroot] at hWF1 hWF2
    cases hlen : m.nodes.length with
    | zero =>
      rw [hlen] at hWF1
      exact absurd hWF1 (by unfold chk; simp)
    | succ L =>
      rw [hlen] at hWF1 hWF2
      obtain ⟨rnd, hrnd⟩ := chk_node hWF1
      have habs' : k ∉ keysOf m (L + 1) (some r) := by
        intro hmem
        have := contains_of_mem hWF (by rw [hroot, hlen]; exact hmem)
        rw [habs] at this
        cases this
      have hkr : k ≠ rnd.value.1 := by
        intro he
        refine habs' ?_
        rw [keysOf, hrnd]
        dsimp only
        exact he ▸ List.mem_cons_self _ _
      have heqf : pairEqual rnd.value (k, 0) = false := by
        simp [pairEqual]
        exact fun he => hkr he.symm
      by_cases hlt : k < rnd.value.1
      · have hlesst : pairLess (k, 0) rnd.value = true := by
          simp [pairLess, hlt]
        obtain ⟨g, heq, hgp⟩ := insertGo_walk 0 L m.nodes.length r true
          none none none rnd hrnd hWF1 hWF2 habs'
          (by simp only [if_true]; exact ⟨rfl, hlt⟩) (by omega)
        obtain ⟨hchkg, hsubg, hnodupg, hkg, hfrg, hrootg, hmemg⟩ := hgp
        have hres : (mapAt m k).1 = fixInsert g m.nodes.length := by
          unfold mapAt insertRB
          rw [hroot]
          dsimp only
          rw [hrnd]
          dsimp only
          rw [heqf]
          simp only [Bool.false_eq_true, if_false]
          rw [hlesst]
          simp only [if_true]
          rw [heq]
        have hrootg2 : g.root = some r := by rw [hrootg, hroot]
        obtain ⟨F', hc, hn', hk'⟩ := fixInsert_pres (t := g)
          (n := m.nodes.length) (F := L + 2)
          (by rw [hrootg2]; exact hchkg) (by rw [hrootg2]; exact hnodupg)
          (by rw [hrootg2]; exact hkg)
          (by rw [hrootg2]; exact hmemg)
        rw [hres]
        exact contains_of_inv hc hn' hk'
      · have hgt : rnd.value.1 < k := by
          rcases Nat.lt_or_ge k rnd.value.1 with h | h
          · exact absurd h hlt
          · rcases Nat.eq_or_lt_of_le h with h2 | h2
            · exact absurd h2.symm hkr
            · exact h2
        have hlessf : pairLess (k, 0) rnd.value = false := by
          simp [pairLess]; omega
        obtain ⟨g, heq, hgp⟩ := insertGo_walk 0 L m.nodes.length r false
          none none none rnd hrnd hWF1 hWF2 habs'
          (by simp only [Bool.false_eq_true, if_false]; exact ⟨hgt, rfl⟩)
          (by omega)
        obtain ⟨hchkg, hsubg, hnodupg, hkg, hfrg, hrootg, hmemg⟩ := hgp
        have hres : (mapAt m k).1 = fixInsert g m.nodes.length := by
          unfold mapAt insertRB
          rw [hroot]
          dsimp only
          rw [hrnd]
          dsimp only
          rw [heqf]
          simp only [Bool.false_eq_true, if_false]
          rw [hlessf]
          simp only [Bool.false_eq_true, if_false]
          rw [heq]
        have hrootg2 : g.root = some r := by rw [hrootg, hroot]
        obtain ⟨F', hc, hn', hk'⟩ := fixInsert_pres (t := g)
          (n := m.nodes.length) (F := L + 2)
          (by rw [hrootg2]; exact hchkg) (by rw [hrootg2]; exact hnodupg)
          (by rw [hrootg2]; exact hkg)
          (by rw [hrootg2]; exact hmemg)
        rw [hres]
        exact contains_of_inv hc hn' hk'

/-- C10: on a well-formed map and an absent key `k`, both
`Map::operator[](k)` and `Map::At(k)` (which share one body:
`RBTree::Insert(Pair(key, typeV()))`) silently insert a new entry for `k`
holding the default-constructed value: `Size()` grows by one,
`Contains(k)` becomes true, and the call returns the node holding
`(k, 0)` — whereas `Get(k)` on the same map raises the out-of-range
error and inserts nothing. -/
theorem mapAt_indexOp_absent_insert_default (m : MapNN) (k : Nat)
    (hWF : WFrb m) (habs : mapContains m k = false) :
    mapAt m k = mapIndexOp m k ∧
    mapSize (mapAt m k).1 = mapSize m + 1 ∧
    mapContains (mapAt m k).1 k = true ∧
    (∃ j, (mapAt m k).2 = some j ∧
      valueAt? (mapAt m k).1 j = some (k, 0)) ∧
    mapGet m k = Except.error "Key not found in the map" := by
  have hins := mapInsert_absent m k 0
    (searchRB_none_of_not_contains hWF habs)
  refine ⟨rfl, hins.1, mapAt_contains hWF habs, hins.2, ?_⟩
  unfold mapGet
  have h := habs
  unfold mapContains at h
  cases e : searchRB pairLess pairEqual m (k, 0) with
  | none => rfl
  | some oi =>
    cases oi with
    | none => rfl
    | some i =>
      rw [e] at h
      simp at h

/-- C10, witness: the one-entry map `{1 ↦ 2}` is well-formed and lacks key
`0`; `At(0)` then inserts the default entry and `Contains(0)` holds. -/
theorem mapAt_indexOp_absent_insert_default_witness :
    WFrb (mapInsert mapEmpty 1 2).1 ∧
    mapContains (mapInsert mapEmpty 1 2).1 0 = false ∧
    mapContains (mapAt (mapInsert mapEmpty 1 2).1 0).1 0 = true ∧
    mapSize (mapAt (mapInsert mapEmpty 1 2).1 0).1 =
      mapSize (mapInsert mapEmpty 1 2).1 + 1 :=
  ⟨⟨by decide, by decide⟩, by decide,
    (mapAt_indexOp_absent_insert_default (mapInsert mapEmpty 1 2).1 0
      ⟨by decide, by decide⟩ (by decide)).2.2.1,
    (mapAt_indexOp_absent_insert_default (mapInsert mapEmpty 1 2).1 0
      ⟨by decide, by decide⟩ (by decide)).2.1⟩

end SudokuSpec
